import Mathlib

/-!
# converterTool: the ICO encoder (`writeICO`) and the BMP frame packer (`createBMPWithAlpha`)

A shallow embedding of `src/main.go`, lines 117-227, and theorems about it.

Conventions of the embedding.

* A byte is a `Nat` below 256; a byte slice is a `List Nat`.
* A Go `int` is an `Int`; every arithmetic operation on it is followed by `wrapInt`, the
  two's-complement wrap of a 64-bit `int`.  Conversions `uint32(..)` and `byte(..)` reduce
  modulo `2^32` and `2^8`.
* A call that does not return (a run-time panic: `make` length out of range, index out of
  range; or the abort of an allocation the machine cannot serve) is the value `none` of an
  `Option`, or the outcome `Outcome.panic`.
* The allocator is part of the environment: `mem` is the largest byte slice the machine
  serves to `make`.  Whatever `mem` is, the Go runtime refuses a length above `maxAlloc`.
  Only the two allocations whose size depends on the input (`pixels`, `bmpData`) are
  modelled; the allocations of fixed or list-length size are taken to succeed.
* The output file is a `Sink`: it records the chunks handed to `Write`, the bytes each call
  delivered, and a schedule saying which `Write` call fails, with which error and after how
  many bytes of its chunk.  A `Write` that succeeds delivers its chunk whole; a `Write` that
  fails delivers a prefix of its chunk, possibly empty (`writeICO` discards the byte count
  that `Write` returns).
* The progress message of the second pass (`println`) goes to standard error and is not part
  of the model; only its read of `sizes[i]`, which may panic, is.
* `bmpDataList`, filled at index `i` in iteration `i`, is the list of the frames built so far.
-/

namespace ConverterTool

/-! ## Machine integers -/

/-- Two's-complement wrap of a mathematical integer into the range of a 64-bit Go `int`. -/
@[irreducible]
def wrapInt (z : Int) : Int :=
  (z + 9223372036854775808) % 18446744073709551616 - 9223372036854775808

/-- The conversion `uint32(z)` of a Go `int`. -/
def toUint32 (z : Int) : Nat := (z % 4294967296).toNat

/-- The conversion `byte(z)` of a Go `int`. -/
def toByte (z : Int) : Nat := (z % 256).toNat

/-- The expression `byte(v >> 8)` on a `uint32` channel value. -/
def channelByte (v : Nat) : Nat := v / 256 % 256

/-- The expression `byte((z >> k) & 0xFF)` on a Go `int`, where `d = 2^k`
(an arithmetic shift is a floor division). -/
def shiftByte (z : Int) (d : Int) : Nat := (z / d % 256).toNat

/-! ## Images (`image.Image`) -/

/-- The Go type `image.Point`. -/
structure Point where
  X : Int
  Y : Int

/-- The Go type `image.Rectangle`. -/
structure Rectangle where
  Min : Point
  Max : Point

/-- The method `Rectangle.Dx`: `r.Max.X - r.Min.X`. -/
def Rectangle.Dx (r : Rectangle) : Int := wrapInt (r.Max.X - r.Min.X)

/-- The method `Rectangle.Dy`: `r.Max.Y - r.Min.Y`. -/
def Rectangle.Dy (r : Rectangle) : Int := wrapInt (r.Max.Y - r.Min.Y)

/-- The four `uint32` values returned by `color.Color.RGBA()`. -/
structure Color where
  r : Nat
  g : Nat
  b : Nat
  a : Nat

/-- The interface `image.Image`: its bounds and its pixel accessor (`At(x, y).RGBA()`). -/
structure Image where
  Bounds : Rectangle
  At : Int → Int → Color

/-! ## The output sink (`*os.File`) -/

/-- An error value returned by a failed `Write`. -/
structure IOError where
  code : Nat
  deriving DecidableEq, Repr

/-- The output file.  `failure k` is the error with which the `k`-th `Write` call (counted
from 0) fails, if it fails, and `short k` the number of bytes of its chunk that the call has
delivered when it fails; `issued` are the arguments of the calls made so far and `received`
what each call delivered (the whole chunk of a call that succeeded, a prefix of the chunk of
a call that failed), both in call order. -/
structure Sink where
  failure : Nat → Option IOError
  short : Nat → Nat
  issued : List (List Nat)
  received : List (List Nat)

/-- A sink on which nothing has been written yet. -/
def Sink.fresh (failure : Nat → Option IOError) (short : Nat → Nat) : Sink :=
  ⟨failure, short, [], []⟩

/-- The call `writer.Write(b)`: the chunk is delivered whole, or the call fails after it has
delivered the first `short k` bytes of the chunk (all of it when the chunk is shorter). -/
def Sink.Write (w : Sink) (b : List Nat) : Sink × Option IOError :=
  match w.failure w.issued.length with
  | none => ({ w with issued := w.issued ++ [b], received := w.received ++ [b] }, none)
  | some e =>
    ({ w with issued := w.issued ++ [b],
              received := w.received ++ [b.take (w.short w.issued.length)] }, some e)

/-- The bytes the sink holds: what the calls delivered, concatenated. -/
def Sink.bytes (w : Sink) : List Nat := w.received.flatten

/-- How a call of `writeICO` ends: it returns `nil`, returns an error, or panics. -/
inductive Outcome where
  | nil : Outcome
  | error (e : IOError) : Outcome
  | panic : Outcome
  deriving DecidableEq, Repr

/-! ## Byte-slice primitives -/

/-- The allocation limit of the Go runtime on a 64-bit platform (`maxAlloc`, `1 << 48`
bytes): `make` panics with "len out of range" on a length above it. -/
def maxAlloc : Nat := 281474976710656

/-- The builtin `make([]byte, n)` on a machine that serves slices of up to `mem` bytes: it
panics on a negative length and on a length above `maxAlloc`, and does not return either when
the machine cannot serve the request. -/
def makeBytes (mem : Nat) (n : Int) : Option (List Nat) :=
  if 0 ≤ n ∧ n ≤ (mem : Int) ∧ n ≤ (maxAlloc : Int) then some (List.replicate n.toNat 0)
  else none

/-- The assignment `buf[i] = v`: panics when `i` is out of range. -/
def store (buf : List Nat) (i : Int) (v : Nat) : Option (List Nat) :=
  if 0 ≤ i ∧ i < buf.length then some (buf.set i.toNat v) else none

/-- The call `binary.LittleEndian.PutUint32(buf[off:off+4], v)` for a `uint32` value `v`. -/
def putUint32 (buf : List Nat) (off : Nat) (v : Nat) : List Nat :=
  (((buf.set off (v % 256)).set (off + 1) (v / 256 % 256)).set (off + 2)
    (v / 65536 % 256)).set (off + 3) (v / 16777216 % 256)

/-- The call `binary.LittleEndian.PutUint16(buf[off:off+2], v)` for a `uint16` value `v`. -/
def putUint16 (buf : List Nat) (off : Nat) (v : Nat) : List Nat :=
  (buf.set off (v % 256)).set (off + 1) (v / 256 % 256)

/-- The builtin `copy(dst[lo:hi], src)`: copies `min(hi - lo, len(src))` bytes. -/
def copyInto (dst : List Nat) (lo hi : Nat) (src : List Nat) : List Nat :=
  dst.take lo ++ src.take (hi - lo) ++ dst.drop (lo + min (hi - lo) src.length)

/-! ## `createBMPWithAlpha` (lines 189-227) -/

/-- Lines 195-206: the 40-byte BITMAPINFOHEADER. -/
def bmpHeader (width height : Int) : List Nat :=
  let header := List.replicate 40 0
  let header := putUint32 header 0 40
  let header := putUint32 header 4 (toUint32 width)
  let header := putUint32 header 8 (toUint32 (wrapInt (height * 2)))
  let header := putUint16 header 12 1
  let header := putUint16 header 14 32
  let header := putUint32 header 16 0
  let header := putUint32 header 20 (toUint32 (wrapInt (wrapInt (width * height) * 4)))
  let header := putUint32 header 24 0
  let header := putUint32 header 28 0
  let header := putUint32 header 32 0
  let header := putUint32 header 36 0
  header

/-- Lines 212-217: the body of the inner loop, for the pixel at `(x, y)`. -/
def pixelBody (img : Image) (width : Int) (y x : Int) (pixels : List Nat) :
    Option (List Nat) :=
  let c := img.At x y
  let offset := wrapInt (wrapInt (wrapInt (y * width) + x) * 4)
  (store pixels offset (channelByte c.b)).bind fun pixels =>
  (store pixels (wrapInt (offset + 1)) (channelByte c.g)).bind fun pixels =>
  (store pixels (wrapInt (offset + 2)) (channelByte c.r)).bind fun pixels =>
  store pixels (wrapInt (offset + 3)) (channelByte c.a)

/-- Lines 211-218: the loop `for x := 0; x < width; x++` of row `y`. -/
def rowLoop (img : Image) (width : Int) (y : Int) (pixels : List Nat) : Option (List Nat) :=
  (List.range width.toNat).foldlM
    (fun pixels (x : Nat) => pixelBody img width y (x : Int) pixels) pixels

/-- Lines 210-219: the loop `for y := 0; y < height; y++`. -/
def pixelLoop (img : Image) (width height : Int) (pixels : List Nat) : Option (List Nat) :=
  (List.range height.toNat).foldlM
    (fun pixels (y : Nat) => rowLoop img width (y : Int) pixels) pixels

/-- The function `createBMPWithAlpha` on a machine that serves slices of up to `mem` bytes:
`none` is a call that does not return, `some (bmpData, err)` a return. -/
def createBMPWithAlpha (mem : Nat) (img : Image) : Option (List Nat × Option IOError) :=
  let bounds := img.Bounds
  let width := bounds.Dx
  let height := bounds.Dy
  let header := bmpHeader width height
  (makeBytes mem (wrapInt (wrapInt (width * height) * 4))).bind fun pixels =>
  (pixelLoop img width height pixels).bind fun pixels =>
  (makeBytes mem (wrapInt (40 + pixels.length))).bind fun bmpData =>
  let bmpData := copyInto bmpData 0 40 header
  let bmpData := copyInto bmpData 40 bmpData.length pixels
  some (bmpData, none)

/-! ## `writeICO` (lines 117-187) -/

/-- Lines 143-167: the 16-byte directory entry of a raster with the given bounds, whose
frame has `len` bytes, at running offset `offset`. -/
def entry (width height : Int) (len : Int) (offset : Int) : List Nat :=
  [ (if width ≥ 256 then 0 else toByte width),
    (if height ≥ 256 then 0 else toByte height),
    0, 0, 1, 0, 32, 0,
    shiftByte len 1, shiftByte len 256, shiftByte len 65536, shiftByte len 16777216,
    shiftByte offset 1, shiftByte offset 256, shiftByte offset 65536,
    shiftByte offset 16777216 ]

/-- Lines 130-175, the first pass: for each image build its frame, write its directory entry
and advance the running offset.  The result is the sink together with either the way the call
ends early or the collected `bmpDataList`. -/
def firstPass (mem : Nat) : List Image → Sink → Int → List (List Nat) →
    Sink × (Outcome ⊕ List (List Nat))
  | [], writer, _, bmpDataList => (writer, Sum.inr bmpDataList)
  | img :: rest, writer, offset, bmpDataList =>
    match createBMPWithAlpha mem img with
    | none => (writer, Sum.inl Outcome.panic)
    | some (_, some err) => (writer, Sum.inl (Outcome.error err))
    | some (bmpData, none) =>
      let bounds := img.Bounds
      let width := bounds.Dx
      let height := bounds.Dy
      match writer.Write (entry width height bmpData.length offset) with
      | (writer, some err) => (writer, Sum.inl (Outcome.error err))
      | (writer, none) =>
        firstPass mem rest writer (wrapInt (offset + bmpData.length))
          (bmpDataList ++ [bmpData])

/-- Lines 178-184, the second pass: write the frames in order; `sizes[i]` is read (for the
progress message) before each write. -/
def secondPass : List (List Nat) → Nat → List Int → Sink → Sink × Outcome
  | [], _, _, writer => (writer, Outcome.nil)
  | bmpData :: rest, i, sizes, writer =>
    match sizes[i]? with
    | none => (writer, Outcome.panic)
    | some _ =>
      match writer.Write bmpData with
      | (writer, some err) => (writer, Outcome.error err)
      | (writer, none) => secondPass rest (i + 1) sizes writer

/-- The function `writeICO` on a machine that serves slices of up to `mem` bytes. -/
def writeICO (mem : Nat) (writer : Sink) (images : List Image) (sizes : List Int) :
    Sink × Outcome :=
  let header := [0, 0, 1, 0, toByte images.length, 0]
  match writer.Write header with
  | (writer, some err) => (writer, Outcome.error err)
  | (writer, none) =>
    let offset := wrapInt (6 + wrapInt (images.length * 16))
    match firstPass mem images writer offset [] with
    | (writer, Sum.inl out) => (writer, out)
    | (writer, Sum.inr bmpDataList) => secondPass bmpDataList 0 sizes writer

/-! ## Test rasters -/

/-- An image with bounds `[0,w) x [0,h)` and the given accessor. -/
def mkImage (w h : Int) (at_ : Int → Int → Color) : Image :=
  ⟨⟨⟨0, 0⟩, ⟨w, h⟩⟩, at_⟩

/-- A sink that never fails. -/
def okSink : Sink := Sink.fresh (fun _ => none) (fun _ => 0)


/-! ## Closed forms used to state the results -/

/-- The four bytes of a 32-bit value, least significant first. -/
def le32 (v : Nat) : List Nat := [v % 256, v / 256 % 256, v / 65536 % 256, v / 16777216 % 256]

/-- The two bytes of a 16-bit value, least significant first. -/
def le16 (v : Nat) : List Nat := [v % 256, v / 256 % 256]

/-- The value of four bytes read as a little-endian 32-bit number. -/
def readLE32 (b0 b1 b2 b3 : Nat) : Nat := b0 + 256 * b1 + 65536 * b2 + 16777216 * b3

/-- The little-endian 32-bit number stored in `bytes` at position `pos`, if the four bytes
are there. -/
def readLE32At (bytes : List Nat) (pos : Nat) : Option Nat :=
  match bytes[pos]?, bytes[pos + 1]?, bytes[pos + 2]?, bytes[pos + 3]? with
  | some b0, some b1, some b2, some b3 => some (readLE32 b0 b1 b2 b3)
  | _, _, _, _ => none

/-- The `k`-th stored byte of a pixel: blue, green, red, alpha, each channel shifted right
by 8 and truncated to a byte. -/
def bgra (c : Color) (k : Nat) : Nat :=
  match k with
  | 0 => channelByte c.b
  | 1 => channelByte c.g
  | 2 => channelByte c.r
  | _ => channelByte c.a

/-- The byte at index `i` of the pixel data of a frame of width `w`: channel `i % 4` of the
pixel read at column `(i / 4) % w`, row `(i / 4) / w`. -/
def pixelByte (img : Image) (w : Nat) (i : Nat) : Nat :=
  bgra (img.At ((i / 4 % w : Nat) : Int) ((i / 4 / w : Nat) : Int)) (i % 4)

/-- The pixel data of a frame of width `w` and height `h`, in closed form. -/
def pixelData (img : Image) (w h : Nat) : List Nat :=
  (List.range (4 * (h * w))).map (pixelByte img w)

/-- The frame of an image in closed form: the 40-byte header, then the pixel data. -/
def frame (img : Image) : List Nat :=
  bmpHeader img.Bounds.Dx img.Bounds.Dy ++
    pixelData img img.Bounds.Dx.toNat img.Bounds.Dy.toNat

/-- A raster in the sense of the data model: width and height are both positive. -/
def IsRaster (img : Image) : Prop := 0 < img.Bounds.Dx ∧ 0 < img.Bounds.Dy

/-- The bounds are well formed: neither the width nor the height is negative. -/
def WellFormed (img : Image) : Prop := 0 ≤ img.Bounds.Dx ∧ 0 ≤ img.Bounds.Dy

/-- The frame of an image can be allocated: its length, `40 + 4 * H * W` bytes, is at most
what the machine serves and at most the limit `maxAlloc` of the runtime. -/
def Fits (mem : Nat) (img : Image) : Prop :=
  40 + 4 * (img.Bounds.Dy.toNat * img.Bounds.Dx.toNat) ≤ mem ∧
    40 + 4 * (img.Bounds.Dy.toNat * img.Bounds.Dx.toNat) ≤ maxAlloc

/-- The directory entries of a list of images in closed form, from running offset `offset`. -/
def dirEntries (offset : Int) : List Image → List (List Nat)
  | [] => []
  | img :: rest =>
    entry img.Bounds.Dx img.Bounds.Dy (frame img).length offset ::
      dirEntries (wrapInt (offset + (frame img).length)) rest

/-- The six bytes of the ICO header for `n` images. -/
def icoHeader (n : Nat) : List Nat := [0, 0, 1, 0, toByte n, 0]

/-- The chunks of a complete ICO file in closed form: header, directory entries, frames. -/
def icoChunks (images : List Image) : List (List Nat) :=
  icoHeader images.length ::
    (dirEntries (wrapInt (6 + wrapInt (images.length * 16))) images ++ images.map frame)

/-- The sink after the chunks `cs` have been written and delivered whole. -/
def Sink.append (w : Sink) (cs : List (List Nat)) : Sink :=
  ⟨w.failure, w.short, w.issued ++ cs, w.received ++ cs⟩

/-- The sink after the write of the chunk `b` has failed. -/
def Sink.reject (w : Sink) (b : List Nat) : Sink :=
  ⟨w.failure, w.short, w.issued ++ [b], w.received ++ [b.take (w.short w.issued.length)]⟩

/-- The sink never fails. -/
def Sink.NeverFails (w : Sink) : Prop := ∀ k, w.failure k = none

/-- The loop invariant: the buffer has `len` bytes and its first `k` bytes are final. -/
def Filled (img : Image) (w : Nat) (len k : Nat) (p : List Nat) : Prop :=
  p.length = len ∧ ∀ i, i < k → p[i]? = some (pixelByte img w i)

/-- The running offset of `writeICO` when it reaches image `i`, starting from `offset`. -/
def runOffset (offset : Int) : List Image → Nat → Int
  | [], _ => offset
  | _ :: _, 0 => offset
  | img :: rest, i + 1 => runOffset (wrapInt (offset + (frame img).length)) rest i

/-- The total length of the frames of a list of images. -/
def framesLength (images : List Image) : Nat :=
  (images.map fun img => (frame img).length).sum

/-- The width or height byte of a directory entry: the dimension if below 256, else 0. -/
def dimByte (d : Int) : Nat := if d < 256 then d.toNat else 0

/-- No write has failed so far: the sink holds every chunk handed to it, whole. -/
def Sink.Clean (w : Sink) : Prop :=
  w.received = w.issued ∧ ∀ j, j < w.issued.length → w.failure j = none

/-- The last write handed to the sink is the first one that failed, with error `e`: the sink
holds the chunks of the writes before it, and the prefix the failed write delivered. -/
def Sink.FailedWith (w : Sink) (e : IOError) : Prop :=
  ∃ k, w.failure k = some e ∧ (∀ j, j < k → w.failure j = none) ∧
    w.issued.length = k + 1 ∧
    w.received = w.issued.take k ++ (w.issued.drop k).map (List.take (w.short k))

/-- The state of the sink that goes with an outcome: an error outcome is the error of the
first failed write, which is also the last write issued; otherwise no write has failed. -/
def Sink.Ends (w : Sink) : Outcome → Prop
  | Outcome.error e => w.FailedWith e
  | _ => w.Clean

/-- The sink `w2` continues `w`: same failure schedule, and the issued writes of `w` come
first. -/
def Sink.Extends (w w2 : Sink) : Prop :=
  w2.failure = w.failure ∧ ∃ ds, w2.issued = w.issued ++ ds

/-- The byte length of the frame `createBMPWithAlpha` returns for an image (0 if it
does not return). -/
def bmpLength (mem : Nat) (img : Image) : Nat :=
  match createBMPWithAlpha mem img with
  | some (bmpData, _) => bmpData.length
  | none => 0

/-- The total byte length of the frames `createBMPWithAlpha` returns for a list of images. -/
def payloadLength (mem : Nat) (images : List Image) : Nat := (images.map (bmpLength mem)).sum

/-- Two images have the same dimensions and the same pixel values at the coordinates
`0 ≤ x < W`, `0 ≤ y < H`. -/
def SameRaster (a b : Image) : Prop :=
  a.Bounds.Dx = b.Bounds.Dx ∧ a.Bounds.Dy = b.Bounds.Dy ∧
    ∀ x y : Nat, (x : Int) < a.Bounds.Dx → (y : Int) < a.Bounds.Dy →
      a.At (x : Int) (y : Int) = b.At (x : Int) (y : Int)

/-- A fully opaque red pixel. -/
def red : Color := ⟨65535, 0, 0, 65535⟩

/-- A fully opaque red square raster of side `n`. -/
def redSquare (n : Int) : Image := mkImage n n fun _ _ => red

/-- A raster one pixel high and `2^32` pixels wide. -/
def wideImage : Image := mkImage 4294967296 1 fun _ _ => red

/-- An opaque red square of side `n` whose accessor returns transparent black outside the
square, with bounds starting at `(0,0)`. -/
def redPatch (n : Int) : Image :=
  mkImage n n fun x y => if 0 ≤ x ∧ x < n ∧ 0 ≤ y ∧ y < n then red else ⟨0, 0, 0, 0⟩

/-- Two opaque red rasters, of 16 x 16 and of 32 x 32 pixels. -/
def twoIcons : List Image := [redSquare 16, redSquare 32]

/-- A list of 256 rasters of one pixel each. -/
def manyIcons : List Image := List.replicate 256 (redSquare 1)

/-- A raster of one pixel with bounds `[1,2) x [1,2)`: its pixel, at `(1,1)`, is opaque red,
and its accessor returns transparent black at `(0,0)`. -/
def shiftedImage : Image :=
  ⟨⟨⟨1, 1⟩, ⟨2, 2⟩⟩, fun x y => if x = 0 ∧ y = 0 then ⟨0, 0, 0, 0⟩ else red⟩

/-- The Go type `color.RGBA`: four stored 8-bit channels. -/
structure RGBA8 where
  R : Nat
  G : Nat
  B : Nat
  A : Nat

/-- The method `color.RGBA.RGBA` of the standard library: each stored 8-bit channel `c` is
widened to 16 bits as `c | c << 8`, that is `c * 257`. -/
def RGBA8.RGBA (c : RGBA8) : Color := ⟨c.R * 257, c.G * 257, c.B * 257, c.A * 257⟩

/-- The stored channels are 8-bit values. -/
def RGBA8.Valid (c : RGBA8) : Prop := c.R ≤ 255 ∧ c.G ≤ 255 ∧ c.B ≤ 255 ∧ c.A ≤ 255

/-- The Go type `image.RGBA`, as `main` builds its rasters (`image.NewRGBA`, then `Set` for
every pixel): the accessor returns the stored pixel inside the bounds and the zero colour
outside. -/
def rgbaImage (bounds : Rectangle) (pix : Int → Int → RGBA8) : Image :=
  ⟨bounds, fun x y =>
    if bounds.Min.X ≤ x ∧ x < bounds.Max.X ∧ bounds.Min.Y ≤ y ∧ y < bounds.Max.Y
    then (pix x y).RGBA else ⟨0, 0, 0, 0⟩⟩

/-- The value is in the range of a 64-bit Go `int`. -/
def isInt64 (z : Int) : Prop := -9223372036854775808 ≤ z ∧ z < 9223372036854775808

/-- The four coordinates of the rectangle are values of a Go `int`. -/
def Rectangle.IsInt (r : Rectangle) : Prop :=
  isInt64 r.Min.X ∧ isInt64 r.Min.Y ∧ isInt64 r.Max.X ∧ isInt64 r.Max.Y

/-- A raster of one pixel with 8-bit storage and bounds `[1,2) x [1,2)`: its pixel, at
`(1,1)`, is opaque white (all four stored channel bytes are 255). -/
def shiftedRGBA : Image :=
  rgbaImage ⟨⟨1, 1⟩, ⟨2, 2⟩⟩ fun _ _ => ⟨255, 255, 255, 255⟩

/-- A 2 x 1 raster with 8-bit storage: the pixels `(1,2,3,4)` and `(250,251,252,253)`. -/
def rgbaPair : Image :=
  rgbaImage ⟨⟨0, 0⟩, ⟨2, 1⟩⟩ fun x _ => if x = 0 then ⟨1, 2, 3, 4⟩ else ⟨250, 251, 252, 253⟩

/-- A sink whose `k`-th write (counted from 0) fails with error code 28 after it has delivered
`n` bytes of its chunk, and no other write fails. -/
def failAt (k n : Nat) : Sink :=
  Sink.fresh (fun j => if j = k then some ⟨28⟩ else none) (fun _ => n)

/-! ## Machine-integer lemmas -/


theorem wrapInt_eq (z : Int) (h1 : -9223372036854775808 ≤ z) (h2 : z < 9223372036854775808) :
    wrapInt z = z := by
  unfold wrapInt; omega

theorem wrapInt_area (w h : Nat) (hL : 4 * (h * w) < 9223372036854775808) :
    wrapInt (wrapInt ((w : Int) * (h : Int)) * 4) = ((4 * (h * w) : Nat) : Int) := by
  have hc : ((h * w : Nat) : Int) = (w : Int) * (h : Int) := by push_cast; ring
  have e0 : wrapInt ((w : Int) * (h : Int)) = (w : Int) * (h : Int) := by
    apply wrapInt_eq <;> omega
  rw [e0, wrapInt_eq] <;> omega

theorem toUint32_wrapInt (z : Int) : toUint32 (wrapInt z) = toUint32 z := by
  unfold toUint32 wrapInt; omega

theorem toUint32_natCast (n : Nat) : toUint32 (n : Int) = n % 4294967296 := by
  unfold toUint32; omega

theorem store_natCast (p : List Nat) (n v : Nat) (h : n < p.length) :
    store p (n : Int) v = some (p.set n v) := by
  unfold store
  have h' : (0 : Int) ≤ (n : Int) ∧ (n : Int) < (p.length : Int) := by omega
  simp [h']

/-! ## The header of a frame -/

theorem bmpHeader_eq (width height : Int) :
    bmpHeader width height =
      le32 40 ++ le32 (toUint32 width) ++ le32 (toUint32 (wrapInt (height * 2))) ++
        le16 1 ++ le16 32 ++ le32 0 ++
        le32 (toUint32 (wrapInt (wrapInt (width * height) * 4))) ++
        le32 0 ++ le32 0 ++ le32 0 ++ le32 0 := by
  simp [bmpHeader, putUint32, putUint16, le32, le16, List.replicate]

theorem bmpHeader_length (width height : Int) : (bmpHeader width height).length = 40 := by
  rw [bmpHeader_eq]; rfl

/-! ## Loops over `0 .. n-1` that may panic -/

theorem foldlM_range_step {σ : Type} (f : σ → Nat → Option σ) (n : Nat) (p q r : σ)
    (hq : (List.range n).foldlM f p = some q) (hr : f q n = some r) :
    (List.range (n + 1)).foldlM f p = some r := by
  rw [List.range_succ, List.foldlM_append, hq]
  show List.foldlM f q [n] = some r
  rw [List.foldlM_cons, hr]
  rfl

theorem foldlM_range_some {σ : Type} (I : σ → Prop) (f : σ → Nat → Option σ)
    (hI : ∀ s i t, I s → f s i = some t → I t) (n : Nat) (p q : σ) (hp : I p)
    (hq : (List.range n).foldlM f p = some q) :
    I q ∧ ∀ i, i < n → ∃ s t, I s ∧ f s i = some t := by
  induction n generalizing q with
  | zero =>
    have e : p = q := by
      have h0 : (List.range 0).foldlM f p = some p := rfl
      rw [h0] at hq
      exact Option.some.inj hq
    exact ⟨e ▸ hp, fun i hi => absurd hi (Nat.not_lt_zero i)⟩
  | succ n ih =>
    rw [List.range_succ, List.foldlM_append] at hq
    cases hs : (List.range n).foldlM f p with
    | none =>
      rw [hs] at hq
      exact absurd hq (by intro h; cases h)
    | some s =>
      rw [hs] at hq
      have hq2 : List.foldlM f s [n] = some q := hq
      rw [List.foldlM_cons] at hq2
      obtain ⟨hs1, hs2⟩ := ih s hs
      cases ht : f s n with
      | none =>
        rw [ht] at hq2
        exact absurd hq2 (by intro h; cases h)
      | some t =>
        rw [ht] at hq2
        have e : t = q := Option.some.inj hq2
        refine ⟨e ▸ hI s n t hs1 ht, ?_⟩
        intro i hi
        by_cases hin : i < n
        · exact hs2 i hin
        · have e2 : i = n := by omega
          exact ⟨s, t, hs1, e2 ▸ ht⟩

/-! ## The pixel loops -/

theorem pixelBody_eq (img : Image) (w x y : Nat) (p : List Nat)
    (hj : 4 * (y * w + x) + 4 ≤ p.length) (hL : p.length < 9223372036854775808) :
    pixelBody img (w : Int) (y : Int) (x : Int) p =
      some ((((p.set (4 * (y * w + x)) (channelByte (img.At x y).b)).set
        (4 * (y * w + x) + 1) (channelByte (img.At x y).g)).set
        (4 * (y * w + x) + 2) (channelByte (img.At x y).r)).set
        (4 * (y * w + x) + 3) (channelByte (img.At x y).a)) := by
  have hc : ((y * w : Nat) : Int) = (y : Int) * (w : Int) := by push_cast; ring
  have h0 : wrapInt (wrapInt (wrapInt ((y : Int) * (w : Int)) + (x : Int)) * 4)
      = ((4 * (y * w + x) : Nat) : Int) := by
    have e1 : wrapInt ((y : Int) * (w : Int)) = (y : Int) * (w : Int) := by
      apply wrapInt_eq <;> omega
    have e2 : wrapInt ((y : Int) * (w : Int) + (x : Int)) = (y : Int) * (w : Int) + (x : Int) := by
      apply wrapInt_eq <;> omega
    rw [e1, e2, wrapInt_eq] <;> omega
  have h1 : wrapInt (((4 * (y * w + x) : Nat) : Int) + 1) = ((4 * (y * w + x) + 1 : Nat) : Int) := by
    rw [wrapInt_eq] <;> omega
  have h2 : wrapInt (((4 * (y * w + x) : Nat) : Int) + 2) = ((4 * (y * w + x) + 2 : Nat) : Int) := by
    rw [wrapInt_eq] <;> omega
  have h3 : wrapInt (((4 * (y * w + x) : Nat) : Int) + 3) = ((4 * (y * w + x) + 3 : Nat) : Int) := by
    rw [wrapInt_eq] <;> omega
  unfold pixelBody
  simp only [h0, h1, h2, h3]
  rw [store_natCast _ _ _ (by omega), Option.some_bind,
    store_natCast _ _ _ (by simp; omega), Option.some_bind,
    store_natCast _ _ _ (by simp; omega), Option.some_bind,
    store_natCast _ _ _ (by simp; omega)]

theorem pixelByte_at (img : Image) (w x y k : Nat) (hx : x < w) (hk : k < 4) :
    pixelByte img w (4 * (y * w + x) + k) = bgra (img.At x y) k := by
  have h1 : (4 * (y * w + x) + k) / 4 = y * w + x := by omega
  have h2 : (4 * (y * w + x) + k) % 4 = k := by omega
  have h3 : (y * w + x) % w = x := by
    rw [Nat.add_comm, Nat.add_mul_mod_self_right, Nat.mod_eq_of_lt hx]
  have h4 : (y * w + x) / w = y := by
    rw [Nat.add_comm, Nat.add_mul_div_right _ _ (by omega), Nat.div_eq_of_lt hx, Nat.zero_add]
  unfold pixelByte
  rw [h1, h2, h3, h4]

theorem index_lt (w h x y : Nat) (hx : x < w) (hy : y < h) : y * w + x < h * w := by
  have h1 : (y + 1) * w ≤ h * w := Nat.mul_le_mul_right w hy
  have h2 : (y + 1) * w = y * w + w := by ring
  omega

theorem pixelBody_filled (img : Image) (w h x y : Nat) (p : List Nat) (hx : x < w) (hy : y < h)
    (hL : 4 * (h * w) < 9223372036854775808)
    (hp : Filled img w (4 * (h * w)) (4 * (y * w + x)) p) :
    ∃ q, pixelBody img (w : Int) (y : Int) (x : Int) p = some q ∧
      Filled img w (4 * (h * w)) (4 * (y * w + (x + 1))) q := by
  obtain ⟨hlen, hfin⟩ := hp
  have hj := index_lt w h x y hx hy
  refine ⟨_, pixelBody_eq img w x y p (by omega) (by omega), ?_, ?_⟩
  · simp [hlen]
  · intro i hi
    by_cases h0 : i < 4 * (y * w + x)
    · rw [List.getElem?_set_ne (by omega), List.getElem?_set_ne (by omega),
        List.getElem?_set_ne (by omega), List.getElem?_set_ne (by omega)]
      exact hfin i h0
    · have hcases : i = 4 * (y * w + x) + 0 ∨ i = 4 * (y * w + x) + 1 ∨
          i = 4 * (y * w + x) + 2 ∨ i = 4 * (y * w + x) + 3 := by omega
      rcases hcases with h | h | h | h
      · rw [h, pixelByte_at img w x y 0 hx (by omega)]
        rw [List.getElem?_set_ne (by omega), List.getElem?_set_ne (by omega),
          List.getElem?_set_ne (by omega), Nat.add_zero,
          List.getElem?_set_self (by omega)]
        rfl
      · rw [h, pixelByte_at img w x y 1 hx (by omega)]
        rw [List.getElem?_set_ne (by omega), List.getElem?_set_ne (by omega),
          List.getElem?_set_self (by simp; omega)]
        rfl
      · rw [h, pixelByte_at img w x y 2 hx (by omega)]
        rw [List.getElem?_set_ne (by omega), List.getElem?_set_self (by simp; omega)]
        rfl
      · rw [h, pixelByte_at img w x y 3 hx (by omega)]
        rw [List.getElem?_set_self (by simp; omega)]
        rfl

theorem rowLoop_filled (img : Image) (w h y : Nat) (hy : y < h)
    (hL : 4 * (h * w) < 9223372036854775808) (n : Nat) (hn : n ≤ w) (p : List Nat)
    (hp : Filled img w (4 * (h * w)) (4 * (y * w)) p) :
    ∃ q, (List.range n).foldlM (fun pixels (x : Nat) =>
        pixelBody img (w : Int) (y : Int) (x : Int) pixels) p = some q ∧
      Filled img w (4 * (h * w)) (4 * (y * w + n)) q := by
  induction n with
  | zero => exact ⟨p, rfl, hp⟩
  | succ n ih =>
    obtain ⟨q, hq, hfq⟩ := ih (by omega)
    obtain ⟨q2, hq2, hfq2⟩ := pixelBody_filled img w h n y q (by omega) hy hL hfq
    exact ⟨q2, foldlM_range_step _ n p q q2 hq hq2, hfq2⟩

theorem pixelLoop_filled (img : Image) (w h : Nat)
    (hL : 4 * (h * w) < 9223372036854775808) (m : Nat) (hm : m ≤ h) (p : List Nat)
    (hp : p.length = 4 * (h * w)) :
    ∃ q, (List.range m).foldlM (fun pixels (y : Nat) =>
        rowLoop img (w : Int) (y : Int) pixels) p = some q ∧
      Filled img w (4 * (h * w)) (4 * (m * w)) q := by
  induction m with
  | zero => exact ⟨p, rfl, hp, by intro i hi; omega⟩
  | succ m ih =>
    obtain ⟨q, hq, hfq⟩ := ih (by omega)
    obtain ⟨q2, hq2, hfq2⟩ := rowLoop_filled img w h m (by omega) hL w (Nat.le_refl w) q hfq
    have hq3 : rowLoop img (w : Int) (m : Int) q = some q2 := by
      unfold rowLoop
      rw [Int.toNat_ofNat]
      exact hq2
    refine ⟨q2, foldlM_range_step _ m p q q2 hq hq3, ?_⟩
    have e : 4 * ((m + 1) * w) = 4 * (m * w + w) := by ring
    rw [e]; exact hfq2

theorem pixelLoop_eq (img : Image) (w h : Nat) (hL : 4 * (h * w) < 9223372036854775808) :
    pixelLoop img (w : Int) (h : Int) (List.replicate (4 * (h * w)) 0) =
      some (pixelData img w h) := by
  obtain ⟨q, hq, hlen, hfin⟩ :=
    pixelLoop_filled img w h hL h (Nat.le_refl h) (List.replicate (4 * (h * w)) 0) (by simp)
  have e : q = pixelData img w h := by
    apply List.ext_getElem?
    intro i
    by_cases hi : i < 4 * (h * w)
    · rw [hfin i hi]
      simp [pixelData, List.getElem?_range hi]
    · rw [List.getElem?_eq_none (by omega), List.getElem?_eq_none (by simp [pixelData]; omega)]
  unfold pixelLoop
  simp only [Int.toNat_ofNat]
  rw [hq, e]

/-! ## The frame in closed form -/

theorem makeBytes_natCast {mem : Nat} (n : Nat) (h1 : n ≤ mem) (h2 : n ≤ maxAlloc) :
    makeBytes mem (n : Int) = some (List.replicate n 0) := by
  unfold makeBytes
  have hc : (0 : Int) ≤ (n : Int) ∧ (n : Int) ≤ (mem : Int) ∧ (n : Int) ≤ (maxAlloc : Int) :=
    ⟨Int.ofNat_nonneg n, Int.ofNat_le.mpr h1, Int.ofNat_le.mpr h2⟩
  rw [if_pos hc, Int.toNat_ofNat]

theorem maxAlloc_lt : maxAlloc < 9223372036854775808 := by
  unfold maxAlloc
  decide

/-- A frame that can be allocated has a length that fits in a Go `int`. -/
theorem Fits.lt {mem : Nat} (img : Image) (h : Fits mem img) :
    40 + 4 * (img.Bounds.Dy.toNat * img.Bounds.Dx.toNat) < 9223372036854775808 :=
  Nat.lt_of_le_of_lt h.2 maxAlloc_lt

theorem copyInto_frame (hd px buf : List Nat) (hh : hd.length = 40)
    (hb : buf.length = 40 + px.length) :
    copyInto (copyInto buf 0 40 hd) 40 (copyInto buf 0 40 hd).length px = hd ++ px := by
  have h1 : copyInto buf 0 40 hd = hd ++ buf.drop 40 := by
    unfold copyInto
    simp [hh, List.take_of_length_le]
  rw [h1]
  unfold copyInto
  have h2 : (hd ++ List.drop 40 buf).length = 40 + px.length := by
    simp [hh, hb]
  rw [h2]
  have h3 : List.take 40 (hd ++ List.drop 40 buf) = hd := by
    rw [List.take_append_of_le_length (by omega), List.take_of_length_le (by omega)]
  have h4 : 40 + px.length - 40 = px.length := by omega
  rw [h3, h4, Nat.min_self, List.take_of_length_le (Nat.le_refl _),
    List.drop_of_length_le (by omega), List.append_nil]

theorem pixelData_length (img : Image) (w h : Nat) :
    (pixelData img w h).length = 4 * (h * w) := by
  simp [pixelData]

theorem frame_length (img : Image) :
    (frame img).length = 40 + 4 * (img.Bounds.Dy.toNat * img.Bounds.Dx.toNat) := by
  simp [frame, bmpHeader_length, pixelData_length]

/-- A frame that can be allocated is produced, and is the closed form `frame`. -/
theorem createBMPWithAlpha_eq {mem : Nat} (img : Image) (hW : 0 ≤ img.Bounds.Dx) (hH : 0 ≤ img.Bounds.Dy)
    (hfit : Fits mem img) :
    createBMPWithAlpha mem img = some (frame img, none) := by
  have hL := Fits.lt img hfit
  obtain ⟨hM, hA⟩ := hfit
  obtain ⟨w, hw⟩ := Int.eq_ofNat_of_zero_le hW
  obtain ⟨h, hh⟩ := Int.eq_ofNat_of_zero_le hH
  unfold createBMPWithAlpha frame
  simp only [hw, hh, Int.toNat_ofNat] at hL hM hA ⊢
  rw [wrapInt_area w h (by omega), makeBytes_natCast _ (by omega) (by omega), Option.some_bind,
    pixelLoop_eq img w h (by omega), Option.some_bind]
  have e2 : wrapInt (40 + ((pixelData img w h).length : Int)) =
      ((40 + 4 * (h * w) : Nat) : Int) := by
    rw [pixelData_length, wrapInt_eq] <;> omega
  rw [e2, makeBytes_natCast _ hM hA, Option.some_bind,
    copyInto_frame _ _ _ (bmpHeader_length _ _) (by simp [pixelData_length])]

/-! ## A frame that is produced fits in a Go `int` -/

theorem wrapInt_neg (z : Int) (h1 : 9223372036854775808 ≤ z)
    (h2 : z < 18446744073709551616) : wrapInt z < 0 := by
  unfold wrapInt; omega

theorem wrapInt_mul_four_mod (z : Int) : wrapInt (wrapInt z * 4) % 4 = 0 := by
  unfold wrapInt; omega

theorem wrapInt_quarter (len : Nat) (hmod : (len : Int) % 4 = 0)
    (hlt : (len : Int) < 9223372036854775808) :
    wrapInt (((len / 4 : Nat) : Int) * 4) = (len : Int) := by
  have h1 : ((len / 4 : Nat) : Int) * 4 = (len : Int) := by omega
  rw [h1]
  exact wrapInt_eq _ (by omega) hlt

theorem wrapInt_range (z : Int) :
    -9223372036854775808 ≤ wrapInt z ∧ wrapInt z < 9223372036854775808 := by
  unfold wrapInt; omega

theorem store_some (p q : List Nat) (i : Int) (v : Nat) (h : store p i v = some q) :
    0 ≤ i ∧ i < p.length ∧ q.length = p.length := by
  unfold store at h
  split at h
  · rename_i hc
    have e : p.set i.toNat v = q := Option.some.inj h
    exact ⟨hc.1, hc.2, by rw [← e, List.length_set]⟩
  · cases h

theorem pixelBody_some (img : Image) (width y x : Int) (p q : List Nat)
    (h : pixelBody img width y x p = some q) :
    q.length = p.length ∧ 0 ≤ wrapInt (wrapInt (wrapInt (y * width) + x) * 4) ∧
      wrapInt (wrapInt (wrapInt (y * width) + x) * 4) < p.length := by
  unfold pixelBody at h
  simp only [Option.bind_eq_some] at h
  obtain ⟨p1, h1, p2, h2, p3, h3, h4⟩ := h
  have s1 := store_some _ _ _ _ h1
  have s2 := store_some _ _ _ _ h2
  have s3 := store_some _ _ _ _ h3
  have s4 := store_some _ _ _ _ h4
  exact ⟨by omega, s1.1, s1.2.1⟩

theorem rowLoop_some (img : Image) (width y : Int) (p q : List Nat)
    (h : rowLoop img width y p = some q) :
    q.length = p.length ∧ ∀ x : Nat, x < width.toNat →
      ∃ s t, s.length = p.length ∧ pixelBody img width y (x : Int) s = some t := by
  unfold rowLoop at h
  exact foldlM_range_some (fun s => s.length = p.length)
    (fun pixels (x : Nat) => pixelBody img width y (x : Int) pixels)
    (fun s i t hs ht => ((pixelBody_some img width y i s t ht).1).trans hs)
    width.toNat p q rfl h

theorem pixelLoop_some (img : Image) (width height : Int) (p q : List Nat)
    (h : pixelLoop img width height p = some q) :
    q.length = p.length ∧ ∀ y : Nat, y < height.toNat → ∀ x : Nat, x < width.toNat →
      ∃ s t, s.length = p.length ∧ pixelBody img width (y : Int) (x : Int) s = some t := by
  unfold pixelLoop at h
  obtain ⟨h1, h2⟩ := foldlM_range_some (fun s => s.length = p.length)
    (fun pixels (y : Nat) => rowLoop img width (y : Int) pixels)
    (fun s i t hs ht => ((rowLoop_some img width i s t ht).1).trans hs)
    height.toNat p q rfl h
  refine ⟨h1, ?_⟩
  intro y hy x hx
  obtain ⟨s, t, hs, ht⟩ := h2 y hy
  obtain ⟨s2, t2, hs2, ht2⟩ := (rowLoop_some img width y s t ht).2 x hx
  exact ⟨s2, t2, by rw [hs2, hs], ht2⟩

theorem makeBytes_some {mem : Nat} (n : Int) (p : List Nat) (h : makeBytes mem n = some p) :
    0 ≤ n ∧ (p.length : Int) = n ∧ n ≤ (mem : Int) ∧ n ≤ (maxAlloc : Int) := by
  unfold makeBytes at h
  split at h
  · rename_i hc
    have e := Option.some.inj h
    refine ⟨hc.1, ?_, hc.2.1, hc.2.2⟩
    rw [← e, List.length_replicate]
    have h0 := hc.1
    omega
  · cases h

/-- When the pixel buffer fits in a Go `int` but the frame does not, the second `make`
receives a negative length. -/
theorem frame_make_neg (w h len : Nat) (hsmall : 4 * (h * w) < 9223372036854775808)
    (hbig : ¬ 40 + 4 * (h * w) < 9223372036854775808)
    (hlen : (len : Int) = wrapInt (wrapInt ((w : Int) * (h : Int)) * 4)) :
    wrapInt (40 + (len : Int)) < 0 := by
  rw [wrapInt_area w h hsmall] at hlen
  apply wrapInt_neg <;> omega

/-- When the pixel buffer does not fit in a Go `int`, some pixel of the raster has its
offset equal to the length of the (wrapped) buffer. -/
theorem pixel_offset_eq_len (w h len : Nat) (hbig : ¬ 4 * (h * w) < 9223372036854775808)
    (hlen : (len : Int) = wrapInt (wrapInt ((w : Int) * (h : Int)) * 4)) :
    ∃ x y : Nat, x < w ∧ y < h ∧
      wrapInt (wrapInt (wrapInt ((y : Int) * (w : Int)) + (x : Int)) * 4) = (len : Int) := by
  have hmod := wrapInt_mul_four_mod ((w : Int) * (h : Int))
  have hlt := (wrapInt_range (wrapInt ((w : Int) * (h : Int)) * 4)).2
  rw [← hlen] at hmod hlt
  have hj : len / 4 < h * w := by omega
  have hwpos : 0 < w := by
    rcases Nat.eq_zero_or_pos w with h0 | h0
    · rw [h0, Nat.mul_zero] at hj
      exact absurd hj (Nat.not_lt_zero _)
    · exact h0
  have hy : len / 4 / w < h := by
    apply Nat.div_lt_of_lt_mul
    rw [Nat.mul_comm]; exact hj
  have hx : len / 4 % w < w := Nat.mod_lt _ hwpos
  refine ⟨len / 4 % w, len / 4 / w, hx, hy, ?_⟩
  have hdm : len / 4 / w * w + len / 4 % w = len / 4 := Nat.div_add_mod' _ _
  have hyw : ((len / 4 / w : Nat) : Int) * (w : Int) + ((len / 4 % w : Nat) : Int)
      = ((len / 4 : Nat) : Int) := by
    rw [← Nat.cast_mul, ← Nat.cast_add, hdm]
  have hyw0 : 0 ≤ ((len / 4 / w : Nat) : Int) * (w : Int) := by positivity
  have e1 : wrapInt (((len / 4 / w : Nat) : Int) * (w : Int))
      = ((len / 4 / w : Nat) : Int) * (w : Int) := by
    apply wrapInt_eq <;> omega
  have e2 : wrapInt (((len / 4 / w : Nat) : Int) * (w : Int)
      + ((len / 4 % w : Nat) : Int)) = ((len / 4 : Nat) : Int) := by
    rw [hyw]; apply wrapInt_eq <;> omega
  have e3 := wrapInt_quarter len hmod hlt
  rw [e1, e2, e3]

/-- A frame that `createBMPWithAlpha` returns for well-formed bounds has a length that fits
in a Go `int`: otherwise one of the two `make` calls or a pixel store panics. -/
theorem createBMPWithAlpha_int {mem : Nat} (img : Image) (hW : 0 ≤ img.Bounds.Dx)
    (hH : 0 ≤ img.Bounds.Dy) (d : List Nat) (e : Option IOError)
    (hd : createBMPWithAlpha mem img = some (d, e)) :
    40 + 4 * (img.Bounds.Dy.toNat * img.Bounds.Dx.toNat) < 9223372036854775808 := by
  obtain ⟨w, hw⟩ := Int.eq_ofNat_of_zero_le hW
  obtain ⟨h, hh⟩ := Int.eq_ofNat_of_zero_le hH
  unfold createBMPWithAlpha at hd
  simp only [hw, hh, Option.bind_eq_some] at hd
  obtain ⟨p0, hp0, p1, hp1, b, hb, -⟩ := hd
  simp only [hw, hh, Int.toNat_ofNat]
  obtain ⟨-, hlen0, -, -⟩ := makeBytes_some _ _ hp0
  obtain ⟨hlen1, hsteps⟩ := pixelLoop_some img w h p0 p1 hp1
  obtain ⟨hb0, -, -, -⟩ := makeBytes_some _ _ hb
  by_contra hbig
  by_cases hsmall : 4 * (h * w) < 9223372036854775808
  · have hneg := frame_make_neg w h p0.length hsmall hbig hlen0
    rw [hlen1] at hb0
    exact absurd hb0 (not_le.mpr hneg)
  · obtain ⟨x, y, hx, hy, hxy⟩ := pixel_offset_eq_len w h p0.length hsmall hlen0
    obtain ⟨s, t, hs, ht⟩ := hsteps y (by rw [Int.toNat_ofNat]; exact hy) x
      (by rw [Int.toNat_ofNat]; exact hx)
    obtain ⟨-, -, hoff⟩ := pixelBody_some _ _ _ _ _ _ ht
    rw [hxy, hs] at hoff
    exact absurd hoff (lt_irrefl _)

/-- The second `make` of a call that returns was given the length of the frame. -/
theorem frame_make_served (w h : Nat) (n : Int) (len : Nat)
    (hL : 40 + 4 * (h * w) < 9223372036854775808)
    (hlen : (len : Int) = wrapInt (wrapInt ((w : Int) * (h : Int)) * 4))
    (hn : wrapInt (40 + (len : Int)) ≤ n) : ((40 + 4 * (h * w) : Nat) : Int) ≤ n := by
  rw [wrapInt_area w h (by omega)] at hlen
  rw [hlen, wrapInt_eq _ (by omega) (by omega)] at hn
  omega

/-- A frame that `createBMPWithAlpha` returns for well-formed bounds could be allocated:
otherwise one of the two `make` calls or a pixel store does not return. -/
theorem createBMPWithAlpha_bound {mem : Nat} (img : Image) (hW : 0 ≤ img.Bounds.Dx)
    (hH : 0 ≤ img.Bounds.Dy) (d : List Nat) (e : Option IOError)
    (hd : createBMPWithAlpha mem img = some (d, e)) : Fits mem img := by
  have hL := createBMPWithAlpha_int img hW hH d e hd
  obtain ⟨w, hw⟩ := Int.eq_ofNat_of_zero_le hW
  obtain ⟨h, hh⟩ := Int.eq_ofNat_of_zero_le hH
  unfold createBMPWithAlpha at hd
  simp only [hw, hh, Option.bind_eq_some] at hd
  obtain ⟨p0, hp0, p1, hp1, b, hb, -⟩ := hd
  unfold Fits
  simp only [hw, hh, Int.toNat_ofNat] at hL ⊢
  obtain ⟨-, hlen0, -, -⟩ := makeBytes_some _ _ hp0
  obtain ⟨hlen1, -⟩ := pixelLoop_some img w h p0 p1 hp1
  obtain ⟨-, -, hbM, hbA⟩ := makeBytes_some _ _ hb
  rw [hlen1] at hbM hbA
  have h1 := frame_make_served w h _ p0.length hL hlen0 hbM
  have h2 := frame_make_served w h _ p0.length hL hlen0 hbA
  exact ⟨Int.ofNat_le.mp h1, Int.ofNat_le.mp h2⟩

/-- A frame returned for well-formed bounds is the closed form `frame`. -/
theorem createBMPWithAlpha_frame {mem : Nat} (img : Image) (hwf : WellFormed img) (d : List Nat)
    (e : Option IOError) (hd : createBMPWithAlpha mem img = some (d, e)) :
    Fits mem img ∧ d = frame img ∧ e = none := by
  have hfit := createBMPWithAlpha_bound img hwf.1 hwf.2 d e hd
  have heq := createBMPWithAlpha_eq img hwf.1 hwf.2 hfit
  rw [heq] at hd
  have h2 := Option.some.inj hd
  exact ⟨hfit, (congrArg Prod.fst h2).symm, (congrArg Prod.snd h2).symm⟩

/-! ## Runs of `writeICO` on a sink that never fails -/

theorem Sink.Write_ok (w : Sink) (b : List Nat) (hw : w.NeverFails) :
    w.Write b = (w.append [b], none) := by
  unfold Sink.Write
  rw [hw w.issued.length]
  rfl

theorem Sink.append_neverFails (w : Sink) (cs : List (List Nat)) (hw : w.NeverFails) :
    (w.append cs).NeverFails := hw

theorem Sink.append_append (w : Sink) (cs ds : List (List Nat)) :
    (w.append cs).append ds = w.append (cs ++ ds) := by
  simp [Sink.append, List.append_assoc]

theorem firstPass_ok {mem : Nat} (images : List Image) (w : Sink) (offset : Int) (acc : List (List Nat))
    (hw : w.NeverFails)
    (hf : ∀ img ∈ images, createBMPWithAlpha mem img = some (frame img, none)) :
    firstPass mem images w offset acc =
      (w.append (dirEntries offset images), Sum.inr (acc ++ images.map frame)) := by
  induction images generalizing w offset acc with
  | nil => simp [firstPass, dirEntries, Sink.append]
  | cons img rest ih =>
    have h1 := hf img (List.mem_cons_self _ _)
    have h2 : ∀ i ∈ rest, createBMPWithAlpha mem i = some (frame i, none) :=
      fun i hi => hf i (List.mem_cons_of_mem _ hi)
    unfold firstPass
    simp only [h1, Sink.Write_ok _ _ hw]
    rw [ih _ _ _ (Sink.append_neverFails _ _ hw) h2, Sink.append_append]
    simp [dirEntries]

theorem secondPass_ok (bmps : List (List Nat)) (i : Nat) (sizes : List Int) (w : Sink)
    (hw : w.NeverFails) (hs : i + bmps.length ≤ sizes.length) :
    secondPass bmps i sizes w = (w.append bmps, Outcome.nil) := by
  induction bmps generalizing w i with
  | nil => simp [secondPass, Sink.append]
  | cons b rest ih =>
    have hi : i < sizes.length := by simp at hs; omega
    unfold secondPass
    rw [List.getElem?_eq_getElem hi]
    simp only [Sink.Write_ok _ _ hw]
    rw [ih _ _ (Sink.append_neverFails _ _ hw) (by simp at hs ⊢; omega), Sink.append_append]
    simp

/-- A call on a sink that never fails, with frames that are produced and one size per image, returns
`nil` after writing the chunks `icoChunks images`. -/
theorem writeICO_ok {mem : Nat} (w : Sink) (images : List Image) (sizes : List Int) (hw : w.NeverFails)
    (hf : ∀ img ∈ images, createBMPWithAlpha mem img = some (frame img, none))
    (hs : images.length ≤ sizes.length) :
    writeICO mem w images sizes = (w.append (icoChunks images), Outcome.nil) := by
  unfold writeICO
  simp only [Sink.Write_ok _ _ hw]
  rw [firstPass_ok images _ _ _ (Sink.append_neverFails _ _ hw) hf]
  simp only [List.nil_append]
  rw [secondPass_ok _ _ _ _ (Sink.append_neverFails _ _ (Sink.append_neverFails _ _ hw))
    (by simp; exact hs)]
  simp [Sink.append_append, icoChunks, icoHeader]

/-! ## What a completed call implies -/

theorem firstPass_inr {mem : Nat} (images : List Image) (w w2 : Sink) (offset : Int)
    (acc l : List (List Nat)) (h : firstPass mem images w offset acc = (w2, Sum.inr l)) :
    (∀ img ∈ images, ∃ d, createBMPWithAlpha mem img = some (d, none)) ∧
      l.length = acc.length + images.length := by
  induction images generalizing w offset acc with
  | nil =>
    unfold firstPass at h
    have e : acc = l := Sum.inr.inj (congrArg Prod.snd h)
    subst e
    exact ⟨fun img hi => absurd hi (List.not_mem_nil _), rfl⟩
  | cons img rest ih =>
    unfold firstPass at h
    split at h
    · cases h
    · cases h
    · rename_i bmpData hb
      simp only [] at h
      split at h
      · cases h
      · obtain ⟨h1, h2⟩ := ih _ _ _ h
        refine ⟨?_, ?_⟩
        · intro i hi
          rcases List.mem_cons.mp hi with e | hi2
          · exact ⟨bmpData, e ▸ hb⟩
          · exact h1 i hi2
        · rw [h2]; simp; omega

theorem firstPass_inl {mem : Nat} (images : List Image) (w w2 : Sink) (offset : Int)
    (acc : List (List Nat)) (o : Outcome) (h : firstPass mem images w offset acc = (w2, Sum.inl o)) :
    o ≠ Outcome.nil := by
  induction images generalizing w offset acc with
  | nil =>
    unfold firstPass at h
    cases h
  | cons img rest ih =>
    unfold firstPass at h
    split at h
    · cases h; intro hc; cases hc
    · cases h; intro hc; cases hc
    · simp only [] at h
      split at h
      · cases h; intro hc; cases hc
      · exact ih _ _ _ h

theorem secondPass_nil (bmps : List (List Nat)) (i : Nat) (sizes : List Int) (w w2 : Sink)
    (h : secondPass bmps i sizes w = (w2, Outcome.nil)) :
    bmps = [] ∨ i + bmps.length ≤ sizes.length := by
  induction bmps generalizing w i with
  | nil => exact Or.inl rfl
  | cons b rest ih =>
    right
    unfold secondPass at h
    split at h
    · cases h
    · rename_i v hv
      have hi : i < sizes.length := by
        by_contra hc
        rw [List.getElem?_eq_none (by omega)] at hv
        cases hv
      split at h
      · cases h
      · rcases ih _ _ h with h1 | h1
        · rw [h1]; simp; omega
        · simp; omega

/-- A call that returns `nil` has produced every frame and found one size per image. -/
theorem writeICO_nil {mem : Nat} (w s : Sink) (images : List Image) (sizes : List Int)
    (h : writeICO mem w images sizes = (s, Outcome.nil)) :
    (∀ img ∈ images, ∃ d, createBMPWithAlpha mem img = some (d, none)) ∧
      images.length ≤ sizes.length := by
  unfold writeICO at h
  simp only [] at h
  split at h
  · cases h
  · split at h
    · rename_i wr o hfp
      have e : o = Outcome.nil := congrArg Prod.snd h
      exact absurd e (firstPass_inl _ _ _ _ _ _ hfp)
    · rename_i wr bmps hfp
      obtain ⟨h1, h2⟩ := firstPass_inr _ _ _ _ _ _ hfp
      refine ⟨h1, ?_⟩
      rcases secondPass_nil _ _ _ _ _ h with h3 | h3
      · rw [h3] at h2; simp at h2; omega
      · simp at h2; omega

/-- On a sink that never fails, a call that returns `nil` for well-formed images has written
exactly the chunks `icoChunks images`, and every frame is the closed form. -/
theorem writeICO_complete {mem : Nat} (w s : Sink) (images : List Image) (sizes : List Int)
    (hw : w.NeverFails) (hwf : ∀ img ∈ images, WellFormed img)
    (h : writeICO mem w images sizes = (s, Outcome.nil)) :
    s = w.append (icoChunks images) ∧
      ∀ img ∈ images, Fits mem img ∧ createBMPWithAlpha mem img = some (frame img, none) := by
  obtain ⟨h1, h2⟩ := writeICO_nil w s images sizes h
  have h3 : ∀ img ∈ images, Fits mem img ∧ createBMPWithAlpha mem img = some (frame img, none) := by
    intro img hi
    obtain ⟨d, hd⟩ := h1 img hi
    obtain ⟨ha, hb, -⟩ := createBMPWithAlpha_frame img (hwf img hi) d none hd
    exact ⟨ha, hb ▸ hd⟩
  have h4 := writeICO_ok w images sizes hw (fun img hi => (h3 img hi).2) h2
  rw [h4] at h
  exact ⟨(congrArg Prod.fst h).symm, h3⟩

/-- A call on a sink that never fails returns `nil` when the images are well formed, their
frames can be allocated and there is one size per image. -/
theorem writeICO_returns {mem : Nat} (w : Sink) (images : List Image) (sizes : List Int)
    (hw : w.NeverFails) (hwf : ∀ img ∈ images, WellFormed img)
    (hfit : ∀ img ∈ images, Fits mem img) (hs : images.length ≤ sizes.length) :
    writeICO mem w images sizes = (w.append (icoChunks images), Outcome.nil) :=
  writeICO_ok w images sizes hw
    (fun img hi => createBMPWithAlpha_eq img (hwf img hi).1 (hwf img hi).2 (hfit img hi)) hs

theorem okSink_neverFails : okSink.NeverFails := fun _ => rfl

theorem okSink_append_bytes (cs : List (List Nat)) : (okSink.append cs).bytes = cs.flatten := by
  simp [okSink, Sink.fresh, Sink.append, Sink.bytes]

/-! ## Lists of chunks -/

theorem flatten_drop_take_uniform {α : Type} (n : Nat) (L : List (List α))
    (hL : ∀ l ∈ L, l.length = n) (i : Nat) (hi : i < L.length) :
    (L.flatten.drop (n * i)).take n = L[i] := by
  induction L generalizing i with
  | nil => simp at hi
  | cons l rest ih =>
    have hl : l.length = n := hL l (List.mem_cons_self _ _)
    cases i with
    | zero =>
      simp only [Nat.mul_zero, List.drop_zero, List.flatten_cons, List.getElem_cons_zero]
      exact List.take_left' hl
    | succ j =>
      have e : n * (j + 1) = l.length + n * j := by rw [hl]; ring
      rw [List.flatten_cons, e, List.drop_append, List.getElem_cons_succ]
      exact ih (fun l2 h2 => hL l2 (List.mem_cons_of_mem _ h2)) j (by simpa using hi)

theorem flatten_length_uniform {α : Type} (n : Nat) (L : List (List α))
    (hL : ∀ l ∈ L, l.length = n) : L.flatten.length = n * L.length := by
  induction L with
  | nil => simp
  | cons l rest ih =>
    rw [List.flatten_cons, List.length_append, hL l (List.mem_cons_self _ _),
      ih (fun l2 h2 => hL l2 (List.mem_cons_of_mem _ h2)), List.length_cons]
    ring

theorem flatten_drop_take_sum {α : Type} (L : List (List α)) (i : Nat) (hi : i < L.length) :
    (L.flatten.drop ((L.take i).map List.length).sum).take L[i].length = L[i] := by
  induction L generalizing i with
  | nil => simp at hi
  | cons l rest ih =>
    cases i with
    | zero => simp
    | succ j =>
      simp only [List.take_succ_cons, List.map_cons, List.sum_cons, List.flatten_cons,
        List.getElem_cons_succ]
      rw [List.drop_append]
      exact ih j (by simpa using hi)

/-! ## Directory entries -/

theorem shiftByte_one (z : Int) : shiftByte z 1 = toUint32 z % 256 := by
  unfold shiftByte toUint32; omega

theorem shiftByte_two (z : Int) : shiftByte z 256 = toUint32 z / 256 % 256 := by
  unfold shiftByte toUint32; omega

theorem shiftByte_three (z : Int) : shiftByte z 65536 = toUint32 z / 65536 % 256 := by
  unfold shiftByte toUint32; omega

theorem shiftByte_four (z : Int) : shiftByte z 16777216 = toUint32 z / 16777216 % 256 := by
  unfold shiftByte toUint32; omega

theorem entry_eq (width height len offset : Int) :
    entry width height len offset =
      [(if width ≥ 256 then 0 else toByte width), (if height ≥ 256 then 0 else toByte height),
        0, 0] ++ le16 1 ++ le16 32 ++ le32 (toUint32 len) ++ le32 (toUint32 offset) := by
  simp [entry, le16, le32, shiftByte_one, shiftByte_two, shiftByte_three, shiftByte_four]

theorem entry_length (width height len offset : Int) :
    (entry width height len offset).length = 16 := rfl

theorem entryDim_eq (d : Int) (hd : 0 ≤ d) :
    (if d ≥ 256 then 0 else toByte d) = dimByte d := by
  unfold dimByte toByte
  split <;> split <;> omega

theorem dirEntries_length (offset : Int) (images : List Image) :
    (dirEntries offset images).length = images.length := by
  induction images generalizing offset with
  | nil => rfl
  | cons img rest ih => simp [dirEntries, ih]

theorem dirEntries_uniform (offset : Int) (images : List Image) :
    ∀ l ∈ dirEntries offset images, l.length = 16 := by
  induction images generalizing offset with
  | nil => intro l hl; simp [dirEntries] at hl
  | cons img rest ih =>
    intro l hl
    simp only [dirEntries, List.mem_cons] at hl
    rcases hl with e | h2
    · rw [e]; rfl
    · exact ih _ l h2

theorem dirEntries_getElem (offset : Int) (images : List Image) (i : Nat)
    (hi : i < images.length) :
    (dirEntries offset images)[i]? =
      some (entry images[i].Bounds.Dx images[i].Bounds.Dy (frame images[i]).length
        (runOffset offset images i)) := by
  induction images generalizing offset i with
  | nil => simp at hi
  | cons img rest ih =>
    cases i with
    | zero => simp [dirEntries, runOffset]
    | succ j =>
      simp only [dirEntries, runOffset, List.getElem?_cons_succ, List.getElem_cons_succ]
      exact ih _ j (by simpa using hi)

theorem toUint32_wrapInt_add (a b : Int) : toUint32 (wrapInt a + b) = toUint32 (a + b) := by
  unfold toUint32 wrapInt; omega

theorem runOffset_mod (offset : Int) (images : List Image) (i : Nat) :
    toUint32 (runOffset offset images i) =
      toUint32 (offset + (framesLength (images.take i) : Nat)) := by
  induction images generalizing offset i with
  | nil => simp [runOffset, framesLength]
  | cons img rest ih =>
    cases i with
    | zero => simp [runOffset, framesLength]
    | succ j =>
      simp only [runOffset, List.take_succ_cons]
      rw [ih, toUint32_wrapInt_add]
      congr 1
      simp only [framesLength, List.map_cons, List.sum_cons]
      push_cast
      ring

theorem startOffset_mod (n : Nat) (k : Nat) :
    toUint32 (wrapInt (6 + wrapInt ((n : Int) * 16)) + (k : Int)) =
      (6 + 16 * n + k) % 4294967296 := by
  unfold toUint32 wrapInt; omega

/-- The offset field of directory entry `i` holds the low 32 bits of `6 + 16 N` plus the
lengths of the frames before `i`. -/
theorem runOffset_start (images : List Image) (i : Nat) :
    toUint32 (runOffset (wrapInt (6 + wrapInt ((images.length : Int) * 16))) images i) =
      (6 + 16 * images.length + framesLength (images.take i)) % 4294967296 := by
  rw [runOffset_mod, toUint32_wrapInt_add]
  have h := startOffset_mod images.length (framesLength (images.take i))
  rw [toUint32_wrapInt_add] at h
  exact h

theorem readLE32_le32 (v : Nat) :
    readLE32 (v % 256) (v / 256 % 256) (v / 65536 % 256) (v / 16777216 % 256) =
      v % 4294967296 := by
  unfold readLE32; omega

/-! ## The layout of a complete file -/

theorem slice_sub {α : Type} (bytes L : List α) (a n : Nat) (h : (bytes.drop a).take n = L)
    (j m : Nat) (hjm : j + m ≤ n) : (bytes.drop (a + j)).take m = (L.drop j).take m := by
  rw [← h, List.drop_take, List.take_take, List.drop_drop]
  congr 1
  omega

theorem getElem?_of_slice {α : Type} (bytes L : List α) (a n : Nat)
    (h : (bytes.drop a).take n = L) (k : Nat) (hk : k < n) : bytes[a + k]? = L[k]? := by
  rw [← h, List.getElem?_take_of_lt hk, List.getElem?_drop]

theorem readLE32At_of_slice (bytes : List Nat) (pos v : Nat)
    (h : (bytes.drop pos).take 4 = le32 v) : readLE32At bytes pos = some (v % 4294967296) := by
  have h0 := getElem?_of_slice bytes _ pos 4 h 0 (by omega)
  have h1 := getElem?_of_slice bytes _ pos 4 h 1 (by omega)
  have h2 := getElem?_of_slice bytes _ pos 4 h 2 (by omega)
  have h3 := getElem?_of_slice bytes _ pos 4 h 3 (by omega)
  simp only [le32, List.getElem?_cons_zero, List.getElem?_cons_succ, Nat.add_zero] at h0 h1 h2 h3
  unfold readLE32At
  rw [h0, h1, h2, h3]
  simp only []
  rw [readLE32_le32]

theorem icoChunks_flatten (images : List Image) :
    (icoChunks images).flatten =
      icoHeader images.length ++
        ((dirEntries (wrapInt (6 + wrapInt ((images.length : Int) * 16))) images).flatten ++
          (images.map frame).flatten) := by
  simp [icoChunks]

theorem dirEntries_flatten_length (offset : Int) (images : List Image) :
    (dirEntries offset images).flatten.length = 16 * images.length := by
  rw [flatten_length_uniform 16 _ (dirEntries_uniform offset images), dirEntries_length]

theorem frames_flatten_length (images : List Image) :
    (images.map frame).flatten.length = framesLength images := by
  simp [framesLength, List.length_flatten, List.map_map, Function.comp_def]

theorem icoChunks_length (images : List Image) :
    (icoChunks images).flatten.length = 6 + 16 * images.length + framesLength images := by
  rw [icoChunks_flatten, List.length_append, List.length_append, dirEntries_flatten_length,
    frames_flatten_length]
  simp [icoHeader]
  omega

/-- The sixteen bytes at `6 + 16 i` of a complete file are directory entry `i`. -/
theorem icoChunks_entry (images : List Image) (i : Nat) (hi : i < images.length) :
    ((icoChunks images).flatten.drop (6 + 16 * i)).take 16 =
      entry images[i].Bounds.Dx images[i].Bounds.Dy (frame images[i]).length
        (runOffset (wrapInt (6 + wrapInt ((images.length : Int) * 16))) images i) := by
  rw [icoChunks_flatten]
  have h6 : (icoHeader images.length).length = 6 := rfl
  rw [← h6, List.drop_append,
    List.drop_append_of_le_length (by rw [dirEntries_flatten_length]; omega),
    List.take_append_of_le_length
      (by rw [List.length_drop, dirEntries_flatten_length]; omega)]
  have hi2 : i < (dirEntries (wrapInt (6 + wrapInt ((images.length : Int) * 16)))
      images).length := by rw [dirEntries_length]; exact hi
  rw [flatten_drop_take_uniform 16 _ (dirEntries_uniform _ images) i hi2]
  have h := dirEntries_getElem (wrapInt (6 + wrapInt ((images.length : Int) * 16))) images i hi
  rw [List.getElem?_eq_getElem hi2] at h
  exact Option.some.inj h

/-- The bytes at `6 + 16 N` plus the lengths of the earlier frames are frame `i`. -/
theorem icoChunks_frame (images : List Image) (i : Nat) (hi : i < images.length) :
    ((icoChunks images).flatten.drop
        (6 + 16 * images.length + framesLength (images.take i))).take
      (frame images[i]).length = frame images[i] := by
  rw [icoChunks_flatten]
  have h6 : (icoHeader images.length).length = 6 := rfl
  have e : 6 + 16 * images.length + framesLength (images.take i) =
      (icoHeader images.length).length +
        ((dirEntries (wrapInt (6 + wrapInt ((images.length : Int) * 16))) images).flatten.length
          + framesLength (images.take i)) := by
    rw [h6, dirEntries_flatten_length]; omega
  rw [e, List.drop_append, List.drop_append]
  have hi2 : i < (images.map frame).length := by simpa using hi
  have h := flatten_drop_take_sum (images.map frame) i hi2
  have e2 : (List.map List.length (List.take i (List.map frame images))).sum =
      framesLength (images.take i) := by
    simp [framesLength, List.map_take, List.map_map, Function.comp_def]
  have e3 : (List.map frame images)[i] = frame images[i] := by simp
  rw [e2, e3] at h
  exact h

/-! ## Concrete rasters -/

theorem mkImage_Dx (w h : Int) (f : Int → Int → Color) (h0 : -9223372036854775808 ≤ w)
    (h1 : w < 9223372036854775808) : (mkImage w h f).Bounds.Dx = w := by
  simp only [mkImage, Rectangle.Dx, sub_zero]
  exact wrapInt_eq w h0 h1

theorem mkImage_Dy (w h : Int) (f : Int → Int → Color) (h0 : -9223372036854775808 ≤ h)
    (h1 : h < 9223372036854775808) : (mkImage w h f).Bounds.Dy = h := by
  simp only [mkImage, Rectangle.Dy, sub_zero]
  exact wrapInt_eq h h0 h1

theorem redSquare_Dx (n : Int) (h0 : 0 ≤ n) (hn : n < 9223372036854775808) :
    (redSquare n).Bounds.Dx = n := mkImage_Dx _ _ _ (by omega) hn

theorem redSquare_Dy (n : Int) (h0 : 0 ≤ n) (hn : n < 9223372036854775808) :
    (redSquare n).Bounds.Dy = n := mkImage_Dy _ _ _ (by omega) hn

theorem redSquare_isRaster (n : Int) (h0 : 0 < n) (hn : n < 65536) :
    IsRaster (redSquare n) := by
  unfold IsRaster
  rw [redSquare_Dx n (by omega) (by omega), redSquare_Dy n (by omega) (by omega)]
  omega

theorem redSquare_fits (n : Int) (h0 : 0 < n) (hn : n < 65536) :
    Fits maxAlloc (redSquare n) := by
  unfold Fits maxAlloc
  rw [redSquare_Dx n (by omega) (by omega), redSquare_Dy n (by omega) (by omega)]
  have h : n.toNat * n.toNat ≤ 65535 * 65535 := Nat.mul_le_mul (by omega) (by omega)
  omega

theorem redSquare_frame_length (n : Int) (h0 : 0 < n) (hn : n < 65536) :
    (frame (redSquare n)).length = 40 + 4 * (n.toNat * n.toNat) := by
  rw [frame_length, redSquare_Dx n (by omega) (by omega), redSquare_Dy n (by omega) (by omega)]

theorem IsRaster.wellFormed {img : Image} (h : IsRaster img) : WellFormed img :=
  ⟨Int.le_of_lt h.1, Int.le_of_lt h.2⟩

theorem frame_getElem (img : Image) (w h : Nat) (hW : img.Bounds.Dx = (w : Int))
    (hH : img.Bounds.Dy = (h : Int)) (x y k : Nat) (hx : x < w) (hy : y < h) (hk : k < 4) :
    (frame img)[40 + 4 * (y * w + x) + k]? = some (bgra (img.At x y) k) := by
  have hj := index_lt w h x y hx hy
  unfold frame
  rw [hW, hH, Int.toNat_ofNat, Int.toNat_ofNat, Nat.add_assoc,
    List.getElem?_append_right (by rw [bmpHeader_length]; omega), bmpHeader_length,
    Nat.add_sub_cancel_left]
  unfold pixelData
  rw [List.getElem?_map, List.getElem?_range (by omega), Option.map_some', pixelByte_at img w x y k hx hk]

theorem frame_take_header (img : Image) :
    (frame img).take 40 = bmpHeader img.Bounds.Dx img.Bounds.Dy :=
  List.take_left' (bmpHeader_length _ _)

theorem frame_width_field (img : Image) :
    ((frame img).drop 4).take 4 = le32 (toUint32 img.Bounds.Dx) := by
  have h := slice_sub (frame img) _ 0 40 (frame_take_header img) 4 4 (by omega)
  rw [Nat.zero_add] at h
  rw [h, bmpHeader_eq]
  rfl

/-- The sixteen bytes of directory entry `i` of a complete file, field by field. -/
theorem icoChunks_entry_fields (images : List Image) (i : Nat) (hi : i < images.length) :
    ((icoChunks images).flatten.drop (6 + 16 * i)).take 16 =
      [(if images[i].Bounds.Dx ≥ 256 then 0 else toByte images[i].Bounds.Dx),
        (if images[i].Bounds.Dy ≥ 256 then 0 else toByte images[i].Bounds.Dy), 0, 0] ++
        le16 1 ++ le16 32 ++ le32 ((frame images[i]).length % 4294967296) ++
        le32 ((6 + 16 * images.length + framesLength (images.take i)) % 4294967296) := by
  rw [icoChunks_entry images i hi, entry_eq, runOffset_start, toUint32_natCast]

theorem icoChunks_size_field (images : List Image) (i : Nat) (hi : i < images.length) :
    readLE32At (icoChunks images).flatten (6 + 16 * i + 8) =
      some ((frame images[i]).length % 4294967296) := by
  have h := slice_sub _ _ _ 16 (icoChunks_entry_fields images i hi) 8 4 (by omega)
  have h2 := readLE32At_of_slice _ _ ((frame images[i]).length % 4294967296) (h.trans rfl)
  rw [h2, Nat.mod_mod]

theorem icoChunks_offset_field (images : List Image) (i : Nat) (hi : i < images.length) :
    readLE32At (icoChunks images).flatten (6 + 16 * i + 12) =
      some ((6 + 16 * images.length + framesLength (images.take i)) % 4294967296) := by
  have h := slice_sub _ _ _ 16 (icoChunks_entry_fields images i hi) 12 4 (by omega)
  have h2 := readLE32At_of_slice _ _
    ((6 + 16 * images.length + framesLength (images.take i)) % 4294967296) (h.trans rfl)
  rw [h2, Nat.mod_mod]

theorem framesLength_take_succ (images : List Image) (i : Nat) (hi : i < images.length) :
    framesLength (images.take (i + 1)) =
      framesLength (images.take i) + (frame images[i]).length := by
  induction images generalizing i with
  | nil => simp at hi
  | cons a rest ih =>
    cases i with
    | zero => simp [framesLength]
    | succ j =>
      have h := ih j (by simpa using hi)
      unfold framesLength at h ⊢
      simp only [List.take_succ_cons, List.map_cons, List.sum_cons, List.getElem_cons_succ]
      omega

theorem framesLength_take_le (images : List Image) (i : Nat) :
    framesLength (images.take i) ≤ framesLength images := by
  have h : framesLength images =
      framesLength (images.take i) + framesLength (images.drop i) := by
    unfold framesLength
    rw [← List.sum_append, ← List.map_append, List.take_append_drop]
  omega

theorem framesLength_eq (images : List Image) :
    framesLength images = (images.map fun img =>
      40 + 4 * (img.Bounds.Dy.toNat * img.Bounds.Dx.toNat)).sum := by
  simp only [framesLength, frame_length]

/-! ## The frame packer: header, pixel layout, length (C6, C7, C8) -/

theorem toUint32_small (n : Nat) (h : n < 4294967296) : toUint32 (n : Int) = n := by
  rw [toUint32_natCast]; omega

theorem toUint32_wrapInt_natCast (z : Int) (n : Nat) (h : z = (n : Int)) (hn : n < 4294967296) :
    toUint32 (wrapInt z) = n := by
  rw [toUint32_wrapInt, h, toUint32_small n hn]

theorem toUint32_wrapInt_mul_four (a : Int) : toUint32 (wrapInt a * 4) = toUint32 (a * 4) := by
  unfold toUint32 wrapInt; omega

/-- C6. BMP frame header: for a raster of width `W > 0` and height `H > 0` with `2 H` and
`4 W H` below `2^32`, on a machine that serves the `40 + 4 W H` bytes of the frame,
`createBMPWithAlpha` returns a frame whose first 40 bytes are, all little-endian: 40
(4 bytes), `W` (4 bytes), `2 H` (4 bytes), planes 1 (2 bytes), bits per pixel 32 (2 bytes),
compression 0 (4 bytes), image size `4 W H` (4 bytes), then 16 zero bytes.
In particular the height field is twice the raster height. -/
theorem C6_bmp_header (mem : Nat) (img : Image) (hW : 0 < img.Bounds.Dx)
    (hH : 0 < img.Bounds.Dy) (h2H : 2 * img.Bounds.Dy < 4294967296)
    (hsz : img.Bounds.Dx * img.Bounds.Dy * 4 < 4294967296)
    (hmem : 40 + img.Bounds.Dx.toNat * img.Bounds.Dy.toNat * 4 ≤ mem) :
    ∃ d, createBMPWithAlpha mem img = some (d, none) ∧
      d.take 40 = le32 40 ++ le32 img.Bounds.Dx.toNat ++ le32 (2 * img.Bounds.Dy.toNat) ++
        le16 1 ++ le16 32 ++ le32 0 ++
        le32 (img.Bounds.Dx.toNat * img.Bounds.Dy.toNat * 4) ++ List.replicate 16 0 := by
  obtain ⟨w, hw⟩ := Int.eq_ofNat_of_zero_le (Int.le_of_lt hW)
  obtain ⟨h, hh⟩ := Int.eq_ofNat_of_zero_le (Int.le_of_lt hH)
  rw [hw] at hW hsz
  rw [hh] at hH h2H hsz
  have hw0 : 0 < w := by omega
  have hh0 : 0 < h := by omega
  have hsz2 : w * h * 4 < 4294967296 := by exact_mod_cast hsz
  have hwle : w ≤ w * h := Nat.le_mul_of_pos_right w hh0
  rw [hw, hh, Int.toNat_ofNat, Int.toNat_ofNat] at hmem
  have hfit : Fits mem img := by
    unfold Fits maxAlloc
    rw [hw, hh, Int.toNat_ofNat, Int.toNat_ofNat, Nat.mul_comm h w]
    omega
  refine ⟨frame img, createBMPWithAlpha_eq img (by rw [hw]; omega) (by rw [hh]; omega) hfit, ?_⟩
  rw [frame_take_header, bmpHeader_eq, hw, hh, Int.toNat_ofNat, Int.toNat_ofNat,
    toUint32_small w (by omega),
    toUint32_wrapInt_natCast ((h : Int) * 2) (2 * h) (by push_cast; ring) (by omega),
    toUint32_wrapInt, toUint32_wrapInt_mul_four]
  have e : toUint32 ((w : Int) * (h : Int) * 4) = w * h * 4 := by
    have e1 : (w : Int) * (h : Int) * 4 = ((w * h * 4 : Nat) : Int) := by push_cast; ring
    rw [e1, toUint32_small _ hsz2]
  rw [e]
  simp [le32, List.replicate]

/-- Witness for C6: the header of the frame of a 16 x 16 raster. -/
theorem C6_bmp_header_witness :
    ∃ d, createBMPWithAlpha maxAlloc (redSquare 16) = some (d, none) ∧
      d.take 40 = le32 40 ++ le32 16 ++ le32 32 ++ le16 1 ++ le16 32 ++ le32 0 ++
        le32 1024 ++ List.replicate 16 0 := by
  have hx := redSquare_Dx 16 (by omega) (by omega)
  have hy := redSquare_Dy 16 (by omega) (by omega)
  have h := C6_bmp_header maxAlloc (redSquare 16) (by rw [hx]; omega) (by rw [hy]; omega)
    (by rw [hy]; omega) (by rw [hx, hy]; omega) (by rw [hx, hy]; decide)
  rw [hx, hy] at h
  exact h

/-- C7. BMP pixel layout: for a raster of width `W > 0` and height `H > 0` whose bounds start
at `(0,0)`, the frame is returned when it can be allocated, and in every frame that
`createBMPWithAlpha` returns, for `0 ≤ x < W` and `0 ≤ y < H`, the bytes at indices
`40 + 4 (y W + x) + 0, 1, 2, 3` are the blue, green, red and alpha channel of the pixel
`(x, y)` of the raster, each the 16-bit accessor value shifted right by 8 and truncated to a
byte; rows are stored top-down in row-major order. -/
theorem C7_pixel_layout (mem : Nat) (img : Image) (hmin : img.Bounds.Min = ⟨0, 0⟩)
    (hr : IsRaster img) :
    (Fits mem img → ∃ d, createBMPWithAlpha mem img = some (d, none)) ∧
    ∀ d e, createBMPWithAlpha mem img = some (d, e) →
      ∀ x y : Nat, (x : Int) < img.Bounds.Dx → (y : Int) < img.Bounds.Dy →
        d[40 + 4 * (y * img.Bounds.Dx.toNat + x) + 0]? =
            some ((img.At (img.Bounds.Min.X + x) (img.Bounds.Min.Y + y)).b / 256 % 256) ∧
          d[40 + 4 * (y * img.Bounds.Dx.toNat + x) + 1]? =
            some ((img.At (img.Bounds.Min.X + x) (img.Bounds.Min.Y + y)).g / 256 % 256) ∧
          d[40 + 4 * (y * img.Bounds.Dx.toNat + x) + 2]? =
            some ((img.At (img.Bounds.Min.X + x) (img.Bounds.Min.Y + y)).r / 256 % 256) ∧
          d[40 + 4 * (y * img.Bounds.Dx.toNat + x) + 3]? =
            some ((img.At (img.Bounds.Min.X + x) (img.Bounds.Min.Y + y)).a / 256 % 256) := by
  refine ⟨fun hfit => ⟨frame img, createBMPWithAlpha_eq img hr.wellFormed.1 hr.wellFormed.2 hfit⟩,
    ?_⟩
  intro d e hd x y hx hy
  obtain ⟨-, hdf, -⟩ := createBMPWithAlpha_frame img hr.wellFormed d e hd
  obtain ⟨w, hw⟩ := Int.eq_ofNat_of_zero_le hr.wellFormed.1
  obtain ⟨h, hh⟩ := Int.eq_ofNat_of_zero_le hr.wellFormed.2
  rw [hw] at hx
  rw [hh] at hy
  have hx2 : x < w := by omega
  have hy2 : y < h := by omega
  rw [hdf, hmin, hw, Int.toNat_ofNat]
  simp only [zero_add]
  exact ⟨frame_getElem img w h hw hh x y 0 hx2 hy2 (by omega),
    frame_getElem img w h hw hh x y 1 hx2 hy2 (by omega),
    frame_getElem img w h hw hh x y 2 hx2 hy2 (by omega),
    frame_getElem img w h hw hh x y 3 hx2 hy2 (by omega)⟩

/-- Witness for C7: the bottom-right pixel of a 2 x 2 opaque red raster is stored as the bytes
0, 0, 255, 255 (blue, green, red, alpha) at index `40 + 4 (1 * 2 + 1)` of its frame. -/
theorem C7_pixel_layout_witness :
    (redSquare 2).Bounds.Min = ⟨0, 0⟩ ∧ IsRaster (redSquare 2) ∧
      ∃ d, createBMPWithAlpha maxAlloc (redSquare 2) = some (d, none) ∧
        d[52]? = some 0 ∧ d[53]? = some 0 ∧ d[54]? = some 255 ∧ d[55]? = some 255 := by
  have hr := redSquare_isRaster 2 (by omega) (by omega)
  have hx := redSquare_Dx 2 (by omega) (by omega)
  have hy := redSquare_Dy 2 (by omega) (by omega)
  have h := C7_pixel_layout maxAlloc (redSquare 2) rfl hr
  obtain ⟨d, hd⟩ := h.1 (redSquare_fits 2 (by omega) (by omega))
  have hb := h.2 d none hd 1 1 (by rw [hx]; omega) (by rw [hy]; omega)
  rw [hx] at hb
  exact ⟨rfl, hr, d, hd, hb⟩

theorem Sink.Extends.refl (w : Sink) : w.Extends w := ⟨rfl, [], by simp⟩

theorem Sink.Extends.trans {w w1 w2 : Sink} (h1 : w.Extends w1) (h2 : w1.Extends w2) :
    w.Extends w2 := by
  obtain ⟨f1, d1, e1⟩ := h1
  obtain ⟨f2, d2, e2⟩ := h2
  exact ⟨f2.trans f1, d1 ++ d2, by rw [e2, e1, List.append_assoc]⟩

theorem Sink.fresh_clean (f : Nat → Option IOError) (g : Nat → Nat) :
    (Sink.fresh f g).Clean :=
  ⟨rfl, fun j hj => absurd hj (Nat.not_lt_zero j)⟩

theorem Sink.Write_eq_none (w : Sink) (b : List Nat) (h : w.failure w.issued.length = none) :
    w.Write b = (w.append [b], none) := by
  unfold Sink.Write; rw [h]; rfl

theorem Sink.Write_eq_some (w : Sink) (b : List Nat) (e : IOError)
    (h : w.failure w.issued.length = some e) : w.Write b = (w.reject b, some e) := by
  unfold Sink.Write; rw [h]; rfl

theorem Sink.append_clean (w : Sink) (b : List Nat) (hc : w.Clean)
    (h : w.failure w.issued.length = none) : (w.append [b]).Clean := by
  constructor
  · show w.received ++ [b] = w.issued ++ [b]
    rw [hc.1]
  · intro j hj
    show w.failure j = none
    have hj2 : j < (w.issued ++ [b]).length := hj
    rw [List.length_append, List.length_singleton] at hj2
    by_cases hlt : j < w.issued.length
    · exact hc.2 j hlt
    · have e2 : j = w.issued.length := by omega
      rw [e2]; exact h

theorem Sink.append_extends (w : Sink) (cs : List (List Nat)) : w.Extends (w.append cs) :=
  ⟨rfl, cs, rfl⟩

theorem Sink.reject_failedWith (w : Sink) (b : List Nat) (e : IOError) (hc : w.Clean)
    (h : w.failure w.issued.length = some e) : (w.reject b).FailedWith e := by
  refine ⟨w.issued.length, h, hc.2, ?_, ?_⟩
  · show (w.issued ++ [b]).length = w.issued.length + 1
    rw [List.length_append, List.length_singleton]
  · show w.received ++ [b.take (w.short w.issued.length)] =
      (w.issued ++ [b]).take w.issued.length ++
        ((w.issued ++ [b]).drop w.issued.length).map (List.take (w.short w.issued.length))
    rw [List.take_left, List.drop_left, hc.1]
    rfl

theorem Sink.reject_extends (w : Sink) (b : List Nat) : w.Extends (w.reject b) :=
  ⟨rfl, [b], rfl⟩

theorem createBMPWithAlpha_no_error {mem : Nat} (img : Image) (d : List Nat) (err : IOError) :
    createBMPWithAlpha mem img ≠ some (d, some err) := by
  intro h
  unfold createBMPWithAlpha at h
  simp only [Option.bind_eq_some] at h
  obtain ⟨p0, -, p1, -, b, -, h4⟩ := h
  have h5 := congrArg Prod.snd (Option.some.inj h4)
  cases h5

theorem firstPass_ends {mem : Nat} (images : List Image) (w : Sink) (offset : Int)
    (acc : List (List Nat)) (hc : w.Clean) :
    w.Extends (firstPass mem images w offset acc).1 ∧
      (∀ o, (firstPass mem images w offset acc).2 = Sum.inl o →
        (firstPass mem images w offset acc).1.Ends o) ∧
      (∀ l, (firstPass mem images w offset acc).2 = Sum.inr l →
        (firstPass mem images w offset acc).1.Clean) := by
  induction images generalizing w offset acc with
  | nil =>
    unfold firstPass
    refine ⟨Sink.Extends.refl w, ?_, ?_⟩
    · intro o h; simp at h
    · intro l _; exact hc
  | cons img rest ih =>
    unfold firstPass
    split
    · refine ⟨Sink.Extends.refl w, ?_, ?_⟩
      · intro o h
        have e : o = Outcome.panic := (Sum.inl.inj h).symm
        rw [e]; exact hc
      · intro l h; simp at h
    · rename_i d err hd
      exact absurd hd (createBMPWithAlpha_no_error img d err)
    · simp only []
      cases hf : w.failure w.issued.length with
      | none =>
        rw [Sink.Write_eq_none w _ hf]
        simp only []
        obtain ⟨a1, a2, a3⟩ := ih (w.append [entry img.Bounds.Dx img.Bounds.Dy _ offset])
          (wrapInt (offset + _)) (acc ++ [_]) (Sink.append_clean w _ hc hf)
        exact ⟨(Sink.append_extends w _).trans a1, a2, a3⟩
      | some e =>
        rw [Sink.Write_eq_some w _ e hf]
        simp only []
        refine ⟨Sink.reject_extends w _, ?_, ?_⟩
        · intro o h
          have e2 : o = Outcome.error e := (Sum.inl.inj h).symm
          rw [e2]; exact Sink.reject_failedWith w _ e hc hf
        · intro l h; simp at h

theorem secondPass_ends (bmps : List (List Nat)) (i : Nat) (sizes : List Int) (w : Sink)
    (hc : w.Clean) :
    w.Extends (secondPass bmps i sizes w).1 ∧
      (secondPass bmps i sizes w).1.Ends (secondPass bmps i sizes w).2 := by
  induction bmps generalizing w i with
  | nil =>
    unfold secondPass
    exact ⟨Sink.Extends.refl w, hc⟩
  | cons b rest ih =>
    unfold secondPass
    split
    · exact ⟨Sink.Extends.refl w, hc⟩
    · cases hf : w.failure w.issued.length with
      | none =>
        rw [Sink.Write_eq_none w _ hf]
        simp only []
        obtain ⟨a1, a2⟩ := ih (i + 1) (w.append [b]) (Sink.append_clean w _ hc hf)
        exact ⟨(Sink.append_extends w _).trans a1, a2⟩
      | some e =>
        rw [Sink.Write_eq_some w _ e hf]
        simp only []
        exact ⟨Sink.reject_extends w _, Sink.reject_failedWith w _ e hc hf⟩

/-- Every run of `writeICO` from a sink on which no write has failed: the header is the first
chunk handed to the sink, and the outcome goes with the final state of the sink. -/
theorem writeICO_ends {mem : Nat} (w : Sink) (images : List Image) (sizes : List Int) (hc : w.Clean) :
    (writeICO mem w images sizes).1.failure = w.failure ∧
      (∃ ds, (writeICO mem w images sizes).1.issued =
        w.issued ++ icoHeader images.length :: ds) ∧
      (writeICO mem w images sizes).1.Ends (writeICO mem w images sizes).2 := by
  unfold writeICO
  simp only []
  cases hf : w.failure w.issued.length with
  | some e =>
    rw [Sink.Write_eq_some w _ e hf]
    simp only []
    exact ⟨rfl, ⟨[], rfl⟩, Sink.reject_failedWith w _ e hc hf⟩
  | none =>
    rw [Sink.Write_eq_none w _ hf]
    simp only []
    obtain ⟨a1, a2, a3⟩ := firstPass_ends images
      (w.append [[0, 0, 1, 0, toByte images.length, 0]])
      (wrapInt (6 + wrapInt (images.length * 16))) [] (Sink.append_clean w _ hc hf)
    split
    · rename_i wr o hfp
      rw [hfp] at a1 a2
      obtain ⟨f1, d1, e2⟩ := a1
      refine ⟨f1, ⟨d1, ?_⟩, a2 o rfl⟩
      rw [e2]
      show (w.issued ++ [[0, 0, 1, 0, toByte images.length, 0]]) ++ d1 = _
      rw [List.append_assoc]; rfl
    · rename_i wr l hfp
      rw [hfp] at a1 a3
      obtain ⟨b1, b2⟩ := secondPass_ends l 0 sizes wr (a3 l rfl)
      obtain ⟨f1, d1, e2⟩ := a1.trans b1
      refine ⟨f1, ⟨d1, ?_⟩, b2⟩
      rw [e2]
      show (w.issued ++ [[0, 0, 1, 0, toByte images.length, 0]]) ++ d1 = _
      rw [List.append_assoc]; rfl

theorem Sink.Ends.clean {w : Sink} {o : Outcome} (h : w.Ends o) (hw : w.NeverFails) :
    w.Clean := by
  cases o with
  | nil => exact h
  | panic => exact h
  | error e =>
    obtain ⟨k, hk, -⟩ := h
    rw [hw k] at hk
    cases hk

theorem toByte_small (n : Nat) (h : n ≤ 255) : toByte (n : Int) = n := by
  unfold toByte; omega

/-! ## The ICO header (C3) -/

/-- C3. ICO header: for a list of `N` rasters with `1 ≤ N ≤ 255`, the first six bytes that
`writeICO` writes are `0 0` (reserved), `1 0` (image type 1, little-endian), `N 0` (image
count, low byte `N`, high byte 0): they are the first six bytes of the output on a sink that
does not fail, and on any sink they are the first chunk handed to `Write`. -/
theorem C3_ico_header (mem : Nat) (images : List Image) (sizes : List Int)
    (_h1 : 1 ≤ images.length) (h255 : images.length ≤ 255) :
    (writeICO mem okSink images sizes).1.bytes.take 6 = [0, 0, 1, 0, images.length, 0] ∧
      ∀ f g, (writeICO mem (Sink.fresh f g) images sizes).1.issued.head? =
        some [0, 0, 1, 0, images.length, 0] := by
  have hb : icoHeader images.length = [0, 0, 1, 0, images.length, 0] := by
    unfold icoHeader; rw [toByte_small _ h255]
  constructor
  · obtain ⟨a1, ⟨ds, a2⟩, a3⟩ := writeICO_ends okSink images sizes (Sink.fresh_clean _ _)
    have hnf : (writeICO mem okSink images sizes).1.NeverFails := by
      intro k; rw [a1]; rfl
    have hcl := a3.clean hnf
    unfold Sink.bytes
    rw [hcl.1, a2, hb]
    rfl
  · intro f g
    obtain ⟨-, ⟨ds, a2⟩, -⟩ := writeICO_ends (Sink.fresh f g) images sizes (Sink.fresh_clean _ _)
    rw [a2, hb]
    rfl

/-- Witness for C3: the header written for two rasters. -/
theorem C3_ico_header_witness :
    (writeICO maxAlloc okSink [redSquare 16, redSquare 32] [16, 32]).1.bytes.take 6 =
      [0, 0, 1, 0, 2, 0] :=
  (C3_ico_header maxAlloc [redSquare 16, redSquare 32] [16, 32] (by decide) (by decide)).1

/-! ## A run on a failing sink against the run on a sink that never fails -/

theorem firstPass_sim {mem : Nat} (images : List Image) (w w0 : Sink) (offset : Int)
    (acc : List (List Nat)) (hc : w.Clean) (hw0 : w0.NeverFails) (hcl0 : w0.Clean)
    (heq : w.issued = w0.issued) :
    (∃ t, (firstPass mem images w0 offset acc).1.issued =
        (firstPass mem images w offset acc).1.issued ++ t) ∧
      ((∀ e, (firstPass mem images w offset acc).2 ≠ Sum.inl (Outcome.error e)) →
        (firstPass mem images w offset acc).1.Clean ∧
        (firstPass mem images w offset acc).1.issued = (firstPass mem images w0 offset acc).1.issued ∧
        (firstPass mem images w offset acc).2 = (firstPass mem images w0 offset acc).2) := by
  induction images generalizing w w0 offset acc with
  | nil =>
    unfold firstPass
    exact ⟨⟨[], by rw [heq, List.append_nil]⟩, fun _ => ⟨hc, heq, rfl⟩⟩
  | cons img rest ih =>
    unfold firstPass
    split
    · exact ⟨⟨[], by rw [heq, List.append_nil]⟩, fun _ => ⟨hc, heq, rfl⟩⟩
    · exact ⟨⟨[], by rw [heq, List.append_nil]⟩, fun _ => ⟨hc, heq, rfl⟩⟩
    · simp only []
      rw [Sink.Write_eq_none w0 _ (hw0 _)]
      simp only []
      cases hf : w.failure w.issued.length with
      | none =>
        rw [Sink.Write_eq_none w _ hf]
        simp only []
        exact ih (w.append [entry img.Bounds.Dx img.Bounds.Dy _ offset])
          (w0.append [entry img.Bounds.Dx img.Bounds.Dy _ offset]) (wrapInt (offset + _))
          (acc ++ [_]) (Sink.append_clean w _ hc hf) (Sink.append_neverFails w0 _ hw0)
          (Sink.append_clean w0 _ hcl0 (hw0 _))
          (by show w.issued ++ _ = w0.issued ++ _; rw [heq])
      | some e =>
        rw [Sink.Write_eq_some w _ e hf]
        simp only []
        constructor
        · obtain ⟨-, ds, hds⟩ := (firstPass_ends rest
            (w0.append [entry img.Bounds.Dx img.Bounds.Dy _ offset]) (wrapInt (offset + _))
            (acc ++ [_]) (Sink.append_clean w0 _ hcl0 (hw0 _))).1
          refine ⟨ds, ?_⟩
          rw [hds]
          show w0.issued ++ _ ++ ds = w.issued ++ _ ++ ds
          rw [heq]
        · intro hne
          exact absurd rfl (hne e)

theorem secondPass_sim (bmps : List (List Nat)) (i : Nat) (sizes : List Int) (w w0 : Sink)
    (hc : w.Clean) (hw0 : w0.NeverFails) (hcl0 : w0.Clean) (heq : w.issued = w0.issued) :
    (∃ t, (secondPass bmps i sizes w0).1.issued = (secondPass bmps i sizes w).1.issued ++ t) ∧
      ((∀ e, (secondPass bmps i sizes w).2 ≠ Outcome.error e) →
        (secondPass bmps i sizes w).1.issued = (secondPass bmps i sizes w0).1.issued ∧
        (secondPass bmps i sizes w).2 = (secondPass bmps i sizes w0).2) := by
  induction bmps generalizing w w0 i with
  | nil =>
    unfold secondPass
    exact ⟨⟨[], by rw [heq, List.append_nil]⟩, fun _ => ⟨heq, rfl⟩⟩
  | cons b rest ih =>
    unfold secondPass
    split
    · exact ⟨⟨[], by rw [heq, List.append_nil]⟩, fun _ => ⟨heq, rfl⟩⟩
    · rw [Sink.Write_eq_none w0 _ (hw0 _)]
      simp only []
      cases hf : w.failure w.issued.length with
      | none =>
        rw [Sink.Write_eq_none w _ hf]
        simp only []
        exact ih (i + 1) (w.append [b]) (w0.append [b]) (Sink.append_clean w _ hc hf)
          (Sink.append_neverFails w0 _ hw0) (Sink.append_clean w0 _ hcl0 (hw0 _))
          (by show w.issued ++ _ = w0.issued ++ _; rw [heq])
      | some e =>
        rw [Sink.Write_eq_some w _ e hf]
        simp only []
        constructor
        · obtain ⟨⟨-, ds, hds⟩, -⟩ := secondPass_ends rest (i + 1) sizes (w0.append [b])
            (Sink.append_clean w0 _ hcl0 (hw0 _))
          refine ⟨ds, ?_⟩
          rw [hds]
          show w0.issued ++ _ ++ ds = w.issued ++ _ ++ ds
          rw [heq]
        · intro hne
          exact absurd rfl (hne e)

/-- The writes issued on any sink are the first writes issued on the sink that never fails,
and all of them unless a write fails. -/
theorem writeICO_sim {mem : Nat} (f : Nat → Option IOError) (g : Nat → Nat)
    (images : List Image) (sizes : List Int) :
    (∃ t, (writeICO mem okSink images sizes).1.issued =
        (writeICO mem (Sink.fresh f g) images sizes).1.issued ++ t) ∧
      ((∀ e, (writeICO mem (Sink.fresh f g) images sizes).2 ≠ Outcome.error e) →
        (writeICO mem (Sink.fresh f g) images sizes).1.issued =
          (writeICO mem okSink images sizes).1.issued ∧
        (writeICO mem (Sink.fresh f g) images sizes).2 = (writeICO mem okSink images sizes).2) := by
  have hw0 : okSink.NeverFails := okSink_neverFails
  have hc0 : okSink.Clean := Sink.fresh_clean _ _
  have hc : (Sink.fresh f g).Clean := Sink.fresh_clean f g
  have heq : (Sink.fresh f g).issued = okSink.issued := rfl
  generalize Sink.fresh f g = w at hc heq ⊢
  generalize okSink = w0 at hw0 hc0 heq ⊢
  unfold writeICO
  simp only []
  rw [Sink.Write_eq_none w0 _ (hw0 _)]
  simp only []
  have hcl1 := Sink.append_clean w0 [0, 0, 1, 0, toByte images.length, 0] hc0 (hw0 _)
  have hnf1 := Sink.append_neverFails w0 [[0, 0, 1, 0, toByte images.length, 0]] hw0
  cases hf : w.failure w.issued.length with
  | some e =>
    rw [Sink.Write_eq_some w _ e hf]
    simp only []
    constructor
    · obtain ⟨-, ⟨ds, hds⟩, -⟩ := writeICO_ends w0 images sizes hc0
      unfold writeICO at hds
      simp only [] at hds
      rw [Sink.Write_eq_none w0 _ (hw0 _)] at hds
      simp only [] at hds
      refine ⟨ds, ?_⟩
      rw [hds]
      show _ = w.issued ++ [[0, 0, 1, 0, toByte images.length, 0]] ++ ds
      rw [heq, List.append_assoc]
      rfl
    · intro hne
      exact absurd rfl (hne e)
  | none =>
    rw [Sink.Write_eq_none w _ hf]
    simp only []
    have hcw := Sink.append_clean w [0, 0, 1, 0, toByte images.length, 0] hc hf
    have heq1 : (w.append [[0, 0, 1, 0, toByte images.length, 0]]).issued =
        (w0.append [[0, 0, 1, 0, toByte images.length, 0]]).issued := by
      show w.issued ++ _ = w0.issued ++ _
      rw [heq]
    have hsim := @firstPass_sim mem images _ _
      (wrapInt (6 + wrapInt (images.length * 16))) [] hcw hnf1 hcl1 heq1
    have hends := @firstPass_ends mem images
      (w0.append [[0, 0, 1, 0, toByte images.length, 0]])
      (wrapInt (6 + wrapInt (images.length * 16))) [] hcl1
    generalize firstPass mem images (w.append [[0, 0, 1, 0, toByte images.length, 0]])
      (wrapInt (6 + wrapInt (images.length * 16))) [] = r at hsim ⊢
    generalize firstPass mem images (w0.append [[0, 0, 1, 0, toByte images.length, 0]])
      (wrapInt (6 + wrapInt (images.length * 16))) [] = r0 at hsim hends ⊢
    obtain ⟨wr, res⟩ := r
    obtain ⟨wr0, res0⟩ := r0
    obtain ⟨⟨t, ht⟩, hsame⟩ := hsim
    obtain ⟨hx0, -, hcl0⟩ := hends
    simp only [] at ht hsame hx0 hcl0
    have hnf0 : wr0.NeverFails := by
      intro k
      rw [hx0.1]
      exact hnf1 k
    cases res with
    | inl o =>
      cases o with
      | error e =>
        simp only []
        constructor
        · cases res0 with
          | inl o0 => exact ⟨t, ht⟩
          | inr l0 =>
            simp only []
            obtain ⟨⟨-, ds, hds⟩, -⟩ := secondPass_ends l0 0 sizes wr0 (hcl0 l0 rfl)
            refine ⟨t ++ ds, ?_⟩
            rw [hds, ht, List.append_assoc]
        · intro hne
          exact absurd rfl (hne e)
      | nil =>
        obtain ⟨-, h2, h3⟩ := hsame (fun e h => by cases h)
        subst h3
        exact ⟨⟨[], by rw [h2, List.append_nil]⟩, fun _ => ⟨h2, rfl⟩⟩
      | panic =>
        obtain ⟨-, h2, h3⟩ := hsame (fun e h => by cases h)
        subst h3
        exact ⟨⟨[], by rw [h2, List.append_nil]⟩, fun _ => ⟨h2, rfl⟩⟩
    | inr l =>
      obtain ⟨h1, h2, h3⟩ := hsame (fun e h => by cases h)
      subst h3
      simp only []
      exact secondPass_sim l 0 sizes wr wr0 h1 hnf0 (hcl0 l rfl) h2

/-! ## Write errors (C10) -/

theorem firstPass_keeps {mem : Nat} (images : List Image) (w : Sink) (offset : Int)
    (acc : List (List Nat)) : (firstPass mem images w offset acc).1.short = w.short := by
  induction images generalizing w offset acc with
  | nil =>
    unfold firstPass
    rfl
  | cons img rest ih =>
    unfold firstPass
    split
    · rfl
    · rfl
    · simp only []
      cases hf : w.failure w.issued.length with
      | none =>
        rw [Sink.Write_eq_none w _ hf]
        simp only []
        rw [ih]
        rfl
      | some e =>
        rw [Sink.Write_eq_some w _ e hf]
        rfl

theorem secondPass_keeps (bmps : List (List Nat)) (i : Nat) (sizes : List Int) (w : Sink) :
    (secondPass bmps i sizes w).1.short = w.short := by
  induction bmps generalizing w i with
  | nil =>
    unfold secondPass
    rfl
  | cons b rest ih =>
    unfold secondPass
    split
    · rfl
    · cases hf : w.failure w.issued.length with
      | none =>
        rw [Sink.Write_eq_none w _ hf]
        simp only []
        rw [ih]
        rfl
      | some e =>
        rw [Sink.Write_eq_some w _ e hf]
        rfl

/-- A run of `writeICO` does not change how the sink fails. -/
theorem writeICO_keeps {mem : Nat} (w : Sink) (images : List Image) (sizes : List Int) :
    (writeICO mem w images sizes).1.short = w.short := by
  unfold writeICO
  simp only []
  cases hf : w.failure w.issued.length with
  | some e =>
    rw [Sink.Write_eq_some w _ e hf]
    rfl
  | none =>
    rw [Sink.Write_eq_none w _ hf]
    simp only []
    have h1 := @firstPass_keeps mem images (w.append [[0, 0, 1, 0, toByte images.length, 0]])
      (wrapInt (6 + wrapInt (images.length * 16))) []
    split
    · rename_i wr o hfp
      rw [hfp] at h1
      exact h1
    · rename_i wr l hfp
      rw [hfp] at h1
      rw [secondPass_keeps]
      exact h1

theorem take_succ_drop {α : Type} (l : List α) (k : Nat) (c : α) (h : l[k]? = some c) :
    (l.take (k + 1)).drop k = [c] := by
  induction l generalizing k with
  | nil => simp at h
  | cons a rest ih =>
    cases k with
    | zero =>
      simp only [List.getElem?_cons_zero] at h
      rw [Option.some.inj h]
      rfl
    | succ k =>
      rw [List.getElem?_cons_succ] at h
      rw [List.take_succ_cons, List.drop_succ_cons]
      exact ih k h

/-- The first failed write ends the call: its error is returned, it is the last write issued,
and the sink holds the chunks of the writes before it and the prefix it delivered. -/
theorem writeICO_first_failure {mem : Nat} (f : Nat → Option IOError) (g : Nat → Nat)
    (images : List Image) (sizes : List Int) :
    (∀ k e, f k = some e → (∀ j, j < k → f j = none) →
        k < (writeICO mem (Sink.fresh f g) images sizes).1.issued.length →
        (writeICO mem (Sink.fresh f g) images sizes).2 = Outcome.error e ∧
          (writeICO mem (Sink.fresh f g) images sizes).1.issued.length = k + 1 ∧
          (writeICO mem (Sink.fresh f g) images sizes).1.received =
            (writeICO mem (Sink.fresh f g) images sizes).1.issued.take k ++
              ((writeICO mem (Sink.fresh f g) images sizes).1.issued.drop k).map
                (List.take (g k))) ∧
      ((∀ j, j < (writeICO mem (Sink.fresh f g) images sizes).1.issued.length → f j = none) →
        (∀ e, (writeICO mem (Sink.fresh f g) images sizes).2 ≠ Outcome.error e) ∧
          (writeICO mem (Sink.fresh f g) images sizes).1.received =
            (writeICO mem (Sink.fresh f g) images sizes).1.issued) := by
  obtain ⟨a1, -, a3⟩ := writeICO_ends (Sink.fresh f g) images sizes (Sink.fresh_clean _ _)
  have hf : (writeICO mem (Sink.fresh f g) images sizes).1.failure = f := a1
  have hg : (writeICO mem (Sink.fresh f g) images sizes).1.short = g :=
    writeICO_keeps (Sink.fresh f g) images sizes
  constructor
  · intro k e hk hfirst hlen
    cases ho : (writeICO mem (Sink.fresh f g) images sizes).2 with
    | nil =>
      rw [ho] at a3
      have h2 := a3.2 k hlen
      rw [hf, hk] at h2
      cases h2
    | panic =>
      rw [ho] at a3
      have h2 := a3.2 k hlen
      rw [hf, hk] at h2
      cases h2
    | error e2 =>
      rw [ho] at a3
      obtain ⟨k2, b1, b2, b3, b4⟩ := a3
      rw [hf] at b1 b2
      rw [hg] at b4
      have hk2 : k2 = k := by
        rcases Nat.lt_trichotomy k2 k with h | h | h
        · have h3 := hfirst k2 h
          rw [b1] at h3
          cases h3
        · exact h
        · have h3 := b2 k h
          rw [hk] at h3
          cases h3
      subst hk2
      rw [hk] at b1
      have he : e = e2 := Option.some.inj b1
      subst he
      exact ⟨rfl, b3, b4⟩
  · intro hall
    cases ho : (writeICO mem (Sink.fresh f g) images sizes).2 with
    | nil =>
      rw [ho] at a3
      exact ⟨fun e h => (by cases h), a3.1⟩
    | panic =>
      rw [ho] at a3
      exact ⟨fun e h => (by cases h), a3.1⟩
    | error e2 =>
      rw [ho] at a3
      obtain ⟨k2, b1, -, b3, -⟩ := a3
      rw [hf] at b1
      have h3 := hall k2 (by omega)
      rw [b1] at h3
      cases h3

/-- C10, counterexample: one raster of one pixel is written to a sink whose second write
(the only directory entry, 16 bytes) is the first to fail, with error 28, after it has
delivered 4 bytes.  `writeICO` returns that error, but the sink has not received exactly the
chunk of the first write (the 6 bytes of the header): it holds 10 bytes, the header and the
first 4 bytes of the entry. -/
theorem C10_counterexample :
    (failAt 1 4).failure 1 = some ⟨28⟩ ∧ (failAt 1 4).failure 0 = none ∧
      (writeICO maxAlloc (failAt 1 4) [redSquare 1] [16]).2 = Outcome.error ⟨28⟩ ∧
      (writeICO maxAlloc (failAt 1 4) [redSquare 1] [16]).1.bytes ≠
        ((writeICO maxAlloc okSink [redSquare 1] [16]).1.issued.take 1).flatten ∧
      ((writeICO maxAlloc okSink [redSquare 1] [16]).1.issued.take 1).flatten =
        [0, 0, 1, 0, 1, 0] ∧
      (writeICO maxAlloc (failAt 1 4) [redSquare 1] [16]).1.bytes =
        [0, 0, 1, 0, 1, 0, 1, 1, 0, 0] := by
  have h1 : (writeICO maxAlloc (failAt 1 4) [redSquare 1] [16]).1.bytes =
      [0, 0, 1, 0, 1, 0, 1, 1, 0, 0] := by with_unfolding_all decide
  have h2 : ((writeICO maxAlloc okSink [redSquare 1] [16]).1.issued.take 1).flatten =
      [0, 0, 1, 0, 1, 0] := by with_unfolding_all decide
  refine ⟨rfl, rfl, by with_unfolding_all decide, ?_, h2, h1⟩
  rw [h1, h2]
  decide

/-- C10, amended. Write-error propagation: the sink is a sequence of write operations, any of
which may fail (a failure schedule `f`) after it has delivered some bytes of its chunk (`g`);
the writes that `writeICO` issues when none fails are the writes of the run on `okSink`.  For
every input and every `k`, if the `k`-th of these writes (counted from 0: the header, then the
directory entries, then the payloads) is the first one that fails, with error `e`, then
`writeICO` returns exactly `e`, issues no further write (it has issued the first `k + 1`
writes) and the sink has received the chunks of the `k` writes before it, followed by the
prefix of the chunk `c` of the failed write that this write delivered, and nothing else;
these are exactly the chunks of the `k` writes before it when the failed write delivered
nothing.  If no issued write fails, `writeICO` returns no error, issues the same writes and
ends as on `okSink`, and the sink has received every chunk. -/
theorem C10_write_error (mem : Nat) (f : Nat → Option IOError) (g : Nat → Nat)
    (images : List Image) (sizes : List Int) :
    (∀ k e, f k = some e → (∀ j, j < k → f j = none) →
        k < (writeICO mem okSink images sizes).1.issued.length →
        (writeICO mem (Sink.fresh f g) images sizes).2 = Outcome.error e ∧
          (writeICO mem (Sink.fresh f g) images sizes).1.issued =
            (writeICO mem okSink images sizes).1.issued.take (k + 1) ∧
          ∃ c, (writeICO mem okSink images sizes).1.issued[k]? = some c ∧
            (writeICO mem (Sink.fresh f g) images sizes).1.received =
              (writeICO mem okSink images sizes).1.issued.take k ++ [c.take (g k)] ∧
            (writeICO mem (Sink.fresh f g) images sizes).1.bytes =
              ((writeICO mem okSink images sizes).1.issued.take k).flatten ++ c.take (g k) ∧
            (g k = 0 → (writeICO mem (Sink.fresh f g) images sizes).1.bytes =
              ((writeICO mem okSink images sizes).1.issued.take k).flatten)) ∧
      ((∀ j, j < (writeICO mem (Sink.fresh f g) images sizes).1.issued.length → f j = none) →
        (∀ e, (writeICO mem (Sink.fresh f g) images sizes).2 ≠ Outcome.error e) ∧
          (writeICO mem (Sink.fresh f g) images sizes).2 =
            (writeICO mem okSink images sizes).2 ∧
          (writeICO mem (Sink.fresh f g) images sizes).1.issued =
            (writeICO mem okSink images sizes).1.issued ∧
          (writeICO mem (Sink.fresh f g) images sizes).1.received =
            (writeICO mem okSink images sizes).1.issued) := by
  obtain ⟨ha, hb⟩ := @writeICO_first_failure mem f g images sizes
  obtain ⟨⟨t, ht⟩, hsame⟩ := @writeICO_sim mem f g images sizes
  constructor
  · intro k e hk hfirst hlen
    have hlen2 : k < (writeICO mem (Sink.fresh f g) images sizes).1.issued.length := by
      by_contra hc
      have hall : ∀ j, j < (writeICO mem (Sink.fresh f g) images sizes).1.issued.length →
          f j = none := fun j hj => hfirst j (by omega)
      have h1 := (hsame (hb hall).1).1
      rw [h1] at hc
      exact hc hlen
    obtain ⟨h1, h2, h3⟩ := ha k e hk hfirst hlen2
    have h4 : (writeICO mem okSink images sizes).1.issued.take (k + 1) =
        (writeICO mem (Sink.fresh f g) images sizes).1.issued := by
      rw [ht]
      exact List.take_left' h2
    have hc : (writeICO mem okSink images sizes).1.issued[k]? =
        some ((writeICO mem okSink images sizes).1.issued[k]) := List.getElem?_eq_getElem hlen
    have h5 : (writeICO mem (Sink.fresh f g) images sizes).1.received =
        (writeICO mem okSink images sizes).1.issued.take k ++
          [((writeICO mem okSink images sizes).1.issued[k]).take (g k)] := by
      rw [h3, ← h4, List.take_take, Nat.min_eq_left (by omega), take_succ_drop _ k _ hc]
      rfl
    have h6 : (writeICO mem (Sink.fresh f g) images sizes).1.bytes =
        ((writeICO mem okSink images sizes).1.issued.take k).flatten ++
          ((writeICO mem okSink images sizes).1.issued[k]).take (g k) := by
      unfold Sink.bytes
      rw [h5, List.flatten_append, List.flatten_singleton]
    refine ⟨h1, h4.symm, _, hc, h5, h6, ?_⟩
    intro h0
    rw [h6, h0, List.take_zero, List.append_nil]
  · intro hall
    obtain ⟨h1, h2⟩ := hb hall
    obtain ⟨h3, h4⟩ := hsame h1
    exact ⟨h1, h4, h3, h2.trans h3⟩

/-- Witness for C10: when the second write (the only directory entry) fails with error 28
after it has delivered 4 bytes, `writeICO` returns that error after two writes, and the sink
holds the header and the first 4 bytes of the entry. -/
theorem C10_write_error_witness :
    (writeICO maxAlloc (failAt 1 4) [redSquare 1] [16]).2 = Outcome.error ⟨28⟩ ∧
      (writeICO maxAlloc (failAt 1 4) [redSquare 1] [16]).1.issued =
        (writeICO maxAlloc okSink [redSquare 1] [16]).1.issued.take (1 + 1) ∧
      ∃ c, (writeICO maxAlloc okSink [redSquare 1] [16]).1.issued[1]? = some c ∧
        (writeICO maxAlloc (failAt 1 4) [redSquare 1] [16]).1.received =
          (writeICO maxAlloc okSink [redSquare 1] [16]).1.issued.take 1 ++ [c.take 4] ∧
        (writeICO maxAlloc (failAt 1 4) [redSquare 1] [16]).1.bytes =
          ((writeICO maxAlloc okSink [redSquare 1] [16]).1.issued.take 1).flatten ++
            c.take 4 :=
  have h := (C10_write_error maxAlloc (fun j => if j = 1 then some ⟨28⟩ else none)
    (fun _ => 4) [redSquare 1] [16]).1 1 ⟨28⟩
    rfl (fun j hj => by
      have h0 : j = 0 := by omega
      subst h0
      rfl)
    (by with_unfolding_all decide)
  ⟨h.1, h.2.1, h.2.2.choose, h.2.2.choose_spec.1, h.2.2.choose_spec.2.1,
    h.2.2.choose_spec.2.2.1⟩

/-! ## Completed calls on a sink that never fails -/

theorem le32_mod (v : Nat) : le32 (v % 4294967296) = le32 v := by
  unfold le32
  have h1 : v % 4294967296 % 256 = v % 256 := by omega
  have h2 : v % 4294967296 / 256 % 256 = v / 256 % 256 := by omega
  have h3 : v % 4294967296 / 65536 % 256 = v / 65536 % 256 := by omega
  have h4 : v % 4294967296 / 16777216 % 256 = v / 16777216 % 256 := by omega
  rw [h1, h2, h3, h4]

theorem bmpLength_frame {mem : Nat} (img : Image) (h : createBMPWithAlpha mem img = some (frame img, none)) :
    bmpLength mem img = (frame img).length := by
  unfold bmpLength; rw [h]

theorem payloadLength_cons {mem : Nat} (a : Image) (rest : List Image) :
    payloadLength mem (a :: rest) = bmpLength mem a + payloadLength mem rest := rfl

theorem framesLength_cons (a : Image) (rest : List Image) :
    framesLength (a :: rest) = (frame a).length + framesLength rest := rfl

theorem payloadLength_frames {mem : Nat} (images : List Image)
    (h : ∀ img ∈ images, createBMPWithAlpha mem img = some (frame img, none)) :
    payloadLength mem images = framesLength images := by
  induction images with
  | nil => simp [payloadLength, framesLength]
  | cons a rest ih =>
    rw [payloadLength_cons, framesLength_cons, bmpLength_frame a (h a (List.mem_cons_self _ _)),
      ih (fun img hi => h img (List.mem_cons_of_mem _ hi))]

/-- A call that returns `nil` on the sink `okSink`, for rasters: the output is the closed form
`icoChunks`, every frame is returned by `createBMPWithAlpha` and is the closed form `frame`. -/
theorem run_layout {mem : Nat} (images : List Image) (sizes : List Int) (s : Sink)
    (hr : ∀ img ∈ images, IsRaster img)
    (hrun : writeICO mem okSink images sizes = (s, Outcome.nil)) :
    s.bytes = (icoChunks images).flatten ∧
      (∀ img ∈ images, createBMPWithAlpha mem img = some (frame img, none)) ∧
      ∀ i, payloadLength mem (images.take i) = framesLength (images.take i) := by
  obtain ⟨h1, h2⟩ := writeICO_complete okSink s images sizes okSink_neverFails
    (fun img hi => (hr img hi).wellFormed) hrun
  refine ⟨by rw [h1, okSink_append_bytes], fun img hi => (h2 img hi).2, ?_⟩
  intro i
  exact payloadLength_frames _ (fun img hi => (h2 img (List.mem_of_mem_take hi)).2)

theorem twoIcons_rasters : ∀ img ∈ twoIcons, IsRaster img := by
  intro img hi
  simp only [twoIcons, List.mem_cons, List.mem_singleton, List.not_mem_nil, or_false] at hi
  rcases hi with e | e
  · rw [e]; exact redSquare_isRaster 16 (by omega) (by omega)
  · rw [e]; exact redSquare_isRaster 32 (by omega) (by omega)

theorem twoIcons_fit : ∀ img ∈ twoIcons, Fits maxAlloc img := by
  intro img hi
  simp only [twoIcons, List.mem_cons, List.mem_singleton, List.not_mem_nil, or_false] at hi
  rcases hi with e | e
  · rw [e]; exact redSquare_fits 16 (by omega) (by omega)
  · rw [e]; exact redSquare_fits 32 (by omega) (by omega)

/-- The call on the two rasters of `twoIcons` with sizes 16 and 32 returns `nil`. -/
theorem twoIcons_run :
    writeICO maxAlloc okSink twoIcons [16, 32] =
      ((writeICO maxAlloc okSink twoIcons [16, 32]).1, Outcome.nil) := by
  rw [writeICO_returns okSink twoIcons [16, 32] okSink_neverFails
    (fun img hi => (twoIcons_rasters img hi).wellFormed) twoIcons_fit (by decide)]

theorem twoIcons_bmpLength :
    bmpLength maxAlloc (redSquare 16) = 1064 ∧ bmpLength maxAlloc (redSquare 32) = 4136 := by
  constructor
  · rw [bmpLength_frame _ (createBMPWithAlpha_eq _
      (redSquare_isRaster 16 (by omega) (by omega)).wellFormed.1
      (redSquare_isRaster 16 (by omega) (by omega)).wellFormed.2
      (redSquare_fits 16 (by omega) (by omega))), redSquare_frame_length 16 (by omega) (by omega)]
    rfl
  · rw [bmpLength_frame _ (createBMPWithAlpha_eq _
      (redSquare_isRaster 32 (by omega) (by omega)).wellFormed.1
      (redSquare_isRaster 32 (by omega) (by omega)).wellFormed.2
      (redSquare_fits 32 (by omega) (by omega))), redSquare_frame_length 32 (by omega) (by omega)]
    rfl

/-! ## Directory entries (C4) -/

/-- C4. Directory entry encoding: when `writeICO` has written a list of `N` rasters to a sink
that does not fail, for every `i < N` the 16 output bytes at positions `6 + 16 i .. 6 + 16 i +
15` are: the width of raster `i` if below 256, else 0; its height if below 256, else 0; 0; 0;
1 as 16-bit little-endian; 32 as 16-bit little-endian; the four low-order bytes of the byte
length of `createBMPWithAlpha(images[i])`, least significant first (the length itself as
32-bit little-endian when it is below `2^32`); and likewise the four low-order bytes of the
running offset `6 + 16 N` plus the lengths of the frames before `i`. -/
theorem C4_directory_entry (mem : Nat) (images : List Image) (sizes : List Int) (s : Sink)
    (hr : ∀ img ∈ images, IsRaster img)
    (hrun : writeICO mem okSink images sizes = (s, Outcome.nil)) (i : Nat)
    (hi : i < images.length) :
    (∃ d, createBMPWithAlpha mem images[i] = some (d, none) ∧ d.length = bmpLength mem images[i]) ∧
      (s.bytes.drop (6 + 16 * i)).take 16 =
        [dimByte images[i].Bounds.Dx, dimByte images[i].Bounds.Dy, 0, 0] ++ le16 1 ++ le16 32 ++
          le32 (bmpLength mem images[i]) ++
          le32 (6 + 16 * images.length + payloadLength mem (images.take i)) ∧
      (bmpLength mem images[i] < 4294967296 →
        readLE32At s.bytes (6 + 16 * i + 8) = some (bmpLength mem images[i])) := by
  obtain ⟨hb, hf, hp⟩ := run_layout images sizes s hr hrun
  have hfi := hf images[i] (List.getElem_mem hi)
  have hri := hr images[i] (List.getElem_mem hi)
  have hlen := bmpLength_frame _ hfi
  refine ⟨⟨frame images[i], hfi, hlen.symm⟩, ?_, ?_⟩
  · rw [hb, icoChunks_entry_fields images i hi, le32_mod, le32_mod, hlen, hp i,
      entryDim_eq _ hri.wellFormed.1, entryDim_eq _ hri.wellFormed.2]
  · intro hsmall
    rw [hb, icoChunks_size_field images i hi, ← hlen, Nat.mod_eq_of_lt hsmall]

theorem payloadLength_nil {mem : Nat} : payloadLength mem [] = 0 := by simp [payloadLength]

theorem twoIcons_payload : payloadLength maxAlloc (twoIcons.take 1) = 1064 := by
  have e : twoIcons.take 1 = [redSquare 16] := rfl
  rw [e, payloadLength_cons, payloadLength_nil, twoIcons_bmpLength.1]

theorem dimByte_small (n : Nat) (h : n < 256) : dimByte (n : Int) = n := by
  unfold dimByte
  rw [if_pos (by omega)]
  rfl

/-- Witness for C4: the two directory entries written for rasters of 16 x 16 and of 32 x 32
pixels. -/
theorem C4_directory_entry_witness :
    ((writeICO maxAlloc okSink twoIcons [16, 32]).1.bytes.drop 6).take 16 =
        [16, 16, 0, 0, 1, 0, 32, 0, 40, 4, 0, 0, 38, 0, 0, 0] ∧
      ((writeICO maxAlloc okSink twoIcons [16, 32]).1.bytes.drop 22).take 16 =
        [32, 32, 0, 0, 1, 0, 32, 0, 40, 16, 0, 0, 78, 4, 0, 0] := by
  have h0 := (C4_directory_entry maxAlloc twoIcons [16, 32] _ twoIcons_rasters twoIcons_run 0
    (by decide)).2.1
  have h1 := (C4_directory_entry maxAlloc twoIcons [16, 32] _ twoIcons_rasters twoIcons_run 1
    (by decide)).2.1
  have e0 : twoIcons[0] = redSquare 16 := rfl
  have e1 : twoIcons[1] = redSquare 32 := rfl
  have t0 : twoIcons.take 0 = [] := rfl
  have l2 : twoIcons.length = 2 := rfl
  rw [e0, t0, payloadLength_nil, l2, twoIcons_bmpLength.1,
    redSquare_Dx 16 (by omega) (by omega), redSquare_Dy 16 (by omega) (by omega)] at h0
  rw [e1, twoIcons_payload, l2, twoIcons_bmpLength.2,
    redSquare_Dx 32 (by omega) (by omega), redSquare_Dy 32 (by omega) (by omega)] at h1
  have d16 : dimByte 16 = 16 := dimByte_small 16 (by omega)
  have d32 : dimByte 32 = 32 := dimByte_small 32 (by omega)
  rw [d16] at h0
  rw [d32] at h1
  exact ⟨h0, h1⟩

/-! ## The offset chain (C2) -/

/-- C2. Offset chain: when `writeICO` has written a list of `N ≥ 1` rasters to a sink that
does not fail and the total output length is below `2^32`, the payload offset stored in
directory entry 0 is `6 + 16 N`, and for every `i` with `i + 1 < N` the stored offset of entry
`i` plus the stored payload size of entry `i` is the stored offset of entry `i + 1`. -/
theorem C2_offset_chain (mem : Nat) (images : List Image) (sizes : List Int) (s : Sink)
    (hr : ∀ img ∈ images, IsRaster img)
    (hrun : writeICO mem okSink images sizes = (s, Outcome.nil)) (hN : 1 ≤ images.length)
    (htot : s.bytes.length < 4294967296) :
    readLE32At s.bytes (6 + 16 * 0 + 12) = some (6 + 16 * images.length) ∧
      ∀ i, i + 1 < images.length → ∃ off sz,
        readLE32At s.bytes (6 + 16 * i + 12) = some off ∧
        readLE32At s.bytes (6 + 16 * i + 8) = some sz ∧
        readLE32At s.bytes (6 + 16 * (i + 1) + 12) = some (off + sz) := by
  obtain ⟨hb, -, -⟩ := run_layout images sizes s hr hrun
  rw [hb] at htot ⊢
  rw [icoChunks_length] at htot
  constructor
  · rw [icoChunks_offset_field images 0 (by omega)]
    have e : framesLength (images.take 0) = 0 := by simp [framesLength]
    rw [e, Nat.add_zero, Nat.mod_eq_of_lt (by omega)]
  · intro i hi
    have hi0 : i < images.length := by omega
    have h1 := framesLength_take_succ images i hi0
    have h2 := framesLength_take_le images (i + 1)
    refine ⟨6 + 16 * images.length + framesLength (images.take i),
      (frame images[i]).length, ?_, ?_, ?_⟩
    · rw [icoChunks_offset_field images i hi0, Nat.mod_eq_of_lt (by omega)]
    · rw [icoChunks_size_field images i hi0, Nat.mod_eq_of_lt (by omega)]
    · rw [icoChunks_offset_field images (i + 1) hi, h1, Nat.mod_eq_of_lt (by omega)]
      exact congrArg some (Nat.add_assoc _ _ _).symm

theorem twoIcons_bytes_length :
    (writeICO maxAlloc okSink twoIcons [16, 32]).1.bytes.length = 5238 := by
  obtain ⟨hb, -, hp⟩ := run_layout twoIcons [16, 32] _ twoIcons_rasters twoIcons_run
  have e : twoIcons.take 2 = twoIcons := rfl
  have h2 := hp 2
  rw [e, show twoIcons = [redSquare 16, redSquare 32] from rfl, payloadLength_cons,
    payloadLength_cons, payloadLength_nil, twoIcons_bmpLength.1, twoIcons_bmpLength.2] at h2
  rw [hb, icoChunks_length, show twoIcons = [redSquare 16, redSquare 32] from rfl, ← h2]
  rfl

/-- Witness for C2: for rasters of 16 x 16 and of 32 x 32 pixels the stored offsets are 38
and 1102, and the stored size of the first payload is 1064. -/
theorem C2_offset_chain_witness :
    readLE32At (writeICO maxAlloc okSink twoIcons [16, 32]).1.bytes (6 + 16 * 0 + 12) = some 38 ∧
      ∃ off sz,
        readLE32At (writeICO maxAlloc okSink twoIcons [16, 32]).1.bytes (6 + 16 * 0 + 12) = some off ∧
        readLE32At (writeICO maxAlloc okSink twoIcons [16, 32]).1.bytes (6 + 16 * 0 + 8) = some sz ∧
        readLE32At (writeICO maxAlloc okSink twoIcons [16, 32]).1.bytes (6 + 16 * (0 + 1) + 12) =
          some (off + sz) := by
  have h := C2_offset_chain maxAlloc twoIcons [16, 32] _ twoIcons_rasters twoIcons_run (by decide)
    (by rw [twoIcons_bytes_length]; omega)
  exact ⟨h.1, h.2 0 (by decide)⟩

/-! ## The round trip through the directory (C1) -/

/-- C1. Round trip through the directory: when `writeICO` has written a non-empty list of
`N ≤ 255` rasters with bounds starting at `(0,0)` to a sink that does not fail, and the total
output length is below `2^32`, then for every `i < N`, with `offset_i` and `size_i` the
little-endian 32-bit values read from output bytes `6 + 16 i + 12 ..` and `6 + 16 i + 8 ..`,
the `size_i` output bytes starting at `offset_i` are exactly the frame that
`createBMPWithAlpha(images[i])` returns; in particular for `0 ≤ x < W_i` and `0 ≤ y < H_i` the
four output bytes at `offset_i + 40 + 4 (y W_i + x)` are the B, G, R, A channels of the pixel
`(x, y)` of raster `i`, each truncated to 8 bits. -/
theorem C1_round_trip (mem : Nat) (images : List Image) (sizes : List Int) (s : Sink)
    (_hne : images ≠ []) (_h255 : images.length ≤ 255)
    (hr : ∀ img ∈ images, IsRaster img)
    (horigin : ∀ img ∈ images, img.Bounds.Min = ⟨0, 0⟩)
    (hrun : writeICO mem okSink images sizes = (s, Outcome.nil))
    (htot : s.bytes.length < 4294967296) (i : Nat) (hi : i < images.length) :
    ∃ off sz d,
      readLE32At s.bytes (6 + 16 * i + 12) = some off ∧
      readLE32At s.bytes (6 + 16 * i + 8) = some sz ∧
      createBMPWithAlpha mem images[i] = some (d, none) ∧
      (s.bytes.drop off).take sz = d ∧
      ∀ x y : Nat, (x : Int) < images[i].Bounds.Dx → (y : Int) < images[i].Bounds.Dy →
        s.bytes[off + 40 + 4 * (y * images[i].Bounds.Dx.toNat + x) + 0]? =
            some ((images[i].At (images[i].Bounds.Min.X + x)
              (images[i].Bounds.Min.Y + y)).b / 256 % 256) ∧
          s.bytes[off + 40 + 4 * (y * images[i].Bounds.Dx.toNat + x) + 1]? =
            some ((images[i].At (images[i].Bounds.Min.X + x)
              (images[i].Bounds.Min.Y + y)).g / 256 % 256) ∧
          s.bytes[off + 40 + 4 * (y * images[i].Bounds.Dx.toNat + x) + 2]? =
            some ((images[i].At (images[i].Bounds.Min.X + x)
              (images[i].Bounds.Min.Y + y)).r / 256 % 256) ∧
          s.bytes[off + 40 + 4 * (y * images[i].Bounds.Dx.toNat + x) + 3]? =
            some ((images[i].At (images[i].Bounds.Min.X + x)
              (images[i].Bounds.Min.Y + y)).a / 256 % 256) := by
  obtain ⟨hb, hf, -⟩ := run_layout images sizes s hr hrun
  have hmem := List.getElem_mem hi
  have hfi := hf images[i] hmem
  have hri := hr images[i] hmem
  have hoi := horigin images[i] hmem
  rw [hb] at htot ⊢
  rw [icoChunks_length] at htot
  have h1 := framesLength_take_succ images i hi
  have h2 := framesLength_take_le images (i + 1)
  have hslice := icoChunks_frame images i hi
  refine ⟨6 + 16 * images.length + framesLength (images.take i), (frame images[i]).length,
    frame images[i], ?_, ?_, hfi, hslice, ?_⟩
  · rw [icoChunks_offset_field images i hi, Nat.mod_eq_of_lt (by omega)]
  · rw [icoChunks_size_field images i hi, Nat.mod_eq_of_lt (by omega)]
  · intro x y hx hy
    obtain ⟨w, hw⟩ := Int.eq_ofNat_of_zero_le hri.wellFormed.1
    obtain ⟨h, hh⟩ := Int.eq_ofNat_of_zero_le hri.wellFormed.2
    rw [hw] at hx
    rw [hh] at hy
    have hx2 : x < w := by omega
    have hy2 : y < h := by omega
    have hj := index_lt w h x y hx2 hy2
    have hlen : (frame images[i]).length = 40 + 4 * (h * w) := by
      rw [frame_length, hw, hh, Int.toNat_ofNat, Int.toNat_ofNat]
    have key : ∀ k, k < 4 →
        (icoChunks images).flatten[6 + 16 * images.length + framesLength (images.take i) + 40 +
          4 * (y * w + x) + k]? = some (bgra (images[i].At x y) k) := by
      intro k hk
      have e : 6 + 16 * images.length + framesLength (images.take i) + 40 +
          4 * (y * w + x) + k = 6 + 16 * images.length + framesLength (images.take i) +
          (40 + 4 * (y * w + x) + k) := by omega
      rw [e, getElem?_of_slice _ _ _ _ hslice (40 + 4 * (y * w + x) + k) (by omega)]
      exact frame_getElem images[i] w h hw hh x y k hx2 hy2 hk
    rw [hoi, hw, Int.toNat_ofNat]
    simp only [zero_add]
    exact ⟨key 0 (by omega), key 1 (by omega), key 2 (by omega), key 3 (by omega)⟩

theorem twoIcons_origin : ∀ img ∈ twoIcons, img.Bounds.Min = ⟨0, 0⟩ := by
  intro img hi
  simp only [twoIcons, List.mem_cons, List.mem_singleton, List.not_mem_nil, or_false] at hi
  rcases hi with e | e <;> rw [e] <;> rfl

/-- The directory of the file written for `twoIcons`: offsets 38 and 1102, sizes 1064 and
4136, width and height bytes 16 and 32. -/
theorem twoIcons_directory :
    readLE32At (writeICO maxAlloc okSink twoIcons [16, 32]).1.bytes (6 + 16 * 0 + 12) = some 38 ∧
      readLE32At (writeICO maxAlloc okSink twoIcons [16, 32]).1.bytes (6 + 16 * 1 + 12) = some 1102 ∧
      readLE32At (writeICO maxAlloc okSink twoIcons [16, 32]).1.bytes (6 + 16 * 0 + 8) = some 1064 ∧
      readLE32At (writeICO maxAlloc okSink twoIcons [16, 32]).1.bytes (6 + 16 * 1 + 8) = some 4136 ∧
      ((writeICO maxAlloc okSink twoIcons [16, 32]).1.bytes.drop (6 + 16 * 0)).take 2 = [16, 16] ∧
      ((writeICO maxAlloc okSink twoIcons [16, 32]).1.bytes.drop (6 + 16 * 1)).take 2 = [32, 32] := by
  obtain ⟨hb, hf, hp⟩ := run_layout twoIcons [16, 32] _ twoIcons_rasters twoIcons_run
  have l2 : twoIcons.length = 2 := rfl
  have e0 : twoIcons[0] = redSquare 16 := rfl
  have e1 : twoIcons[1] = redSquare 32 := rfl
  have t0 : twoIcons.take 0 = [] := rfl
  have p0 : framesLength (twoIcons.take 0) = 0 := by rw [t0]; simp [framesLength]
  have p1 : framesLength (twoIcons.take 1) = 1064 := by rw [← hp 1, twoIcons_payload]
  have f0 : (frame (redSquare 16)).length = 1064 := by
    rw [redSquare_frame_length 16 (by omega) (by omega)]; rfl
  have f1 : (frame (redSquare 32)).length = 4136 := by
    rw [redSquare_frame_length 32 (by omega) (by omega)]; rfl
  have s0 := slice_sub _ _ _ 16 (icoChunks_entry_fields twoIcons 0 (by decide)) 0 2 (by omega)
  have s1 := slice_sub _ _ _ 16 (icoChunks_entry_fields twoIcons 1 (by decide)) 0 2 (by omega)
  rw [e0, redSquare_Dx 16 (by omega) (by omega), redSquare_Dy 16 (by omega) (by omega)] at s0
  rw [e1, redSquare_Dx 32 (by omega) (by omega), redSquare_Dy 32 (by omega) (by omega)] at s1
  rw [hb]
  refine ⟨?_, ?_, ?_, ?_, ?_, ?_⟩
  · rw [icoChunks_offset_field twoIcons 0 (by decide), p0, l2]
  · rw [icoChunks_offset_field twoIcons 1 (by decide), p1, l2]
  · rw [icoChunks_size_field twoIcons 0 (by decide), e0, f0]
  · rw [icoChunks_size_field twoIcons 1 (by decide), e1, f1]
  · exact s0
  · exact s1

/-- Witness for C1: in the file written for rasters of 16 x 16 and of 32 x 32 opaque red
pixels, the frame of the second raster is the 4136 bytes at offset 1102, and the bytes of its
pixel `(31, 31)` are 0, 0, 255, 255. -/
theorem C1_round_trip_witness :
    ∃ d, createBMPWithAlpha maxAlloc (redSquare 32) = some (d, none) ∧
      ((writeICO maxAlloc okSink twoIcons [16, 32]).1.bytes.drop 1102).take 4136 = d ∧
      (writeICO maxAlloc okSink twoIcons [16, 32]).1.bytes[1102 + 40 + 4 * (31 * 32 + 31) + 0]? =
        some 0 ∧
      (writeICO maxAlloc okSink twoIcons [16, 32]).1.bytes[1102 + 40 + 4 * (31 * 32 + 31) + 1]? =
        some 0 ∧
      (writeICO maxAlloc okSink twoIcons [16, 32]).1.bytes[1102 + 40 + 4 * (31 * 32 + 31) + 2]? =
        some 255 ∧
      (writeICO maxAlloc okSink twoIcons [16, 32]).1.bytes[1102 + 40 + 4 * (31 * 32 + 31) + 3]? =
        some 255 := by
  obtain ⟨off, sz, d, ho, hs, hd, hsl, hpix⟩ :=
    C1_round_trip maxAlloc twoIcons [16, 32] _ (List.cons_ne_nil _ _) (by decide) twoIcons_rasters
      twoIcons_origin
      twoIcons_run (by rw [twoIcons_bytes_length]; omega) 1 (by decide)
  obtain ⟨-, d1, -, d3, -, -⟩ := twoIcons_directory
  have eo : off = 1102 := Option.some.inj (ho.symm.trans d1)
  have es : sz = 4136 := Option.some.inj (hs.symm.trans d3)
  subst eo
  subst es
  have e1 : twoIcons[1] = redSquare 32 := rfl
  rw [e1] at hd hpix
  have hp := hpix 31 31 (by rw [redSquare_Dx 32 (by omega) (by omega)]; omega)
    (by rw [redSquare_Dy 32 (by omega) (by omega)]; omega)
  rw [redSquare_Dx 32 (by omega) (by omega)] at hp
  exact ⟨d, hd, hsl, hp⟩

/-! ## The total length of the file (C9) -/

theorem frame_length_comm (img : Image) :
    (frame img).length = 40 + 4 * (img.Bounds.Dx.toNat * img.Bounds.Dy.toNat) := by
  rw [frame_length]; ring

/-- C9. Total file length: when `writeICO` has written a list of `N` rasters of dimensions
`W_i x H_i` to a sink that does not fail, the total number of bytes written is
`6 + 16 N` plus the sum over `i` of `40 + 4 W_i H_i`. -/
theorem C9_total_length (mem : Nat) (images : List Image) (sizes : List Int) (s : Sink)
    (hr : ∀ img ∈ images, IsRaster img)
    (hrun : writeICO mem okSink images sizes = (s, Outcome.nil)) :
    s.bytes.length = 6 + 16 * images.length +
      (images.map fun img => 40 + 4 * (img.Bounds.Dx.toNat * img.Bounds.Dy.toNat)).sum := by
  obtain ⟨hb, -, -⟩ := run_layout images sizes s hr hrun
  rw [hb, icoChunks_length]
  simp only [framesLength, frame_length_comm]

/-- Witness for C9: rasters of 16 x 16 and of 32 x 32 pixels give a file of
`6 + 32 + 1064 + 4136 = 5238` bytes, with directory width and height bytes 16 and 32 and
payload offsets 38 and 1102. -/
theorem C9_total_length_witness :
    (writeICO maxAlloc okSink twoIcons [16, 32]).1.bytes.length = 6 + 32 + 1064 + 4136 ∧
      (writeICO maxAlloc okSink twoIcons [16, 32]).1.bytes.length = 5238 ∧
      ((writeICO maxAlloc okSink twoIcons [16, 32]).1.bytes.drop (6 + 16 * 0)).take 2 = [16, 16] ∧
      ((writeICO maxAlloc okSink twoIcons [16, 32]).1.bytes.drop (6 + 16 * 1)).take 2 = [32, 32] ∧
      readLE32At (writeICO maxAlloc okSink twoIcons [16, 32]).1.bytes (6 + 16 * 0 + 12) = some 38 ∧
      readLE32At (writeICO maxAlloc okSink twoIcons [16, 32]).1.bytes (6 + 16 * 1 + 12) = some 1102 := by
  have h := C9_total_length maxAlloc twoIcons [16, 32] _ twoIcons_rasters twoIcons_run
  have e : twoIcons = [redSquare 16, redSquare 32] := rfl
  rw [e] at h
  simp only [List.map_cons, List.map_nil, List.sum_cons, List.sum_nil, List.length_cons,
    List.length_nil, redSquare_Dx 16 (by omega) (by omega),
    redSquare_Dy 16 (by omega) (by omega), redSquare_Dx 32 (by omega) (by omega),
    redSquare_Dy 32 (by omega) (by omega)] at h
  obtain ⟨d0, d1, -, -, d4, d5⟩ := twoIcons_directory
  rw [← e] at h
  exact ⟨h, h, d4, d5, d0, d1⟩

/-! ## Dimensions of 256 and more (C5) -/

theorem wideImage_Dx : wideImage.Bounds.Dx = 4294967296 :=
  mkImage_Dx _ _ _ (by omega) (by omega)

theorem wideImage_Dy : wideImage.Bounds.Dy = 1 :=
  mkImage_Dy _ _ _ (by omega) (by omega)

theorem toUint32_two_pow : toUint32 4294967296 = 0 := by
  unfold toUint32; omega

/-- C5, counterexample: the raster `wideImage` is `2^32` pixels wide and one pixel high; its
frame is returned on every machine that serves its `40 + 2^34` bytes, and the 4-byte width
field of the frame holds 0, not the width. -/
theorem C5_counterexample :
    IsRaster wideImage ∧ wideImage.Bounds.Dx = 4294967296 ∧
      (∀ mem, 17179869224 ≤ mem →
        createBMPWithAlpha mem wideImage = some (frame wideImage, none)) ∧
      ((frame wideImage).drop 4).take 4 = [0, 0, 0, 0] ∧
      readLE32At (frame wideImage) 4 = some 0 := by
  have hr : IsRaster wideImage := by
    unfold IsRaster; rw [wideImage_Dx, wideImage_Dy]; omega
  have hfit : ∀ mem, 17179869224 ≤ mem → Fits mem wideImage := by
    intro mem hmem
    unfold Fits maxAlloc; rw [wideImage_Dx, wideImage_Dy]
    exact ⟨hmem, by decide⟩
  have hw : ((frame wideImage).drop 4).take 4 = le32 0 := by
    rw [frame_width_field, wideImage_Dx, toUint32_two_pow]
  exact ⟨hr, wideImage_Dx, fun mem hmem =>
    createBMPWithAlpha_eq _ hr.wellFormed.1 hr.wellFormed.2 (hfit mem hmem), hw,
    readLE32At_of_slice _ 4 0 hw⟩

/-- C5, amended. Large dimensions: when `writeICO` has written a list of rasters to a sink
that does not fail, for every raster whose width (respectively height) is at least 256 the
width byte (respectively height byte) of its directory entry is 0, while the 4-byte
little-endian width field of the frame that `createBMPWithAlpha` returns holds the width
modulo `2^32`: the full width for every width below `2^32`. -/
theorem C5_large_dimensions (mem : Nat) (images : List Image) (sizes : List Int) (s : Sink)
    (hr : ∀ img ∈ images, IsRaster img)
    (hrun : writeICO mem okSink images sizes = (s, Outcome.nil)) (i : Nat)
    (hi : i < images.length) :
    (256 ≤ images[i].Bounds.Dx → s.bytes[6 + 16 * i]? = some 0) ∧
      (256 ≤ images[i].Bounds.Dy → s.bytes[6 + 16 * i + 1]? = some 0) ∧
      ∃ d, createBMPWithAlpha mem images[i] = some (d, none) ∧
        (d.drop 4).take 4 = le32 images[i].Bounds.Dx.toNat ∧
        readLE32At d 4 = some (images[i].Bounds.Dx.toNat % 4294967296) ∧
        (images[i].Bounds.Dx < 4294967296 →
          readLE32At d 4 = some images[i].Bounds.Dx.toNat) := by
  obtain ⟨hb, hf, -⟩ := run_layout images sizes s hr hrun
  have hmem := List.getElem_mem hi
  have hfi := hf images[i] hmem
  have hri := hr images[i] hmem
  have hent := icoChunks_entry_fields images i hi
  have h0 := getElem?_of_slice _ _ _ 16 hent 0 (by omega)
  have h1 := getElem?_of_slice _ _ _ 16 hent 1 (by omega)
  obtain ⟨w, hw⟩ := Int.eq_ofNat_of_zero_le hri.wellFormed.1
  have hfield : ((frame images[i]).drop 4).take 4 = le32 images[i].Bounds.Dx.toNat := by
    rw [frame_width_field, hw, toUint32_natCast, le32_mod, Int.toNat_ofNat]
  refine ⟨?_, ?_, frame images[i], hfi, hfield, readLE32At_of_slice _ 4 _ hfield, ?_⟩
  · intro hbig
    rw [hb, ← Nat.add_zero (6 + 16 * i), h0]
    simp [hbig]
  · intro hbig
    rw [hb, h1]
    simp [hbig]
  · intro hsmall
    rw [readLE32At_of_slice _ 4 _ hfield, Nat.mod_eq_of_lt (by omega)]

theorem single_run (n : Int) (h0 : 0 < n) (hn : n < 65536) (size : Int) :
    writeICO maxAlloc okSink [redSquare n] [size] =
      ((writeICO maxAlloc okSink [redSquare n] [size]).1, Outcome.nil) := by
  rw [writeICO_returns okSink [redSquare n] [size] okSink_neverFails
    (fun img hi => by
      rw [List.mem_singleton.mp hi]; exact (redSquare_isRaster n h0 hn).wellFormed)
    (fun img hi => by rw [List.mem_singleton.mp hi]; exact redSquare_fits n h0 hn)
    (Nat.le_refl _)]

/-- Witness for C5: a 256 x 256 raster gives directory width and height bytes 0 and 0, and
the bytes 4..7 of its frame are `00 01 00 00`. -/
theorem C5_large_dimensions_witness :
    (writeICO maxAlloc okSink [redSquare 256] [256]).1.bytes[6 + 16 * 0]? = some 0 ∧
      (writeICO maxAlloc okSink [redSquare 256] [256]).1.bytes[6 + 16 * 0 + 1]? = some 0 ∧
      ∃ d, createBMPWithAlpha maxAlloc (redSquare 256) = some (d, none) ∧
        (d.drop 4).take 4 = [0, 1, 0, 0] ∧ readLE32At d 4 = some 256 := by
  have hx := redSquare_Dx 256 (by omega) (by omega)
  have hy := redSquare_Dy 256 (by omega) (by omega)
  have h := C5_large_dimensions maxAlloc [redSquare 256] [256] _
    (fun img hi => by
      rw [List.mem_singleton.mp hi]; exact redSquare_isRaster 256 (by omega) (by omega))
    (single_run 256 (by omega) (by omega) 256) 0 (by decide)
  have e0 : [redSquare 256][0] = redSquare 256 := rfl
  rw [e0, hx, hy] at h
  obtain ⟨a, b, d, hd, hfield, -, hread⟩ := h
  exact ⟨a (by omega), b (by omega), d, hd, hfield, hread (by omega)⟩

/-! ## The header bytes on a sink that never fails (C11, C12) -/

theorem writeICO_okSink_ends {mem : Nat} (images : List Image) (sizes : List Int) :
    (writeICO mem okSink images sizes).1.NeverFails ∧ (writeICO mem okSink images sizes).1.Clean ∧
      ∃ ds, (writeICO mem okSink images sizes).1.received = icoHeader images.length :: ds := by
  obtain ⟨a1, ⟨ds, a2⟩, a3⟩ := writeICO_ends okSink images sizes (Sink.fresh_clean _ _)
  have hnf : (writeICO mem okSink images sizes).1.NeverFails := by
    intro k; rw [a1]; rfl
  have hcl := a3.clean hnf
  refine ⟨hnf, hcl, ds, ?_⟩
  rw [hcl.1, a2]
  rfl

theorem writeICO_okSink_no_error {mem : Nat} (images : List Image) (sizes : List Int) (e : IOError) :
    (writeICO mem okSink images sizes).2 ≠ Outcome.error e := by
  obtain ⟨a1, -, a3⟩ := writeICO_ends okSink images sizes (Sink.fresh_clean _ _)
  intro h
  rw [h] at a3
  obtain ⟨k, hk, -⟩ := a3
  rw [a1] at hk
  cases hk

theorem writeICO_header_bytes {mem : Nat} (images : List Image) (sizes : List Int) :
    (writeICO mem okSink images sizes).1.bytes.take 6 = icoHeader images.length := by
  obtain ⟨-, -, ds, h⟩ := writeICO_okSink_ends images sizes
  unfold Sink.bytes
  rw [h]
  rfl

theorem writeICO_header_byte {mem : Nat} (images : List Image) (sizes : List Int) (k : Nat) (hk : k < 6) :
    (writeICO mem okSink images sizes).1.bytes[k]? = (icoHeader images.length)[k]? := by
  have h := getElem?_of_slice (writeICO mem okSink images sizes).1.bytes _ 0 6
    (writeICO_header_bytes images sizes) k hk
  rw [Nat.zero_add] at h
  exact h

/-- C12, counterexample: for a single raster the sixth byte of the output is 0, not the entry
count 1 (the count is the fifth byte), on every machine. -/
theorem C12_counterexample :
    [redSquare 1].length = 1 ∧
      ∀ mem, (writeICO mem okSink [redSquare 1] [16]).1.bytes[5]? = some 0 ∧
        (writeICO mem okSink [redSquare 1] [16]).1.bytes[4]? = some 1 := by
  refine ⟨rfl, fun mem => ⟨?_, ?_⟩⟩
  · rw [writeICO_header_byte _ _ 5 (by omega)]
    rfl
  · rw [writeICO_header_byte _ _ 4 (by omega)]
    rfl

/-- C12, amended. For every list of rasters with 1 to 255 entries, the output of `writeICO`
on a sink that does not fail has first three bytes `0x00 0x00 0x01`, fourth byte `0x00`, a
fifth byte equal to the entry count and a sixth byte `0x00`. -/
theorem C12_header_bytes (mem : Nat) (images : List Image) (sizes : List Int)
    (_h1 : 1 ≤ images.length) (h255 : images.length ≤ 255) :
    (writeICO mem okSink images sizes).1.bytes[0]? = some 0 ∧
      (writeICO mem okSink images sizes).1.bytes[1]? = some 0 ∧
      (writeICO mem okSink images sizes).1.bytes[2]? = some 1 ∧
      (writeICO mem okSink images sizes).1.bytes[3]? = some 0 ∧
      (writeICO mem okSink images sizes).1.bytes[4]? = some images.length ∧
      (writeICO mem okSink images sizes).1.bytes[5]? = some 0 := by
  have hb : icoHeader images.length = [0, 0, 1, 0, images.length, 0] := by
    unfold icoHeader; rw [toByte_small _ h255]
  rw [writeICO_header_byte _ _ 0 (by omega), writeICO_header_byte _ _ 1 (by omega),
    writeICO_header_byte _ _ 2 (by omega), writeICO_header_byte _ _ 3 (by omega),
    writeICO_header_byte _ _ 4 (by omega), writeICO_header_byte _ _ 5 (by omega), hb]
  exact ⟨rfl, rfl, rfl, rfl, rfl, rfl⟩

/-- Witness for C12: the six header bytes written for two rasters. -/
theorem C12_header_bytes_witness :
    (writeICO maxAlloc okSink twoIcons [16, 32]).1.bytes[0]? = some 0 ∧
      (writeICO maxAlloc okSink twoIcons [16, 32]).1.bytes[1]? = some 0 ∧
      (writeICO maxAlloc okSink twoIcons [16, 32]).1.bytes[2]? = some 1 ∧
      (writeICO maxAlloc okSink twoIcons [16, 32]).1.bytes[3]? = some 0 ∧
      (writeICO maxAlloc okSink twoIcons [16, 32]).1.bytes[4]? = some 2 ∧
      (writeICO maxAlloc okSink twoIcons [16, 32]).1.bytes[5]? = some 0 :=
  C12_header_bytes maxAlloc twoIcons [16, 32] (by decide) (by decide)

theorem toByte_natCast (n : Nat) : toByte (n : Int) = n % 256 := by
  unfold toByte; omega

theorem okSink_append_received (cs : List (List Nat)) : (okSink.append cs).received = cs := by
  simp [okSink, Sink.fresh, Sink.append]

theorem okSink_append_issued (cs : List (List Nat)) : (okSink.append cs).issued = cs := by
  simp [okSink, Sink.fresh, Sink.append]

theorem frames_getElem (images : List Image) (i : Nat) (hi : i < images.length) :
    (images.map frame)[i]? = some (frame images[i]) := by
  rw [List.getElem?_map, List.getElem?_eq_getElem hi]
  rfl

/-- C11. Count wrap: for a list of `N ≥ 256` rasters `writeICO` does not reject the input: on
a sink that does not fail it returns no error; the count byte of the header (index 4) is
`N mod 256`, which is not `N`, and the byte at index 5 is 0; the call returns `nil` when every
frame can be allocated and there is one size per raster; and whenever it returns `nil`, the
header has been followed by `N` directory entries of 16 bytes and by the `N` frames, the
offset field of the first entry holding `6 + 16 N` (its four low-order bytes). -/
theorem C11_count_wrap (mem : Nat) (images : List Image) (sizes : List Int)
    (h256 : 256 ≤ images.length) (hr : ∀ img ∈ images, IsRaster img) :
    (∀ e, (writeICO mem okSink images sizes).2 ≠ Outcome.error e) ∧
      (writeICO mem okSink images sizes).1.bytes[4]? = some (images.length % 256) ∧
      (writeICO mem okSink images sizes).1.bytes[5]? = some 0 ∧
      images.length % 256 ≠ images.length ∧
      ((∀ img ∈ images, Fits mem img) → images.length ≤ sizes.length →
        (writeICO mem okSink images sizes).2 = Outcome.nil) ∧
      ∀ s, writeICO mem okSink images sizes = (s, Outcome.nil) →
        ∃ entries payloads,
          s.received = [0, 0, 1, 0, images.length % 256, 0] :: (entries ++ payloads) ∧
          entries.length = images.length ∧ payloads.length = images.length ∧
          (∀ l ∈ entries, l.length = 16) ∧
          (∀ i, (hi : i < images.length) →
            ∃ d, createBMPWithAlpha mem images[i] = some (d, none) ∧ payloads[i]? = some d) ∧
          (s.bytes.drop (6 + 16 * 0 + 12)).take 4 = le32 (6 + 16 * images.length) := by
  have hb : icoHeader images.length = [0, 0, 1, 0, images.length % 256, 0] := by
    unfold icoHeader; rw [toByte_natCast]
  refine ⟨writeICO_okSink_no_error images sizes, ?_, ?_, by omega, ?_, ?_⟩
  · rw [writeICO_header_byte _ _ 4 (by omega), hb]; rfl
  · rw [writeICO_header_byte _ _ 5 (by omega), hb]; rfl
  · intro hfit hs
    rw [writeICO_returns okSink images sizes okSink_neverFails
      (fun img hi => (hr img hi).wellFormed) hfit hs]
  · intro s hrun
    obtain ⟨h1, h2⟩ := writeICO_complete okSink s images sizes okSink_neverFails
      (fun img hi => (hr img hi).wellFormed) hrun
    refine ⟨dirEntries (wrapInt (6 + wrapInt ((images.length : Int) * 16))) images,
      images.map frame, ?_, dirEntries_length _ _, List.length_map _ _,
      dirEntries_uniform _ _, ?_, ?_⟩
    · rw [h1, okSink_append_received, ← hb]
      rfl
    · intro i hi
      exact ⟨frame images[i], (h2 images[i] (List.getElem_mem hi)).2, frames_getElem images i hi⟩
    · have hent := icoChunks_entry_fields images 0 (by omega)
      have hsl := slice_sub _ _ _ 16 hent 12 4 (by omega)
      have e0 : framesLength (images.take 0) = 0 := by simp [framesLength]
      rw [h1, okSink_append_bytes, hsl, e0, Nat.add_zero, ← le32_mod (6 + 16 * images.length)]
      rfl

theorem manyIcons_length : manyIcons.length = 256 := List.length_replicate _ _

theorem manyIcons_mem (img : Image) (h : img ∈ manyIcons) : img = redSquare 1 :=
  List.eq_of_mem_replicate h

/-- Witness for C11: for 256 rasters and 256 sizes the call returns `nil`, and the count byte
of the header is 0. -/
theorem C11_count_wrap_witness :
    manyIcons.length = 256 ∧
      (writeICO maxAlloc okSink manyIcons (List.replicate 256 16)).2 = Outcome.nil ∧
      (writeICO maxAlloc okSink manyIcons (List.replicate 256 16)).1.bytes[4]? = some 0 ∧
      (writeICO maxAlloc okSink manyIcons (List.replicate 256 16)).1.bytes[5]? = some 0 := by
  have h := C11_count_wrap maxAlloc manyIcons (List.replicate 256 16)
    (by rw [manyIcons_length])
    (fun img hi => by
      rw [manyIcons_mem img hi]; exact redSquare_isRaster 1 (by omega) (by omega))
  obtain ⟨-, h4, h5, -, hnil, -⟩ := h
  rw [manyIcons_length] at h4
  refine ⟨manyIcons_length, hnil ?_ ?_, h4, h5⟩
  · intro img hi
    rw [manyIcons_mem img hi]
    exact redSquare_fits 1 (by omega) (by omega)
  · rw [manyIcons_length, List.length_replicate]

/-! ## Write order and counts (C14) -/

theorem getElem?_cons_one_add {α : Type} (a : α) (l : List α) (i : Nat) :
    (a :: l)[1 + i]? = l[i]? := by
  rw [Nat.add_comm, List.getElem?_cons_succ]

/-- C14. Write order and counts: when `writeICO` has written a list of `N` rasters to a sink
that does not fail, it has issued exactly `1 + 2 N` writes, all delivered: first the 6-byte
header, then for `i = 0 .. N-1` the 16-byte directory entry of raster `i`, then for
`i = 0 .. N-1` the frame of raster `i`; hence every directory entry is written before any
payload, there are as many entries as payloads, and both are in input order. -/
theorem C14_write_order (mem : Nat) (images : List Image) (sizes : List Int) (s : Sink)
    (hr : ∀ img ∈ images, IsRaster img)
    (hrun : writeICO mem okSink images sizes = (s, Outcome.nil)) :
    s.issued.length = 1 + 2 * images.length ∧ s.received = s.issued ∧
      s.issued[0]? = some [0, 0, 1, 0, toByte images.length, 0] ∧
      (∀ i, (hi : i < images.length) → ∃ off,
        s.issued[1 + i]? = some (entry images[i].Bounds.Dx images[i].Bounds.Dy
          (bmpLength mem images[i]) off) ∧
        (entry images[i].Bounds.Dx images[i].Bounds.Dy (bmpLength mem images[i]) off).length
          = 16) ∧
      (∀ i, (hi : i < images.length) → ∃ d,
        createBMPWithAlpha mem images[i] = some (d, none) ∧
        s.issued[1 + images.length + i]? = some d) := by
  obtain ⟨h1, h2⟩ := writeICO_complete okSink s images sizes okSink_neverFails
    (fun img hi => (hr img hi).wellFormed) hrun
  have hiss : s.issued = icoChunks images := by rw [h1, okSink_append_issued]
  have hrec : s.received = icoChunks images := by rw [h1, okSink_append_received]
  have hE := dirEntries_length (wrapInt (6 + wrapInt ((images.length : Int) * 16))) images
  rw [hrec, hiss]
  unfold icoChunks
  refine ⟨?_, rfl, ?_, ?_, ?_⟩
  · rw [List.length_cons, List.length_append, hE, List.length_map]
    omega
  · rw [List.getElem?_cons_zero]
    rfl
  · intro i hi
    refine ⟨runOffset (wrapInt (6 + wrapInt ((images.length : Int) * 16))) images i, ?_, rfl⟩
    rw [getElem?_cons_one_add, List.getElem?_append_left (by rw [hE]; exact hi),
      dirEntries_getElem _ images i hi,
      bmpLength_frame _ (h2 images[i] (List.getElem_mem hi)).2]
  · intro i hi
    refine ⟨frame images[i], (h2 images[i] (List.getElem_mem hi)).2, ?_⟩
    rw [Nat.add_assoc, getElem?_cons_one_add,
      List.getElem?_append_right (by rw [hE]; omega), hE, Nat.add_sub_cancel_left,
      frames_getElem images i hi]

/-- Witness for C14: for rasters of 16 x 16 and of 32 x 32 pixels five writes are issued:
the header, two entries, two frames. -/
theorem C14_write_order_witness :
    (writeICO maxAlloc okSink twoIcons [16, 32]).1.issued.length = 1 + 2 * 2 ∧
      (writeICO maxAlloc okSink twoIcons [16, 32]).1.issued[0]? = some [0, 0, 1, 0, 2, 0] ∧
      ∃ d, createBMPWithAlpha maxAlloc (redSquare 32) = some (d, none) ∧
        (writeICO maxAlloc okSink twoIcons [16, 32]).1.issued[1 + 2 + 1]? = some d := by
  obtain ⟨h1, -, h3, -, h5⟩ :=
    C14_write_order maxAlloc twoIcons [16, 32] _ twoIcons_rasters twoIcons_run
  exact ⟨h1, h3, h5 1 (by decide)⟩

/-! ## The `sizes` argument (C16, C17) -/

theorem secondPass_sizes (bmps : List (List Nat)) (i : Nat) (sizes1 sizes2 : List Int)
    (w : Sink) (h1 : i + bmps.length ≤ sizes1.length) (h2 : i + bmps.length ≤ sizes2.length) :
    secondPass bmps i sizes1 w = secondPass bmps i sizes2 w := by
  induction bmps generalizing i w with
  | nil =>
    unfold secondPass
    rfl
  | cons b rest ih =>
    have hl : (b :: rest).length = rest.length + 1 := List.length_cons _ _
    rw [hl] at h1 h2
    have hi1 : i < sizes1.length := by omega
    have hi2 : i < sizes2.length := by omega
    unfold secondPass
    rw [List.getElem?_eq_getElem hi1, List.getElem?_eq_getElem hi2]
    simp only []
    generalize w.Write b = r
    obtain ⟨w2, err⟩ := r
    cases err with
    | some e => rfl
    | none =>
      simp only []
      exact ih (i + 1) w2 (by omega) (by omega)

/-- With one size per image, the run of `writeICO` does not depend on `sizes`. -/
theorem writeICO_sizes {mem : Nat} (w : Sink) (images : List Image) (sizes1 sizes2 : List Int)
    (h1 : images.length ≤ sizes1.length) (h2 : images.length ≤ sizes2.length) :
    writeICO mem w images sizes1 = writeICO mem w images sizes2 := by
  unfold writeICO
  simp only []
  generalize w.Write [0, 0, 1, 0, toByte images.length, 0] = r
  obtain ⟨w2, err⟩ := r
  cases err with
  | some e => rfl
  | none =>
    simp only []
    cases hfp : firstPass mem images w2 (wrapInt (6 + wrapInt (images.length * 16))) [] with
    | mk w3 res =>
      cases res with
      | inl o => rfl
      | inr l =>
        simp only []
        obtain ⟨-, hlen⟩ := firstPass_inr _ _ _ _ _ _ hfp
        rw [List.length_nil, Nat.zero_add] at hlen
        exact secondPass_sizes l 0 sizes1 sizes2 w3 (by omega) (by omega)

/-- C16. The bytes `writeICO` writes do not depend on the values in `sizes`: for every list
of `N` images, any two lists `sizes1`, `sizes2` of length at least `N` and any sink, the two
calls issue the same writes, leave the same bytes and end the same way; and in a completed
file the width and height bytes of directory entry `i` are those of the bounds of raster `i`
(the dimension if below 256, else 0), whatever the requested sizes. -/
theorem C16_sizes_independent (mem : Nat) (images : List Image) (sizes1 sizes2 : List Int)
    (h1 : images.length ≤ sizes1.length) (h2 : images.length ≤ sizes2.length) :
    (∀ w, writeICO mem w images sizes1 = writeICO mem w images sizes2) ∧
      (writeICO mem okSink images sizes1).1.bytes = (writeICO mem okSink images sizes2).1.bytes ∧
      ∀ s, writeICO mem okSink images sizes1 = (s, Outcome.nil) →
        (∀ img ∈ images, IsRaster img) →
        ∀ i, (hi : i < images.length) →
          s.bytes[6 + 16 * i]? = some (dimByte images[i].Bounds.Dx) ∧
          s.bytes[6 + 16 * i + 1]? = some (dimByte images[i].Bounds.Dy) := by
  refine ⟨fun w => writeICO_sizes w images sizes1 sizes2 h1 h2, ?_, ?_⟩
  · rw [writeICO_sizes okSink images sizes1 sizes2 h1 h2]
  · intro s hrun hr i hi
    obtain ⟨hb, -, -⟩ := run_layout images sizes1 s hr hrun
    have hri := hr images[i] (List.getElem_mem hi)
    have hent := icoChunks_entry_fields images i hi
    have g0 := getElem?_of_slice _ _ _ 16 hent 0 (by omega)
    have g1 := getElem?_of_slice _ _ _ 16 hent 1 (by omega)
    rw [entryDim_eq _ hri.wellFormed.1, entryDim_eq _ hri.wellFormed.2] at g0 g1
    rw [hb, ← Nat.add_zero (6 + 16 * i), g0, g1]
    exact ⟨rfl, rfl⟩

/-- Witness for C16: the same two rasters written with sizes `[16, 32]` and with sizes
`[1, 2, 3]`. -/
theorem C16_sizes_independent_witness :
    (writeICO maxAlloc okSink twoIcons [16, 32]).1.bytes = (writeICO maxAlloc okSink twoIcons [1, 2, 3]).1.bytes :=
  (C16_sizes_independent maxAlloc twoIcons [16, 32] [1, 2, 3] (by decide) (by decide)).2.1

theorem Sink.append_nil (w : Sink) : w.append [] = w := by
  cases w
  simp [Sink.append]

theorem secondPass_short (bmps : List (List Nat)) (i : Nat) (sizes : List Int) (w : Sink)
    (hw : w.NeverFails) (hi : i ≤ sizes.length) (hs : sizes.length < i + bmps.length) :
    secondPass bmps i sizes w =
      (w.append (bmps.take (sizes.length - i)), Outcome.panic) := by
  induction bmps generalizing i w with
  | nil =>
    rw [List.length_nil] at hs
    omega
  | cons b rest ih =>
    rw [List.length_cons] at hs
    unfold secondPass
    by_cases hlt : i < sizes.length
    · rw [List.getElem?_eq_getElem hlt]
      simp only []
      rw [Sink.Write_ok w b hw]
      simp only []
      rw [ih (i + 1) (w.append [b]) (Sink.append_neverFails w _ hw) (by omega) (by omega),
        Sink.append_append]
      have e : sizes.length - i = (sizes.length - (i + 1)) + 1 := by omega
      rw [e, List.take_succ_cons]
      rfl
    · have e : sizes.length - i = 0 := by omega
      rw [List.getElem?_eq_none (by omega), e, List.take_zero, Sink.append_nil]

/-- With fewer sizes than images, on a sink that never fails and with frames that are all
produced, `writeICO` panics after the header, all the entries and the first `len(sizes)`
frames. -/
theorem writeICO_short {mem : Nat} (w : Sink) (images : List Image) (sizes : List Int) (hw : w.NeverFails)
    (hf : ∀ img ∈ images, createBMPWithAlpha mem img = some (frame img, none))
    (hs : sizes.length < images.length) :
    writeICO mem w images sizes =
      (w.append (icoHeader images.length ::
        (dirEntries (wrapInt (6 + wrapInt ((images.length : Int) * 16))) images ++
          (images.map frame).take sizes.length)), Outcome.panic) := by
  unfold writeICO
  simp only [Sink.Write_ok _ _ hw]
  rw [firstPass_ok images _ _ _ (Sink.append_neverFails _ _ hw) hf]
  simp only [List.nil_append]
  rw [secondPass_short _ 0 sizes _
    (Sink.append_neverFails _ _ (Sink.append_neverFails _ _ hw)) (Nat.zero_le _)
    (by rw [List.length_map]; omega)]
  simp [Sink.append_append, icoHeader]

/-- C17. Indexing of `sizes`: on a sink that does not fail and for rasters whose frames are
all produced, a call with `len(sizes) ≥ len(images)` finds every `sizes[i]` of the second pass
in range and returns `nil`; a call with `len(sizes) < len(images)` panics at payload index
`len(sizes)` (where `sizes[len(sizes)]` is out of range), after the header, all `len(images)`
directory entries and the first `len(sizes)` payloads have been written to the sink, and
nothing else. -/
theorem C17_sizes_index (mem : Nat) (images : List Image) (sizes : List Int)
    (hr : ∀ img ∈ images, IsRaster img)
    (hpack : ∀ img ∈ images, ∃ d, createBMPWithAlpha mem img = some (d, none)) :
    (images.length ≤ sizes.length →
        (writeICO mem okSink images sizes).2 = Outcome.nil ∧
        ∀ i, i < images.length → ∃ v, sizes[i]? = some v) ∧
      (sizes.length < images.length →
        (writeICO mem okSink images sizes).2 = Outcome.panic ∧
        sizes[sizes.length]? = none ∧
        (writeICO mem okSink images sizes).1.issued = (writeICO mem okSink images sizes).1.received ∧
        ∃ entries payloads,
          (writeICO mem okSink images sizes).1.received =
            [0, 0, 1, 0, toByte images.length, 0] :: (entries ++ payloads) ∧
          entries.length = images.length ∧ (∀ l ∈ entries, l.length = 16) ∧
          payloads.length = sizes.length ∧
          ∀ i, (hi : i < images.length) → i < sizes.length →
            ∃ d, createBMPWithAlpha mem images[i] = some (d, none) ∧ payloads[i]? = some d) := by
  have hf : ∀ img ∈ images, createBMPWithAlpha mem img = some (frame img, none) := by
    intro img hi
    obtain ⟨d, hd⟩ := hpack img hi
    obtain ⟨-, hdf, -⟩ := createBMPWithAlpha_frame img (hr img hi).wellFormed d none hd
    rw [← hdf]; exact hd
  constructor
  · intro hs
    rw [writeICO_ok okSink images sizes okSink_neverFails hf hs]
    refine ⟨rfl, ?_⟩
    intro i hi
    exact ⟨sizes[i], List.getElem?_eq_getElem (by omega)⟩
  · intro hs
    rw [writeICO_short okSink images sizes okSink_neverFails hf hs]
    refine ⟨rfl, List.getElem?_eq_none (Nat.le_refl _), ?_, ?_⟩
    · rw [okSink_append_issued, okSink_append_received]
    · refine ⟨dirEntries (wrapInt (6 + wrapInt ((images.length : Int) * 16))) images,
        (images.map frame).take sizes.length, ?_, dirEntries_length _ _,
        dirEntries_uniform _ _, ?_, ?_⟩
      · rw [okSink_append_received]; rfl
      · rw [List.length_take, List.length_map]; omega
      · intro i hi hlt
        refine ⟨frame images[i], hf images[i] (List.getElem_mem hi), ?_⟩
        rw [List.getElem?_take_of_lt hlt, frames_getElem images i hi]

/-- Witness for C17: two rasters with a single size: the call panics after the header, both
directory entries and the first frame. -/
theorem C17_sizes_index_witness :
    (writeICO maxAlloc okSink twoIcons [16]).2 = Outcome.panic ∧
      ∃ entries payloads,
        (writeICO maxAlloc okSink twoIcons [16]).1.received =
          [0, 0, 1, 0, toByte twoIcons.length, 0] :: (entries ++ payloads) ∧
        entries.length = 2 ∧ payloads.length = 1 := by
  have h := (C17_sizes_index maxAlloc twoIcons [16] twoIcons_rasters
    (fun img hi => ⟨frame img, createBMPWithAlpha_eq img
      (twoIcons_rasters img hi).wellFormed.1 (twoIcons_rasters img hi).wellFormed.2
      (twoIcons_fit img hi)⟩)).2 (by decide)
  obtain ⟨h1, -, -, entries, payloads, h4, h5, -, h7, -⟩ := h
  exact ⟨h1, entries, payloads, h4, h5, h7⟩

/-! ## Determinism (C13) -/

theorem foldlM_range_congr {σ : Type} (f g : σ → Nat → Option σ) (n : Nat)
    (h : ∀ i, i < n → ∀ s, f s i = g s i) (p : σ) :
    (List.range n).foldlM f p = (List.range n).foldlM g p := by
  induction n with
  | zero => rfl
  | succ n ih =>
    rw [List.range_succ, List.foldlM_append, List.foldlM_append,
      ih (fun i hi s => h i (by omega) s)]
    cases (List.range n).foldlM g p with
    | none => rfl
    | some q =>
      show List.foldlM f q [n] = List.foldlM g q [n]
      rw [List.foldlM_cons, List.foldlM_cons, h n (Nat.lt_succ_self n) q]
      cases g q n with
      | none => rfl
      | some r => rfl

theorem pixelBody_congr (a b : Image) (width y x : Int) (p : List Nat)
    (h : a.At x y = b.At x y) : pixelBody a width y x p = pixelBody b width y x p := by
  unfold pixelBody
  rw [h]

theorem pixelLoop_congr (a b : Image) (h : SameRaster a b) (p : List Nat) :
    pixelLoop a a.Bounds.Dx a.Bounds.Dy p = pixelLoop b a.Bounds.Dx a.Bounds.Dy p := by
  unfold pixelLoop
  apply foldlM_range_congr
  intro y hy s
  unfold rowLoop
  apply foldlM_range_congr
  intro x hx t
  exact pixelBody_congr a b _ _ _ t (h.2.2 x y (by omega) (by omega))

/-- The frame packer reads an image only through its dimensions and its pixel values at
`0 ≤ x < W`, `0 ≤ y < H`. -/
theorem createBMPWithAlpha_congr {mem : Nat} (a b : Image) (h : SameRaster a b) :
    createBMPWithAlpha mem a = createBMPWithAlpha mem b := by
  unfold createBMPWithAlpha
  simp only []
  rw [← h.1, ← h.2.1]
  cases makeBytes mem (wrapInt (wrapInt (a.Bounds.Dx * a.Bounds.Dy) * 4)) with
  | none => rfl
  | some p =>
    rw [Option.some_bind, Option.some_bind, pixelLoop_congr a b h p]

theorem firstPass_congr {mem : Nat} (images1 images2 : List Image)
    (h : List.Forall₂ SameRaster images1 images2) (w : Sink) (offset : Int)
    (acc : List (List Nat)) :
    firstPass mem images1 w offset acc = firstPass mem images2 w offset acc := by
  induction h generalizing w offset acc with
  | nil => rfl
  | @cons a b l1 l2 hab _ ih =>
    unfold firstPass
    simp only []
    rw [← createBMPWithAlpha_congr a b hab, ← hab.1, ← hab.2.1]
    cases createBMPWithAlpha mem a with
    | none => rfl
    | some v =>
      obtain ⟨d, err⟩ := v
      cases err with
      | some e => rfl
      | none =>
        simp only []
        generalize w.Write (entry a.Bounds.Dx a.Bounds.Dy (d.length : Int) offset) = r
        obtain ⟨w2, err2⟩ := r
        cases err2 with
        | some e => rfl
        | none =>
          simp only []
          exact ih w2 _ _

theorem writeICO_congr {mem : Nat} (images1 images2 : List Image)
    (h : List.Forall₂ SameRaster images1 images2) (w : Sink) (sizes : List Int) :
    writeICO mem w images1 sizes = writeICO mem w images2 sizes := by
  unfold writeICO
  simp only []
  rw [← h.length_eq]
  simp only [firstPass_congr images1 images2 h]

theorem sameRaster_refl (a : Image) : SameRaster a a := ⟨rfl, rfl, fun _ _ _ _ => rfl⟩

theorem forall₂_sameRaster_refl (images : List Image) :
    List.Forall₂ SameRaster images images := by
  induction images with
  | nil => exact List.Forall₂.nil
  | cons a rest ih => exact List.Forall₂.cons (sameRaster_refl a) ih

theorem sameRaster_redPatch (n : Int) (h0 : 0 ≤ n) (hn : n < 9223372036854775808) :
    SameRaster (redSquare n) (redPatch n) := by
  refine ⟨rfl, rfl, ?_⟩
  intro x y hx hy
  rw [redSquare_Dx n h0 hn] at hx
  rw [redSquare_Dy n h0 hn] at hy
  have hc : 0 ≤ (x : Int) ∧ (x : Int) < n ∧ 0 ≤ (y : Int) ∧ (y : Int) < n :=
    ⟨by omega, hx, by omega, hy⟩
  show red = if 0 ≤ (x : Int) ∧ (x : Int) < n ∧ 0 ≤ (y : Int) ∧ (y : Int) < n then red
    else ⟨0, 0, 0, 0⟩
  rw [if_pos hc]

/-- C13. Determinism: the output of `writeICO` is a function of the raster dimensions and
pixel values only: two runs on lists of rasters that agree, raster by raster and in the same
order, on the dimensions and on the pixel values at `0 ≤ x < W`, `0 ≤ y < H`, with the same
`sizes`, from the same sink, issue the same writes and end the same way; in particular two
runs on the same rasters, each into a fresh sink that does not fail, produce byte-identical
output.  The machine does not enter either: two such runs that both complete, on machines
that serve different amounts of memory, produce byte-identical output. -/
theorem C13_determinism (mem : Nat) (images1 images2 : List Image) (sizes : List Int)
    (h : List.Forall₂ SameRaster images1 images2) :
    (∀ w, writeICO mem w images1 sizes = writeICO mem w images2 sizes) ∧
      (writeICO mem okSink images1 sizes).1.bytes = (writeICO mem okSink images2 sizes).1.bytes ∧
      (writeICO mem okSink images1 sizes).2 = (writeICO mem okSink images2 sizes).2 ∧
      ∀ (mem2 : Nat) (sizes2 : List Int) (s1 s2 : Sink), (∀ img ∈ images2, IsRaster img) →
        writeICO mem okSink images1 sizes = (s1, Outcome.nil) →
        writeICO mem2 okSink images2 sizes2 = (s2, Outcome.nil) → s1.bytes = s2.bytes := by
  refine ⟨fun w => writeICO_congr images1 images2 h w sizes, ?_, ?_, ?_⟩
  · rw [writeICO_congr images1 images2 h okSink sizes]
  · rw [writeICO_congr images1 images2 h okSink sizes]
  · intro mem2 sizes2 s1 s2 hr h1 h2
    rw [writeICO_congr images1 images2 h okSink sizes] at h1
    rw [(run_layout images2 sizes s1 hr h1).1, (run_layout images2 sizes2 s2 hr h2).1]

/-- Witness for C13: two red squares, and the same squares given by accessors that differ
outside the bounds, are written to the same bytes. -/
theorem C13_determinism_witness :
    (writeICO maxAlloc okSink twoIcons [16, 32]).1.bytes =
      (writeICO maxAlloc okSink [redPatch 16, redPatch 32] [16, 32]).1.bytes :=
  (C13_determinism maxAlloc twoIcons [redPatch 16, redPatch 32] [16, 32]
    (List.Forall₂.cons (sameRaster_redPatch 16 (by omega) (by omega))
      (List.Forall₂.cons (sameRaster_redPatch 32 (by omega) (by omega)) List.Forall₂.nil))).2.1

/-! ## Totality of the frame packer (C15) -/

/-- In every frame returned for a raster, the bytes of pixel `(x, y)` are the channel bytes
of the accessor value at the absolute coordinates `(x, y)`. -/
theorem createBMPWithAlpha_reads {mem : Nat} (img : Image) (hr : IsRaster img) (d : List Nat)
    (e : Option IOError) (hd : createBMPWithAlpha mem img = some (d, e)) (x y k : Nat)
    (hx : (x : Int) < img.Bounds.Dx) (hy : (y : Int) < img.Bounds.Dy) (hk : k < 4) :
    d[40 + 4 * (y * img.Bounds.Dx.toNat + x) + k]? = some (bgra (img.At x y) k) := by
  obtain ⟨-, hdf, -⟩ := createBMPWithAlpha_frame img hr.wellFormed d e hd
  obtain ⟨w, hw⟩ := Int.eq_ofNat_of_zero_le hr.wellFormed.1
  obtain ⟨h, hh⟩ := Int.eq_ofNat_of_zero_le hr.wellFormed.2
  rw [hw] at hx
  rw [hh] at hy
  rw [hdf, hw, Int.toNat_ofNat]
  exact frame_getElem img w h hw hh x y k (by omega) (by omega) hk

theorem shiftedImage_Dx : shiftedImage.Bounds.Dx = 1 := by
  show wrapInt (2 - 1) = 1
  rw [wrapInt_eq _ (by omega) (by omega)]
  rfl

theorem shiftedImage_Dy : shiftedImage.Bounds.Dy = 1 := by
  show wrapInt (2 - 1) = 1
  rw [wrapInt_eq _ (by omega) (by omega)]
  rfl

theorem shiftedImage_isRaster : IsRaster shiftedImage := by
  unfold IsRaster
  rw [shiftedImage_Dx, shiftedImage_Dy]
  omega

theorem shiftedImage_fits {mem : Nat} (hmem : 44 ≤ mem) : Fits mem shiftedImage := by
  unfold Fits maxAlloc
  rw [shiftedImage_Dx, shiftedImage_Dy]
  exact ⟨hmem, by decide⟩

/-- C18. Coordinate origin: `createBMPWithAlpha` takes `W` and `H` from the bounds but reads
the pixels at the absolute coordinates `(x, y)`, `0 ≤ x < W`, `0 ≤ y < H`, ignoring
`bounds.Min`: in every frame it returns for a raster, the bytes of pixel `(x, y)` are those of
`At(x, y)`; they are the bytes of the pixel of the raster relative to its top-left corner,
`At(Min.X + x, Min.Y + y)`, exactly when the two reads give the same bytes, which is the case
for every raster whose bounds start at `(0,0)`; and for the raster `shiftedImage`, whose
bounds start at `(1,1)`, the frame (returned on every machine that serves its 44 bytes) holds
the red byte 0 of `At(0, 0)` and not the red byte 255 of the pixel of the raster at
`(1, 1)`. -/
theorem C18_coordinate_origin :
    (∀ (mem : Nat) (img : Image) (d : List Nat) (e : Option IOError), IsRaster img →
      createBMPWithAlpha mem img = some (d, e) →
      ∀ x y k : Nat, (x : Int) < img.Bounds.Dx → (y : Int) < img.Bounds.Dy → k < 4 →
        d[40 + 4 * (y * img.Bounds.Dx.toNat + x) + k]? = some (bgra (img.At x y) k) ∧
        (d[40 + 4 * (y * img.Bounds.Dx.toNat + x) + k]? =
            some (bgra (img.At (img.Bounds.Min.X + x) (img.Bounds.Min.Y + y)) k) ↔
          bgra (img.At x y) k =
            bgra (img.At (img.Bounds.Min.X + x) (img.Bounds.Min.Y + y)) k) ∧
        (img.Bounds.Min = ⟨0, 0⟩ →
          d[40 + 4 * (y * img.Bounds.Dx.toNat + x) + k]? =
            some (bgra (img.At (img.Bounds.Min.X + x) (img.Bounds.Min.Y + y)) k))) ∧
      IsRaster shiftedImage ∧ shiftedImage.Bounds.Min = ⟨1, 1⟩ ∧
      ∀ mem, 44 ≤ mem → ∃ d, createBMPWithAlpha mem shiftedImage = some (d, none) ∧
        d[40 + 4 * (0 * shiftedImage.Bounds.Dx.toNat + 0) + 2]? = some 0 ∧
        bgra (shiftedImage.At 0 0) 2 = 0 ∧
        bgra (shiftedImage.At (shiftedImage.Bounds.Min.X + 0)
          (shiftedImage.Bounds.Min.Y + 0)) 2 = 255 := by
  refine ⟨?_, shiftedImage_isRaster, rfl, ?_⟩
  · intro mem img d e hr hd x y k hx hy hk
    have h := createBMPWithAlpha_reads img hr d e hd x y k hx hy hk
    refine ⟨h, ?_, ?_⟩
    · rw [h]
      constructor
      · intro h2; exact Option.some.inj h2
      · intro h2; rw [h2]
    · intro hmin
      rw [h, hmin]
      simp only [zero_add]
  · intro mem hmem
    have hd := createBMPWithAlpha_eq shiftedImage shiftedImage_isRaster.wellFormed.1
      shiftedImage_isRaster.wellFormed.2 (shiftedImage_fits hmem)
    refine ⟨frame shiftedImage, hd, ?_, rfl, rfl⟩
    have h := createBMPWithAlpha_reads shiftedImage shiftedImage_isRaster _ _ hd 0 0 2
      (by rw [shiftedImage_Dx]; decide) (by rw [shiftedImage_Dy]; decide) (by omega)
    rw [h]
    rfl

/-! ## Exact 8-bit truncation (C19) -/

theorem channelByte_widen (c : Nat) (h : c ≤ 255) : channelByte (c * 257) = c := by
  unfold channelByte
  have h1 : c * 257 / 256 = c := by
    rw [show c * 257 = c + 256 * c from by ring, Nat.add_mul_div_left _ _ (by decide),
      Nat.div_eq_of_lt (by omega), Nat.zero_add]
  rw [h1]
  exact Nat.mod_eq_of_lt (by omega)

theorem rgbaImage_At (bounds : Rectangle) (pix : Int → Int → RGBA8) (x y : Int)
    (hin : bounds.Min.X ≤ x ∧ x < bounds.Max.X ∧ bounds.Min.Y ≤ y ∧ y < bounds.Max.Y) :
    (rgbaImage bounds pix).At x y = (pix x y).RGBA := by
  unfold rgbaImage
  simp only [if_pos hin]

/-- With bounds that start at `(0,0)`, the width and the height are the coordinates of the
lower right corner. -/
theorem Rectangle.origin (r : Rectangle) (hmin : r.Min = ⟨0, 0⟩) (hint : r.IsInt) :
    r.Dx = r.Max.X ∧ r.Dy = r.Max.Y := by
  obtain ⟨-, -, ⟨h1, h2⟩, h3, h4⟩ := hint
  unfold Rectangle.Dx Rectangle.Dy
  rw [hmin]
  simp only [sub_zero]
  exact ⟨wrapInt_eq _ h1 h2, wrapInt_eq _ h3 h4⟩

theorem rgbaPair_Dx : rgbaPair.Bounds.Dx = 2 := by
  show wrapInt (2 - 0) = 2
  rw [wrapInt_eq _ (by omega) (by omega)]
  rfl

theorem rgbaPair_Dy : rgbaPair.Bounds.Dy = 1 := by
  show wrapInt (1 - 0) = 1
  rw [wrapInt_eq _ (by omega) (by omega)]
  rfl

theorem rgbaPair_isRaster : IsRaster rgbaPair := by
  unfold IsRaster
  rw [rgbaPair_Dx, rgbaPair_Dy]
  omega

theorem rgbaPair_fits : Fits maxAlloc rgbaPair := by
  unfold Fits maxAlloc
  rw [rgbaPair_Dx, rgbaPair_Dy]
  decide

theorem shiftedRGBA_Dx : shiftedRGBA.Bounds.Dx = 1 := by
  show wrapInt (2 - 1) = 1
  rw [wrapInt_eq _ (by omega) (by omega)]
  rfl

theorem shiftedRGBA_Dy : shiftedRGBA.Bounds.Dy = 1 := by
  show wrapInt (2 - 1) = 1
  rw [wrapInt_eq _ (by omega) (by omega)]
  rfl

theorem shiftedRGBA_isRaster : IsRaster shiftedRGBA := by
  unfold IsRaster
  rw [shiftedRGBA_Dx, shiftedRGBA_Dy]
  omega

theorem shiftedRGBA_fits {mem : Nat} (hmem : 44 ≤ mem) : Fits mem shiftedRGBA := by
  unfold Fits maxAlloc
  rw [shiftedRGBA_Dx, shiftedRGBA_Dy]
  exact ⟨hmem, by decide⟩

/-- C19, counterexample: the raster `shiftedRGBA` has 8-bit RGBA storage and bounds
`[1,2) x [1,2)`; the four stored channel bytes of its only pixel, at `(1,1)`, are 255.  On
every machine that serves the 44 bytes of its frame `createBMPWithAlpha` returns the frame,
and the four bytes of the only pixel of the frame are 0: they are read at `(0,0)`, outside
the bounds, and no stored channel byte is in the frame. -/
theorem C19_counterexample :
    IsRaster shiftedRGBA ∧ shiftedRGBA.Bounds = ⟨⟨1, 1⟩, ⟨2, 2⟩⟩ ∧
      shiftedRGBA.At 1 1 = RGBA8.RGBA ⟨255, 255, 255, 255⟩ ∧
      ∀ mem, 44 ≤ mem → ∃ d, createBMPWithAlpha mem shiftedRGBA = some (d, none) ∧
        d.length = 44 ∧
        d[40]? = some 0 ∧ d[41]? = some 0 ∧ d[42]? = some 0 ∧ d[43]? = some 0 := by
  refine ⟨shiftedRGBA_isRaster, rfl, rfl, ?_⟩
  intro mem hmem
  have hd := createBMPWithAlpha_eq shiftedRGBA shiftedRGBA_isRaster.wellFormed.1
    shiftedRGBA_isRaster.wellFormed.2 (shiftedRGBA_fits hmem)
  have hread := fun k (hk : k < 4) =>
    createBMPWithAlpha_reads shiftedRGBA shiftedRGBA_isRaster _ _ hd 0 0 k
      (by rw [shiftedRGBA_Dx]; decide) (by rw [shiftedRGBA_Dy]; decide) hk
  rw [shiftedRGBA_Dx] at hread
  refine ⟨frame shiftedRGBA, hd, ?_, ?_, ?_, ?_, ?_⟩
  · rw [frame_length, shiftedRGBA_Dx, shiftedRGBA_Dy]
    rfl
  · have h := hread 0 (by omega)
    exact h
  · have h := hread 1 (by omega)
    exact h
  · have h := hread 2 (by omega)
    exact h
  · have h := hread 3 (by omega)
    exact h

/-- C19, amended. Exact 8-bit truncation: for every 8-bit channel value `c` (`0 ≤ c ≤ 255`)
the accessor value `c * 257`, shifted right by 8 and truncated to a byte, is `c`; hence for
every raster with 8-bit RGBA storage whose bounds start at `(0,0)` (the coordinates being
values of a Go `int`), the frame is returned when it can be allocated, and in every frame
`createBMPWithAlpha` returns for it the four bytes of every pixel `(x, y)`, `0 ≤ x < W`,
`0 ≤ y < H`, are the stored channel bytes of that pixel unchanged, in the order
B, G, R, A. -/
theorem C19_exact_truncation (mem : Nat) :
    (∀ c : Nat, c ≤ 255 → channelByte (c * 257) = c) ∧
    ∀ (bounds : Rectangle) (pix : Int → Int → RGBA8),
      bounds.Min = ⟨0, 0⟩ → bounds.IsInt → (∀ x y, (pix x y).Valid) →
      IsRaster (rgbaImage bounds pix) →
      (Fits mem (rgbaImage bounds pix) →
        ∃ d, createBMPWithAlpha mem (rgbaImage bounds pix) = some (d, none)) ∧
      ∀ (d : List Nat) (e : Option IOError),
        createBMPWithAlpha mem (rgbaImage bounds pix) = some (d, e) →
        ∀ x y : Nat, (x : Int) < bounds.Dx → (y : Int) < bounds.Dy →
          d[40 + 4 * (y * bounds.Dx.toNat + x) + 0]? = some (pix x y).B ∧
          d[40 + 4 * (y * bounds.Dx.toNat + x) + 1]? = some (pix x y).G ∧
          d[40 + 4 * (y * bounds.Dx.toNat + x) + 2]? = some (pix x y).R ∧
          d[40 + 4 * (y * bounds.Dx.toNat + x) + 3]? = some (pix x y).A := by
  refine ⟨channelByte_widen, ?_⟩
  intro bounds pix hmin hint h8 hr
  refine ⟨fun hfit => ⟨_, createBMPWithAlpha_eq _ hr.wellFormed.1 hr.wellFormed.2 hfit⟩, ?_⟩
  intro d e hd x y hx hy
  obtain ⟨hDx, hDy⟩ := Rectangle.origin bounds hmin hint
  have hin : bounds.Min.X ≤ (x : Int) ∧ (x : Int) < bounds.Max.X ∧
      bounds.Min.Y ≤ (y : Int) ∧ (y : Int) < bounds.Max.Y := by
    rw [hDx] at hx
    rw [hDy] at hy
    rw [hmin]
    exact ⟨Int.ofNat_nonneg x, hx, Int.ofNat_nonneg y, hy⟩
  have hat := rgbaImage_At bounds pix x y hin
  have hread := fun k (hk : k < 4) =>
    createBMPWithAlpha_reads (rgbaImage bounds pix) hr d e hd x y k hx hy hk
  have hB : (rgbaImage bounds pix).Bounds = bounds := rfl
  rw [hB] at hread
  obtain ⟨hR, hG, hBl, hA⟩ := h8 x y
  refine ⟨?_, ?_, ?_, ?_⟩
  · rw [hread 0 (by omega), hat]
    exact congrArg some (channelByte_widen _ hBl)
  · rw [hread 1 (by omega), hat]
    exact congrArg some (channelByte_widen _ hG)
  · rw [hread 2 (by omega), hat]
    exact congrArg some (channelByte_widen _ hR)
  · rw [hread 3 (by omega), hat]
    exact congrArg some (channelByte_widen _ hA)

/-- Witness for C19: the second pixel of the 2 x 1 raster `rgbaPair`, stored as
`(250, 251, 252, 253)`, is in the frame as the bytes 252, 251, 250, 253. -/
theorem C19_exact_truncation_witness :
    channelByte (255 * 257) = 255 ∧
    ∃ d, createBMPWithAlpha maxAlloc rgbaPair = some (d, none) ∧
      d[40 + 4 * (0 * (2 : Int).toNat + 1) + 0]? = some 252 ∧
      d[40 + 4 * (0 * (2 : Int).toNat + 1) + 1]? = some 251 ∧
      d[40 + 4 * (0 * (2 : Int).toNat + 1) + 2]? = some 250 ∧
      d[40 + 4 * (0 * (2 : Int).toNat + 1) + 3]? = some 253 := by
  have hd := createBMPWithAlpha_eq rgbaPair rgbaPair_isRaster.wellFormed.1
    rgbaPair_isRaster.wellFormed.2 rgbaPair_fits
  refine ⟨(C19_exact_truncation maxAlloc).1 255 (by decide), frame rgbaPair, hd, ?_⟩
  have h := ((C19_exact_truncation maxAlloc).2 ⟨⟨0, 0⟩, ⟨2, 1⟩⟩
    (fun x _ => if x = 0 then ⟨1, 2, 3, 4⟩ else ⟨250, 251, 252, 253⟩) rfl
    (by unfold Rectangle.IsInt isInt64; decide)
    (by
      intro x y
      by_cases hx0 : x = 0
      · simp only [if_pos hx0]
        unfold RGBA8.Valid
        decide
      · simp only [if_neg hx0]
        unfold RGBA8.Valid
        decide)
    rgbaPair_isRaster).2 _ _ hd 1 0
    (by rw [show (⟨⟨0, 0⟩, ⟨2, 1⟩⟩ : Rectangle).Dx = 2 from rgbaPair_Dx]; decide)
    (by rw [show (⟨⟨0, 0⟩, ⟨2, 1⟩⟩ : Rectangle).Dy = 1 from rgbaPair_Dy]; decide)
  rw [show (⟨⟨0, 0⟩, ⟨2, 1⟩⟩ : Rectangle).Dx = 2 from rgbaPair_Dx] at h
  exact h

end ConverterTool
